import Mathlib

/-!
The repository twotwotwo/sz: a Snappy block encoder and a Reader/Writer for the
Snappy framing format.

A shallow embedding of `snappy/encode.go` (the cgo block encoder) and of
`sz.go` (the framing `Writer` and `Reader`), with the properties of the
specification stated and proved over the embedding.

Conventions.
* A byte is a `Fin 256`; a Go `[]byte` / C `char*` range is a `List Byte`.
* C pointers into the source are positions (`Nat`) relative to `sOrig`; the
  hash table holds `Int` positions, the initial entry `s-1` being `-1`.
* The destination cursor `d` is the list of bytes written since `dOrig`, and
  `dEnd` is the distance `dEnd - dOrig`. A `NULL` result is `none`.
* A C `int` has 32 bits. Where `encode.go` converts a pointer difference to
  `int` (the length of a literal, the arguments of `emitCopy`, the result of
  `encode`) the embedding applies `toInt32`; the other `int` values stay in
  range and are natural numbers.
* `sz.go` calls the package `snappy` (its import line names
  `code.google.com/p/snappy-go/snappy` and, as the alternative, the cgo package
  `github.com/twotwotwo/sz/snappy` of this repository). Here `snappy.Encode` and
  `snappy.MaxEncodedLen` are those of `snappy/encode.go`; `snappy.Decode` and
  `snappy.DecodedLen` are not among the sources and follow §4.2 of the
  specification.
* Loops are functions by recursion on a fuel argument, one iteration per unit;
  the callers pass enough fuel, which the theorems establish by proving that a
  result is returned.
-/

namespace Sz

abbrev Byte := Fin 256

/-- Conversion to `char` / `byte`: keep the low eight bits. -/
def byte (n : Nat) : Byte := ⟨n % 256, Nat.mod_lt _ (by decide)⟩

/-! ## snappy/encode.go -/

def HASH_BITS : Nat := 14
def HASH_SHIFT : Nat := 32 - HASH_BITS
def MAXOFFSET : Nat := 1 <<< 15
def TAG_LITERAL : Nat := 0
def TAG_COPY1 : Nat := 1
def TAG_COPY2 : Nat := 2
def TAG_COPY4 : Nat := 3

/-- Conversion to the C type `int` (32 bits, two's complement): the value is
reduced modulo `2^32` into `[-2^31, 2^31)`. -/
def toInt32 (x : Int) : Int := (x + 2147483648) % 4294967296 - 2147483648

/-- Source byte at position `p` (positions outside the source read as 0). -/
def srcAt (src : List Byte) (p : Nat) : Nat := (src.getD p 0).val

/-- The macro `L32(p)`: the little-endian 32-bit load of the four bytes at `p`. -/
def L32 (src : List Byte) (p : Nat) : Nat :=
  srcAt src p ||| (srcAt src (p + 1) <<< 8) ||| (srcAt src (p + 2) <<< 16)
    ||| (srcAt src (p + 3) <<< 24)

/-- The table slot of a 32-bit word: `(h*0x1e35a7bd) >> HASH_SHIFT` in `uint32`. -/
def hashSlot (h : Nat) : Nat := ((h * 0x1e35a7bd) % 2 ^ 32) >>> HASH_SHIFT

/-- The function `emitCopy(d, dEnd, offset, len)`: the `while (len>0)` loop, one iteration per
unit of fuel (each iteration that does not leave the loop lowers `len`, so
`len` units of fuel are enough). `none` is the `NULL` result. -/
def emitCopyLoop (dEnd offset : Nat) : Nat → List Byte → Nat → Option (List Byte)
  | 0, d, len => if len > 0 then none else some d
  | fuel + 1, d, len =>
    if len > 0 then
      if d.length + 3 > dEnd then none
      else
        let l : Int := (len : Int) - 4
        if 0 ≤ l ∧ l < 1 <<< 3 ∧ offset < 1 <<< 11 then
          some (d ++ [byte ((((offset >>> 8) &&& 0x07) <<< 5) ||| (l.toNat <<< 2) ||| TAG_COPY1),
                      byte offset])
        else
          let l := if len > 64 then 64 else len
          emitCopyLoop dEnd offset fuel
            (d ++ [byte (((l - 1) <<< 2) ||| TAG_COPY2), byte offset, byte (offset >>> 8)])
            (len - l)
    else some d

/-- The function `emitCopy(d, dEnd, offset, len)` for `int` arguments that are not negative
(for a negative `len` the loop does not run, as for `len = 0`). -/
def emitCopy (d : List Byte) (dEnd offset len : Nat) : Option (List Byte) :=
  emitCopyLoop dEnd offset len d len

/-- The tag bytes `emitLiteral` writes in front of a literal when its `int len`
has the value `len ≥ 0` (`l = len - 1`). For `len = 0` the `int l` is `-1` and
`l<<2 | TAG_LITERAL` is `-4`, stored as the `char` `0xfc`. An `int` is below
`1L<<32`, so the last `else` is never taken. -/
def literalHeader (len : Nat) : List Byte :=
  let l := len - 1
  if len = 0 then [byte 0xfc]
  else if len < 60 then [byte ((l <<< 2) ||| TAG_LITERAL)]
  else if len < 256 then [byte ((60 <<< 2) ||| TAG_LITERAL), byte l]
  else if len < 1 <<< 16 then [byte ((61 <<< 2) ||| TAG_LITERAL), byte l, byte (l >>> 8)]
  else if len < 1 <<< 24 then
    [byte ((62 <<< 2) ||| TAG_LITERAL), byte l, byte (l >>> 8), byte (l >>> 16)]
  else if len < 1 <<< 32 then
    [byte ((63 <<< 2) ||| TAG_LITERAL), byte l, byte (l >>> 8), byte (l >>> 16), byte (l >>> 24)]
  else []

/-- The function `emitLiteral(d, dEnd, start, end)` with `lit` the bytes of `[start, end)`.
`int len = end-start` is the length converted to `int`. `none` is the `NULL`
result, and also the case of a negative `len` that passes the space check:
`memcpy` then takes `len` as a `size_t` of nearly `2^64`, the copy leaves the
buffers and the program does not go on. -/
def emitLiteral (d : List Byte) (dEnd : Nat) (lit : List Byte) : Option (List Byte) :=
  let len : Int := toInt32 lit.length
  if (d.length : Int) > (dEnd : Int) - 6 - len then none
  else if len < 0 then none
  else some (d ++ literalHeader len.toNat ++ lit.take len.toNat)

/-- The bytes of the source in `[a, b)`. -/
def slice (src : List Byte) (a b : Nat) : List Byte := (src.drop a).take (b - a)

/-- The match extension `while (s<sEnd && *s==*t) ++s, ++t;`, returning the final
`(s, t)`. With `sEnd - s` units of fuel the loop condition is false when the
fuel is used up. -/
def extendMatch (src : List Byte) : Nat → Nat → Nat → Nat × Nat
  | 0, s, t => (s, t)
  | fuel + 1, s, t =>
    if s < src.length ∧ srcAt src s = srcAt src t then extendMatch src fuel (s + 1) (t + 1)
    else (s, t)

/-- The main loop of `encode` together with the final literal. `tbl` is the
hash table, `s` the scan position, `lit` the start of the pending literal and
`d` the output so far. The arguments `s-t` and `s-s0` of `emitCopy` are
converted to `int`; a negative `len` ends the loop of `emitCopy` at once, as
`len = 0` does, and `s-t` is positive. One iteration per unit of fuel; `none`
is the result `-1` (and also what is returned when the fuel runs out, which
`encodeLoop_fuel` below excludes for the fuel `encode` passes). -/
def encodeLoop (src : List Byte) (dEnd : Nat) :
    Nat → (Nat → Int) → Nat → Nat → List Byte → Option (List Byte)
  | 0, _, _, _, _ => none
  | fuel + 1, tbl, s, lit, d =>
    if s + 3 < src.length then
      let h := L32 src s
      let p := hashSlot h
      let t := tbl p
      let tbl1 : Nat → Int := fun i => if i = p then (s : Int) else tbl i
      if t < 0 ∨ (s : Int) - t > (MAXOFFSET : Int) ∨ h ≠ L32 src t.toNat then
        encodeLoop src dEnd fuel tbl1 (s + 1) lit d
      else
        let s0 := s
        let st := extendMatch src (src.length - (s + 4)) (s + 4) (t.toNat + 4)
        match (if lit ≠ s0 then emitLiteral d dEnd (slice src lit s0) else some d) with
        | none => none
        | some d1 =>
          match emitCopy d1 dEnd (toInt32 ((st.1 : Int) - (st.2 : Int))).toNat
              (toInt32 ((st.1 : Int) - (s0 : Int))).toNat with
          | none => none
          | some d2 => encodeLoop src dEnd fuel tbl1 st.1 st.1 d2
    else
      if lit ≠ src.length then emitLiteral d dEnd (slice src lit src.length) else some d

/-- The function `encode(d, dEnd, s, sEnd)`: the bytes written between `dOrig` and the final
`d`, or `none` when `d` is `NULL`. Its `int` result is `-1` for `none` and
otherwise `d-dOrig` converted to `int`, which `Encode` below computes from the
bytes written. Every table slot starts at `s-1`. -/
def encode (dEnd : Nat) (src : List Byte) : Option (List Byte) :=
  encodeLoop src dEnd (src.length + 1) (fun _ => -1) 0 0 []

/-- One successful match test of `encode`: the scan position `s0` (`s` at the
test), the table candidate `t`, the cursors `s1`, `t1` after the extension loop,
and the output `d` at the call `emitCopy(d, dEnd, s-t, s-s0)`, whose arguments
are then `s1 - t1` and `s1 - s0` (converted to `int`). -/
structure Match where
  s0 : Nat
  t : Int
  s1 : Nat
  t1 : Nat
  d : List Byte
  deriving DecidableEq, Repr

/-- The main loop of `encode` once more, returning next to the result of
`encodeLoop` the matches for which `emitCopy` was called, in order. -/
def encodeLoopT (src : List Byte) (dEnd : Nat) :
    Nat → (Nat → Int) → Nat → Nat → List Byte → Option (List Byte) × List Match
  | 0, _, _, _, _ => (none, [])
  | fuel + 1, tbl, s, lit, d =>
    if s + 3 < src.length then
      let h := L32 src s
      let p := hashSlot h
      let t := tbl p
      let tbl1 : Nat → Int := fun i => if i = p then (s : Int) else tbl i
      if t < 0 ∨ (s : Int) - t > (MAXOFFSET : Int) ∨ h ≠ L32 src t.toNat then
        encodeLoopT src dEnd fuel tbl1 (s + 1) lit d
      else
        let s0 := s
        let st := extendMatch src (src.length - (s + 4)) (s + 4) (t.toNat + 4)
        match (if lit ≠ s0 then emitLiteral d dEnd (slice src lit s0) else some d) with
        | none => (none, [])
        | some d1 =>
          let m : Match := { s0 := s0, t := t, s1 := st.1, t1 := st.2, d := d1 }
          match emitCopy d1 dEnd (toInt32 ((st.1 : Int) - (st.2 : Int))).toNat
              (toInt32 ((st.1 : Int) - (s0 : Int))).toNat with
          | none => (none, [m])
          | some d2 =>
            let r := encodeLoopT src dEnd fuel tbl1 st.1 st.1 d2
            (r.1, m :: r.2)
    else
      (if lit ≠ src.length then emitLiteral d dEnd (slice src lit src.length) else some d, [])

/-- The matches of `encode(d, dEnd, s, sEnd)`, see `encodeLoopT`. -/
def encodeMatches (dEnd : Nat) (src : List Byte) : List Match :=
  (encodeLoopT src dEnd (src.length + 1) (fun _ => -1) 0 0 []).2

/-- The function `MaxEncodedLen(srcLen)`. -/
def MaxEncodedLen (srcLen : Nat) : Nat := 32 + srcLen + srcLen / 6

/-- The function `binary.PutUvarint` (Go standard library): the bytes it writes for `x`. -/
def putUvarintLoop : Nat → Nat → List Byte
  | 0, x => [byte x]
  | fuel + 1, x =>
    if x ≥ 0x80 then byte ((x % 256) ||| 0x80) :: putUvarintLoop fuel (x >>> 7)
    else [byte x]

def PutUvarint (x : Nat) : List Byte := putUvarintLoop 9 (x % 2 ^ 64)

/-- The `int` that `encode(d, dEnd, s, sEnd)` returns: `-1` after a `NULL`, and otherwise
`d-dOrig`, the number of bytes written, converted to `int`. -/
def encodeResult (dEnd : Nat) (src : List Byte) : Int :=
  match encode dEnd src with
  | none => -1
  | some out => toInt32 out.length

/-- The function `Encode(dst, src)`: the contents of the returned slice `dst[:d+int(l)]`, where
`l` is the `int` result of `encode` and `dst` holds the varint followed by the
bytes `encode` has written. `none` is the panic "destination buffer too small"
for `l < 0` (or `encode` not returning, see `emitLiteral`). Only the length of
`dst` matters. -/
def Encode (dst src : List Byte) : Option (List Byte) :=
  let n := MaxEncodedLen src.length
  let dstLen := if dst.length < n then n else dst.length
  let v := PutUvarint src.length
  if src.length = 0 then some v
  else
    let l := encodeResult (dstLen - v.length) src
    if l < 0 then none
    else some ((v ++ (encode (dstLen - v.length) src).getD []).take (v.length + l.toNat))

/-! ## The block decoder (spec §4.2) -/

/-- Modelled from the spec: the unsigned varint in front of a block (§6: 7 bits
per byte, least significant group first, high bit = continuation), which
`snappy.DecodedLen` and `snappy.Decode` read; the decoder is not among the
sources. Returns the value and the bytes after it, `none` when the input ends
inside the varint. -/
def uvarint : List Byte → Option (Nat × List Byte)
  | [] => none
  | b :: rest =>
    if b.val < 128 then some (b.val, rest)
    else
      match uvarint rest with
      | none => none
      | some (v, rest1) => some (b.val % 128 + 128 * v, rest1)

/-- Little-endian value of a byte string. -/
def leNat : List Byte → Nat
  | [] => 0
  | b :: bs => b.val + 256 * leNat bs

/-- Modelled from the spec: the effect of a Copy tag (§3, §4.2), `len` bytes
appended one at a time, each the byte `offset` places before the end of the
output produced so far (so a copy may overlap itself). -/
def copyBack (offset : Nat) : Nat → List Byte → List Byte
  | 0, out => out
  | len + 1, out => copyBack offset len (out ++ [out.getD (out.length - offset) 0])

/-- Modelled from the spec: the tag dispatch loop of the block decoder (§4.2,
with the tag layouts of §4.1 and the 32-bit-offset copy of §9), which is not
among the sources. `out` is the output produced so far; one tag per unit of
fuel. It fails when a tag reads past the input or a Copy has offset 0 or an
offset beyond the bytes already produced. -/
def decodeTags : Nat → List Byte → List Byte → Option (List Byte)
  | _, [], out => some out
  | 0, _ :: _, _ => none
  | fuel + 1, b :: rest, out =>
    if b.val % 4 = 0 then
      let x := b.val / 4
      let k := if x < 60 then 0 else x - 59
      if rest.length < k then none
      else
        let len := (if x < 60 then x else leNat (rest.take k)) + 1
        let rest1 := rest.drop k
        if rest1.length < len then none
        else decodeTags fuel (rest1.drop len) (out ++ rest1.take len)
    else
      let k := if b.val % 4 = 1 then 1 else if b.val % 4 = 2 then 2 else 4
      if rest.length < k then none
      else
        let len := if b.val % 4 = 1 then 4 + (b.val / 4) % 8 else 1 + b.val / 4
        let offset :=
          if b.val % 4 = 1 then (b.val / 32) * 256 + leNat (rest.take k) else leNat (rest.take k)
        if offset = 0 ∨ offset > out.length then none
        else decodeTags fuel (rest.drop k) (copyBack offset len out)

/-- Modelled from the spec: `snappy.DecodedLen` (§4.2), the declared length of
the decompressed block. -/
def DecodedLen (src : List Byte) : Option Nat :=
  match uvarint src with
  | none => none
  | some (n, _) => some n

/-- Modelled from the spec: `snappy.Decode` (§4.2): read the declared length,
run the tag loop, and fail unless exactly the declared number of bytes was
produced. -/
def Decode (src : List Byte) : Option (List Byte) :=
  match uvarint src with
  | none => none
  | some (n, tags) =>
    match decodeTags tags.length tags [] with
    | none => none
    | some out => if out.length = n then some out else none

/-- A tag of a compressed block (spec §3): a Literal with its bytes, or a Copy
with its tag type (`TAG_COPY1`, `TAG_COPY2` or `TAG_COPY4`, an element of 2, 3
or 5 bytes), its offset and its length. -/
inductive Element
  | literal (bytes : List Byte)
  | copy (tagType offset len : Nat)
  deriving DecidableEq, Repr

/-- Modelled from the spec: the tag stream of a block split into its elements,
with the tag layouts of §4.1 (and the 32-bit-offset copy of §9) as in
`decodeTags`; the block decoder is not among the sources. One element per unit
of fuel; `none` when an element reads past the input. -/
def parseTags : Nat → List Byte → Option (List Element)
  | _, [] => some []
  | 0, _ :: _ => none
  | fuel + 1, b :: rest =>
    if b.val % 4 = 0 then
      let x := b.val / 4
      let k := if x < 60 then 0 else x - 59
      if rest.length < k then none
      else
        let len := (if x < 60 then x else leNat (rest.take k)) + 1
        let rest1 := rest.drop k
        if rest1.length < len then none
        else
          match parseTags fuel (rest1.drop len) with
          | none => none
          | some els => some (Element.literal (rest1.take len) :: els)
    else
      let k := if b.val % 4 = 1 then 1 else if b.val % 4 = 2 then 2 else 4
      if rest.length < k then none
      else
        let len := if b.val % 4 = 1 then 4 + (b.val / 4) % 8 else 1 + b.val / 4
        let offset :=
          if b.val % 4 = 1 then (b.val / 32) * 256 + leNat (rest.take k) else leNat (rest.take k)
        match parseTags fuel (rest.drop k) with
        | none => none
        | some els => some (Element.copy (b.val % 4) offset len :: els)

/-- The length of the output an element stands for. -/
def Element.size : Element → Nat
  | literal bytes => bytes.length
  | copy _ _ len => len

/-! ## sz.go -/

/-- The error values of `sz.go`: `io.EOF`, `io.ErrUnexpectedEOF`, the four
errors the package declares, and `ErrCorrupt`, the error of `snappy.Decode`. -/
inductive Err
  | EOF
  | ErrUnexpectedEOF
  | ErrFramingCorrupt
  | ErrUnexpectedChunk
  | ErrCRCMismatch
  | ErrStrictMemLimitExceeded
  | ErrCorrupt
  deriving DecidableEq, Repr

def signature : List Byte := [0xff, 0x06, 0x00, 0x00, 0x73, 0x4e, 0x61, 0x50, 0x70, 0x59]

def blockSize : Nat := 1 <<< 16

/-- One bit of the reflected CRC-32C register update (polynomial `0x82f63b78`,
the reflected Castagnoli polynomial of `crc32.Castagnoli`). -/
def crcBit (c : Nat) : Nat := if c % 2 = 1 then (c >>> 1) ^^^ 0x82f63b78 else c >>> 1

def crcByte (c : Nat) (b : Byte) : Nat := crcBit^[8] (c ^^^ b.val)

/-- The calls `crc.Reset(); crc.Write(data); crc.Sum32()` for `crc32.New(castagnoli)` (Go
standard library `hash/crc32`): the CRC-32C of `data`. -/
def crc32c (data : List Byte) : Nat := (data.foldl crcByte 0xffffffff) ^^^ 0xffffffff

/-- The expression `((sum >> 15) | (sum << 17)) + 0xa282ead8` in `uint32`. -/
def maskCRC (sum : Nat) : Nat :=
  (((sum >>> 15) ||| ((sum <<< 17) % 2 ^ 32)) + 0xa282ead8) % 2 ^ 32

/-- The `Writer`. `w` is the sink, represented by all the bytes written to it
(a sink that never fails); `b` is the buffered input `w.b[:w.n]`, so that
`w.n` is `b.length`; `c` is the scratch buffer. -/
structure Writer where
  w : List Byte
  b : List Byte
  c : List Byte

def Writer.n (w : Writer) : Nat := w.b.length

/-- The function `NewWriter(w)` on a sink that has received `sink` so far. -/
def NewWriter (sink : List Byte) : Writer :=
  { w := sink ++ signature, b := [], c := List.replicate (MaxEncodedLen 65536 + 8) 0 }

/-- The eight bytes `Flush` stores in `head`: the chunk type, the chunk length
`n` (payload length + 4) in three bytes, and the masked checksum in four. -/
def chunkHead (type : Byte) (n masked : Nat) : List Byte :=
  [type, byte n, byte (n >>> 8), byte (n >>> 16),
    byte masked, byte (masked >>> 8), byte (masked >>> 16), byte (masked >>> 24)]

/-- The method `Flush()`. `none` is a panic: inside `snappy.Encode`, or of the
index expression `content[0]` in the contiguity test, which Go evaluates only
when the two conjuncts in front of it hold and which panics on an empty
`content`. The returned slice `content` of `snappy.Encode(w.c[8:], ...)` is a
sub-slice of `w.c[8:]` exactly when that destination was long enough
(`aliased`); then the encoded bytes have been written into `w.c` from index 8
on, and `&w.c[8] == &content[0]`. -/
def Writer.Flush (w : Writer) : Option Writer :=
  match Encode (w.c.drop 8) w.b with
  | none => none
  | some enc =>
    let aliased : Bool := ¬ ((w.c.drop 8).length < MaxEncodedLen w.b.length)
    let c1 := if aliased then w.c.take 8 ++ (enc ++ (w.c.drop 8).drop enc.length) else w.c
    let n := enc.length
    let incompressible : Bool := n > w.n
    let type : Byte := if incompressible then 0x01 else 0x00
    let content := if incompressible then w.b else enc
    let n := if incompressible then w.n else n
    let n := n + 4
    let sum := crc32c w.b
    let masked := maskCRC sum
    let c2 := chunkHead type n masked ++ c1.drop 8
    if (!incompressible && decide (c2.length ≥ n + 4)) = true ∧ content = [] then none
    else
      let isContiguous : Bool := !incompressible && decide (c2.length ≥ n + 4) && aliased
      if isContiguous then
        some { w := w.w ++ c2.take (n + 4), b := [], c := c2 }
      else
        some { w := (w.w ++ c2.take 8) ++ content, b := [], c := c2 }

/-- The loop of `Write`, one iteration per unit of fuel; the result is the
writer and the count `n` returned (the error is always nil for a sink that
never fails). `none` is a panic in `Flush` or the fuel running out. -/
def Writer.writeLoop : Nat → Writer → List Byte → Nat → Option (Writer × Nat)
  | 0, _, _, _ => none
  | fuel + 1, w, data, n =>
    if data.length > 0 then
      let copied := min (blockSize - w.n) data.length
      let w1 : Writer := { w with b := w.b ++ data.take copied }
      if w1.n = blockSize then
        match w1.Flush with
        | none => none
        | some w2 => Writer.writeLoop fuel w2 (data.drop copied) (n + copied)
      else Writer.writeLoop fuel w1 (data.drop copied) (n + copied)
    else some (w, n)

def Writer.Write (w : Writer) (data : List Byte) : Option (Writer × Nat) :=
  Writer.writeLoop (data.length + 2) w data 0

def Writer.Close (w : Writer) : Option Writer := w.Flush

/-- The function `io.ReadFull(r, buf)` for a source that holds the bytes `r` and then ends,
with `n = len(buf)`: the bytes read, the error, and the rest of the source. -/
def ReadFull (r : List Byte) (n : Nat) : List Byte × Option Err × List Byte :=
  if n ≤ r.length then (r.take n, none, r.drop n)
  else if r.length = 0 then ([], some Err.EOF, [])
  else (r, some Err.ErrUnexpectedEOF, [])

/-- The `Reader`. `r` is what remains of the source; `dec` is the unread part
of the decoded block. Of `blk` only the capacity is kept: each pull overwrites
`r.blk[:l]` before it looks at it. `spc` is the space `dec` points into. -/
structure Reader where
  r : List Byte
  blkCap : Nat
  dec : List Byte
  strict : Bool
  deriving DecidableEq, Repr

/-- The function `NewReader(r)`. -/
def NewReader (r : List Byte) : Except Err Reader :=
  match ReadFull r 10 with
  | (_, some e, _) => if e = Err.EOF then .error Err.ErrUnexpectedEOF else .error e
  | (firstBytes, none, rest) =>
    if (firstBytes.zip signature).any (fun p => p.1 ≠ p.2) then .error Err.ErrFramingCorrupt
    else .ok { r := rest, blkCap := 0, dec := [], strict := false }

/-- The function `NewReaderStrictMem(r)`. `none` is the run-time panic of the assignment
`szr.strict = true` through the nil `*Reader` that `NewReader` returns together
with an error. -/
def NewReaderStrictMem (r : List Byte) : Option (Except Err Reader) :=
  match NewReader r with
  | .error _ => none
  | .ok szr => some (.ok { szr with strict := true })

def strictBlockLimit : Nat := MaxEncodedLen 65536 + 8

def chunkTypeCompressed : Nat := 0x00
def chunkTypeUncompressed : Nat := 0x01
def chunkTypeFirstSkippable : Nat := 0x80
def chunkTypePadding : Nat := 0xfe
def chunkTypeSig : Nat := 0xff

/-- The `switch tag` of `Read` for a chunk of type `tag` and declared length `l`
whose payload is `blk`: the value of `r.dec` after it (`dec0` before it), or the
error with which `Read` returns. -/
def chunkSwitch (tag l : Nat) (blk dec0 : List Byte) : Except Err (List Byte) :=
  if tag = chunkTypeCompressed then
    match DecodedLen (blk.drop 4) with
    | none => .error Err.ErrFramingCorrupt
    | some decodedLen =>
      if decodedLen > blockSize then .error Err.ErrFramingCorrupt
      else
        match Decode (blk.drop 4) with
        | none => .error Err.ErrCorrupt
        | some dec => .ok dec
  else if tag = chunkTypeUncompressed then
    if l > blockSize + 4 then .error Err.ErrFramingCorrupt
    else .ok ((blk.drop 4).take blockSize)
  else if tag = chunkTypeSig then
    if l ≠ 6 then .error Err.ErrFramingCorrupt
    else if (blk.zip (signature.drop 4)).any (fun p => p.1 ≠ p.2) then
      .error Err.ErrFramingCorrupt
    else .ok dec0
  else if tag < chunkTypeFirstSkippable then .error Err.ErrUnexpectedChunk
  else .ok dec0

/-- The part of the loop body of `Read` after the payload `blk` of a chunk has
been read in full: extract the checksum, run the `switch tag`, check the CRC.
`.error (e, r1)` is the `return` with error `e`, the reader being left as `r1`;
`.ok r2` is reaching the end of the loop body. (`ErrCorrupt` comes from
`snappy.Decode` only, see `chunkSwitch`.) -/
def Reader.process (r1 : Reader) (tag l : Nat) (blk : List Byte) : Except (Err × Reader) Reader :=
  if (tag = chunkTypeCompressed ∨ tag = chunkTypeUncompressed) ∧ blk.length < 4 then
    .error (Err.ErrFramingCorrupt, r1)
  else
    let masked :=
      if tag = chunkTypeCompressed ∨ tag = chunkTypeUncompressed then
        (blk.getD 0 0).val + ((blk.getD 1 0).val <<< 8) + ((blk.getD 2 0).val <<< 16)
          + ((blk.getD 3 0).val <<< 24)
      else 0
    match chunkSwitch tag l blk r1.dec with
    | .error e =>
      -- a failed `snappy.Decode` has assigned its nil result to `r.dec`
      .error (e, if e = Err.ErrCorrupt then { r1 with dec := [] } else r1)
    | .ok dec =>
      let r2 : Reader := { r1 with dec := dec }
      if (tag = chunkTypeCompressed ∨ tag = chunkTypeUncompressed)
          ∧ maskCRC (crc32c r2.dec) ≠ masked then
        .error (Err.ErrCRCMismatch, r2)
      else .ok r2

/-- One pass through the part of the loop body of `Read` that pulls a chunk
(from "then read another block head" to the CRC check), entered when `r.dec`
is empty: read the 4-byte head, apply the strict limit, size `r.blk`, read the
payload, and process it. -/
def Reader.pull (r : Reader) : Except (Err × Reader) Reader :=
  match ReadFull r.r 4 with
  | (_, some e, rest) => .error (e, { r with r := rest })
  | (head, none, rest) =>
    let tag := (head.getD 0 0).val
    let l := (head.getD 1 0).val + ((head.getD 2 0).val <<< 8) + ((head.getD 3 0).val <<< 16)
    if r.strict ∧ l > strictBlockLimit then
      .error (Err.ErrStrictMemLimitExceeded, { r with r := rest })
    else
      let cap := if r.blkCap < l then l else r.blkCap
      match ReadFull rest l with
      | (_, some e, rest2) =>
        .error (if e = Err.EOF then Err.ErrUnexpectedEOF else e,
          { r with r := rest2, blkCap := cap })
      | (blk, none, rest2) =>
        Reader.process { r with r := rest2, blkCap := cap } tag l blk

/-- The loop of `Read(p)`: `plen` is `len(p)`, `out` the bytes copied into `p` so
far (`n = out.length`). One iteration per unit of fuel. The result is `p[:n]`,
the error and the reader afterwards; `none` only when the fuel runs out. -/
def Reader.readLoop : Nat → Reader → Nat → List Byte → Option (List Byte × Option Err × Reader)
  | 0, _, _, _ => none
  | fuel + 1, r, plen, out =>
    if out.length < plen then
      if r.dec.length > 0 then
        let copied := min (plen - out.length) r.dec.length
        Reader.readLoop fuel { r with dec := r.dec.drop copied } plen (out ++ r.dec.take copied)
      else
        match r.pull with
        | .error (e, r1) => some (out, some e, r1)
        | .ok r2 => Reader.readLoop fuel r2 plen out
    else some (out, none, r)

/-- The method `Read(p)` with `len(p) = plen`. Every chunk pulled takes at least four
bytes from the source and is followed by at most one copying iteration, so
`len(source) + 2` iterations are enough. -/
def Reader.Read (r : Reader) (plen : Nat) : Option (List Byte × Option Err × Reader) :=
  Reader.readLoop (r.r.length + 2) r plen []

/-! ## The chunk wire format in the words of the specification (§6) -/

/-- Three-byte little-endian representation. -/
def LE24 (n : Nat) : List Byte := [byte (n % 256), byte (n / 256 % 256), byte (n / 65536 % 256)]

/-- Four-byte little-endian representation. -/
def LE32 (n : Nat) : List Byte :=
  [byte (n % 256), byte (n / 256 % 256), byte (n / 65536 % 256), byte (n / 16777216 % 256)]

/-- Rotation of a 32-bit word to the right by `k` places (`k ≤ 32`). -/
def rotateRight32 (x k : Nat) : Nat := x / 2 ^ k + (x % 2 ^ k) * 2 ^ (32 - k)

/-- The masked checksum of §6: the CRC-32C rotated right by 15, plus
`0xA282EAD8`, modulo `2^32`. -/
def maskedChecksum (data : List Byte) : Nat :=
  (rotateRight32 (crc32c data) 15 + 0xA282EAD8) % 2 ^ 32

/-- A data chunk on the wire: type, 3-byte length of checksum and payload,
4-byte masked checksum of the uncompressed bytes `B`, payload `P`. -/
def wireChunk (type : Byte) (B P : List Byte) : List Byte :=
  [type] ++ LE24 (4 + P.length) ++ LE32 (maskedChecksum B) ++ P

/-! ## Sequences of calls -/

/-- A sequence of `Write` calls, one for each element of `ds`, in order. -/
def Writer.writes : Writer → List (List Byte) → Option Writer
  | w, [] => some w
  | w, d :: ds =>
    match w.Write d with
    | none => none
    | some (w1, _) => Writer.writes w1 ds

/-- A sequence of `Read` calls with buffers of the lengths `ps`, in order: what
each call returned (`p[:n]` and the error). -/
def Reader.reads : Reader → List Nat → Option (List (List Byte × Option Err))
  | _, [] => some []
  | r, p :: ps =>
    match r.Read p with
    | none => none
    | some (out, e, r1) =>
      match Reader.reads r1 ps with
      | none => none
      | some l => some ((out, e) :: l)

/-- What a sequence of `Read` calls returns when it delivers exactly the bytes
`S`, in order, and then `io.EOF`: each call fills its buffer from what is left,
and reports `io.EOF` (and no other error) exactly when less than a full buffer
was left. -/
def expectedReads : List Byte → List Nat → List (List Byte × Option Err)
  | _, [] => []
  | S, p :: ps =>
    (S.take p, if S.length < p then some Err.EOF else none) :: expectedReads (S.drop p) ps

/-- The chunk of a block `B` in a stream of the `Writer`: Uncompressed when the
encoding is longer than the block, Compressed otherwise. -/
def frame (B : List Byte) : List Byte :=
  match Encode [] B with
  | none => []
  | some enc => if enc.length > B.length then wireChunk 0x01 B B else wireChunk 0x00 B enc

/-- The chunks of a sequence of blocks, one after the other. -/
def frames (blocks : List (List Byte)) : List Byte := (blocks.map frame).flatten

/-- Byte `i` of a sequence of three-byte records `00 x y`, in which `x` and `y`,
both in `1..255`, are the two digits of the record number `(i / 3) % 65025`. -/
def recordByte (i : Nat) : Byte :=
  if i % 3 = 0 then 0
  else if i % 3 = 1 then byte (1 + (i / 3) % 65025 / 255)
  else byte (1 + (i / 3) % 65025 % 255)

/-- The first `n` bytes of the sequence of records: an input in which no four
consecutive bytes occur again within the next 195074 positions. -/
def recordInput (n : Nat) : List Byte := (List.range n).map recordByte

/-- A call on a `Writer`: `Write(data)` or `Flush()`. -/
inductive Call
  | Write (data : List Byte)
  | Flush

/-- The bytes a call hands to the `Writer`. -/
def Call.data : Call → List Byte
  | Call.Write data => data
  | Call.Flush => []

/-- A sequence of `Write` and `Flush` calls on a `Writer`, in order. -/
def Writer.calls : Writer → List Call → Option Writer
  | w, [] => some w
  | w, Call.Write d :: cs =>
    match w.Write d with
    | none => none
    | some (w1, _) => Writer.calls w1 cs
  | w, Call.Flush :: cs =>
    match w.Flush with
    | none => none
    | some w1 => Writer.calls w1 cs

/-- The byte `b` with bit `k` flipped. -/
def flipBit (b : Byte) (k : Nat) : Byte := byte (b.val ^^^ (1 <<< k))

/-- The byte string `blk` with bit `k` of the byte at index `i` flipped. -/
def flipAt (blk : List Byte) (i k : Nat) : List Byte :=
  blk.take i ++ flipBit (blk.getD i 0) k :: blk.drop (i + 1)

/-- The tag string `bs` takes the decoder from output `pre` to output `post`,
whatever follows it, using at most one unit of fuel per byte of `bs`. -/
def Dec (bs pre post : List Byte) : Prop :=
  ∃ n, n ≤ bs.length ∧
    ∀ (rest : List Byte) (k : Nat), decodeTags (k + n) (bs ++ rest) pre = decodeTags k rest post

/-! ## Arithmetic of the tag bytes -/

theorem byte_val (n : Nat) : (byte n).val = n % 256 := rfl

theorem or_shl (a b k : Nat) (h : a < 2 ^ k) : a ||| (b <<< k) = a + b * 2 ^ k := by
  rw [Nat.shiftLeft_eq, Nat.lor_comm, Nat.mul_comm, ← Nat.mul_add_lt_is_or h]
  omega

theorem L32_eq (src : List Byte) (p : Nat) :
    L32 src p = srcAt src p + srcAt src (p + 1) * 256 + srcAt src (p + 2) * 65536
      + srcAt src (p + 3) * 16777216 := by
  have h0 : srcAt src p < 256 := (src.getD p 0).isLt
  have h1 : srcAt src (p + 1) < 256 := (src.getD (p + 1) 0).isLt
  have h2 : srcAt src (p + 2) < 256 := (src.getD (p + 2) 0).isLt
  unfold L32
  rw [or_shl _ _ 8 (by omega), or_shl _ _ 16 (by omega), or_shl _ _ 24 (by omega)]
  norm_num

theorem copy1_tag (a l : Nat) (ha : a < 8) (hl : l < 8) :
    ((a <<< 5) ||| (l <<< 2) ||| TAG_COPY1) = a * 32 + l * 4 + 1 := by
  have h : ∀ a, a < 8 → ∀ l, l < 8 →
      ((a <<< 5) ||| (l <<< 2) ||| TAG_COPY1) = a * 32 + l * 4 + 1 := by decide
  exact h a ha l hl

theorem copy2_tag (l : Nat) (hl : l < 64) : ((l <<< 2) ||| TAG_COPY2) = l * 4 + 2 := by
  have h : ∀ l, l < 64 → ((l <<< 2) ||| TAG_COPY2) = l * 4 + 2 := by decide
  exact h l hl

theorem decodeTags_nil (k : Nat) (out : List Byte) : decodeTags k [] out = some out := by
  cases k <;> rfl

theorem leNat_one (a : Byte) : leNat [a] = a.val := by simp [leNat]

theorem leNat_two (a b : Byte) : leNat [a, b] = a.val + 256 * b.val := by simp [leNat]

theorem leNat_three (a b c : Byte) : leNat [a, b, c] = a.val + 256 * (b.val + 256 * c.val) := by
  simp [leNat]

theorem leNat_four (a b c d : Byte) :
    leNat [a, b, c, d] = a.val + 256 * (b.val + 256 * (c.val + 256 * d.val)) := by
  simp [leNat]

theorem decodeTags_lit_short (k : Nat) (b : Byte) (L rest out : List Byte)
    (hb : b.val % 4 = 0) (hx : b.val / 4 < 60) (hL : L.length = b.val / 4 + 1) :
    decodeTags (k + 1) (b :: (L ++ rest)) out = decodeTags k rest (out ++ L) := by
  simp only [decodeTags, hb, hx, if_true, List.drop_zero, ← hL]
  simp

theorem decodeTags_lit_long (k : Nat) (b : Byte) (ext L rest out : List Byte)
    (hb : b.val % 4 = 0) (hx : 60 ≤ b.val / 4) (he : ext.length = b.val / 4 - 59)
    (hL : L.length = leNat ext + 1) :
    decodeTags (k + 1) (b :: (ext ++ (L ++ rest))) out = decodeTags k rest (out ++ L) := by
  have hx2 : ¬ b.val / 4 < 60 := by omega
  simp only [decodeTags, hb, hx2, if_true, if_false, ← he, List.take_left, List.drop_left, ← hL]
  simp

/-- Decoding the element written by `emitLiteral` appends the literal. -/
theorem decodeTags_literal (k : Nat) (L rest out : List Byte) (h0 : 0 < L.length)
    (h1 : L.length < 2 ^ 32) :
    decodeTags (k + 1) (literalHeader L.length ++ L ++ rest) out = decodeTags k rest (out ++ L) := by
  unfold literalHeader
  have hz : ¬ L.length = 0 := by omega
  simp only [TAG_LITERAL, Nat.or_zero, if_neg hz]
  split_ifs with c1 c2 c3 c4 c5
  · have hv : (byte ((L.length - 1) <<< 2)).val = (L.length - 1) * 4 := by
      rw [byte_val, Nat.shiftLeft_eq]; omega
    have := decodeTags_lit_short k (byte ((L.length - 1) <<< 2)) L rest out
      (by rw [hv]; omega) (by rw [hv]; omega) (by rw [hv]; omega)
    simpa using this
  · have hv : (byte (60 <<< 2)).val = 240 := by decide
    have := decodeTags_lit_long k (byte (60 <<< 2)) [byte (L.length - 1)] L rest out
      (by rw [hv]) (by rw [hv]) (by rw [hv]; rfl)
      (by rw [leNat_one, byte_val]; omega)
    simpa using this
  · have hv : (byte (61 <<< 2)).val = 244 := by decide
    have c3' : L.length < 65536 := c3
    have := decodeTags_lit_long k (byte (61 <<< 2))
      [byte (L.length - 1), byte ((L.length - 1) >>> 8)] L rest out
      (by rw [hv]) (by rw [hv]; decide) (by rw [hv]; rfl)
      (by rw [leNat_two, byte_val, byte_val, Nat.shiftRight_eq_div_pow]; omega)
    simpa using this
  · have hv : (byte (62 <<< 2)).val = 248 := by decide
    have c4' : L.length < 16777216 := c4
    have := decodeTags_lit_long k (byte (62 <<< 2))
      [byte (L.length - 1), byte ((L.length - 1) >>> 8), byte ((L.length - 1) >>> 16)] L rest out
      (by rw [hv]) (by rw [hv]; decide) (by rw [hv]; rfl)
      (by rw [leNat_three, byte_val, byte_val, byte_val, Nat.shiftRight_eq_div_pow,
            Nat.shiftRight_eq_div_pow]; omega)
    simpa using this
  · have hv : (byte (63 <<< 2)).val = 252 := by decide
    have c5' : L.length < 4294967296 := c5
    have := decodeTags_lit_long k (byte (63 <<< 2))
      [byte (L.length - 1), byte ((L.length - 1) >>> 8), byte ((L.length - 1) >>> 16),
        byte ((L.length - 1) >>> 24)] L rest out
      (by rw [hv]) (by rw [hv]; decide) (by rw [hv]; rfl)
      (by rw [leNat_four, byte_val, byte_val, byte_val, byte_val, Nat.shiftRight_eq_div_pow,
            Nat.shiftRight_eq_div_pow, Nat.shiftRight_eq_div_pow]; omega)
    simpa using this
  · exact absurd h1 c5

theorem literalHeader_length (len : Nat) :
    6 * (literalHeader len).length ≤ len + 6 ∧ (literalHeader len).length ≤ 5 := by
  unfold literalHeader
  have e16 : (1 : Nat) <<< 16 = 65536 := by decide
  have e24 : (1 : Nat) <<< 24 = 16777216 := by decide
  simp only [e16, e24]
  split_ifs <;> simp <;> omega

theorem decodeTags_copy1 (k : Nat) (b o : Byte) (rest out : List Byte) (hb : b.val % 4 = 1)
    (h0 : 0 < (b.val / 32) * 256 + o.val) (h1 : (b.val / 32) * 256 + o.val ≤ out.length) :
    decodeTags (k + 1) (b :: o :: rest) out
      = decodeTags k rest (copyBack ((b.val / 32) * 256 + o.val) (4 + (b.val / 4) % 8) out) := by
  have hb0 : ¬ b.val % 4 = 0 := by omega
  have h2 : ¬ ((b.val / 32) * 256 + o.val = 0 ∨ (b.val / 32) * 256 + o.val > out.length) := by omega
  simp only [decodeTags, hb, hb0, if_true, if_false, List.take_succ_cons, List.take_zero,
    leNat_one, h2, List.drop_succ_cons, List.drop_zero, List.length_cons]
  simp

theorem decodeTags_copy2 (k : Nat) (b o0 o1 : Byte) (rest out : List Byte) (hb : b.val % 4 = 2)
    (h0 : 0 < o0.val + 256 * o1.val) (h1 : o0.val + 256 * o1.val ≤ out.length) :
    decodeTags (k + 1) (b :: o0 :: o1 :: rest) out
      = decodeTags k rest (copyBack (o0.val + 256 * o1.val) (1 + b.val / 4) out) := by
  have hb0 : ¬ b.val % 4 = 0 := by omega
  have hb1 : ¬ b.val % 4 = 1 := by omega
  have h2 : ¬ (o0.val + 256 * o1.val = 0 ∨ o0.val + 256 * o1.val > out.length) := by omega
  have h3 : ¬ (rest.length + 1 + 1 < 2) := by omega
  have h4 : ¬ (o0.val + 256 * o1.val = 0 ∨ out.length < o0.val + 256 * o1.val) := by omega
  have e : leNat [o0, o1] = o0.val + 256 * o1.val := leNat_two o0 o1
  simp only [decodeTags, hb, show ¬ (2 : Nat) = 0 by decide, show ¬ (2 : Nat) = 1 by decide,
    if_false, if_true, List.take_succ_cons, List.take_zero, List.drop_succ_cons, List.drop_zero,
    List.length_cons, e, h3, h2]

theorem copyBack_length (offset : Nat) : ∀ (n : Nat) (out : List Byte),
    (copyBack offset n out).length = out.length + n := by
  intro n
  induction n with
  | zero => intro out; rfl
  | succ n ih => intro out; simp only [copyBack, ih, List.length_append, List.length_singleton]; omega

theorem copyBack_add (offset : Nat) : ∀ (a b : Nat) (out : List Byte),
    copyBack offset (a + b) out = copyBack offset b (copyBack offset a out) := by
  intro a
  induction a with
  | zero => intro b out; simp [copyBack]
  | succ a ih =>
    intro b out
    rw [show a + 1 + b = (a + b) + 1 by omega]
    simp only [copyBack, ih]

theorem Dec_nil (out : List Byte) : Dec [] out out :=
  ⟨0, Nat.le_refl _, fun _ _ => rfl⟩

theorem Dec_append {b1 b2 x y z : List Byte} (h1 : Dec b1 x y) (h2 : Dec b2 y z) :
    Dec (b1 ++ b2) x z := by
  obtain ⟨n1, hn1, e1⟩ := h1
  obtain ⟨n2, hn2, e2⟩ := h2
  refine ⟨n2 + n1, by simp only [List.length_append]; omega, fun rest k => ?_⟩
  rw [← Nat.add_assoc, List.append_assoc, e1, e2]

theorem Dec_run {bs out : List Byte} (h : Dec bs [] out) :
    decodeTags bs.length bs [] = some out := by
  obtain ⟨n, hn, e⟩ := h
  have := e [] (bs.length - n)
  rw [Nat.sub_add_cancel hn, List.append_nil, decodeTags_nil] at this
  exact this

theorem and7 (x : Nat) : x &&& 0x07 = x % 8 := Nat.and_pow_two_sub_one_eq_mod x 3

theorem copy1_byte (offset len : Nat) (h4 : 4 ≤ len) (h11 : len < 12) (ho : offset < 2048) :
    (byte ((((offset >>> 8) &&& 0x07) <<< 5) ||| (((len : Int) - 4).toNat <<< 2) ||| TAG_COPY1)).val
      = (offset / 256) * 32 + (len - 4) * 4 + 1 := by
  have e : ((len : Int) - 4).toNat = len - 4 := by omega
  rw [e, and7, Nat.shiftRight_eq_div_pow, copy1_tag _ _ (Nat.mod_lt _ (by decide)) (by omega),
    byte_val]
  omega

theorem copy2_byte (l : Nat) (h1 : 1 ≤ l) (h64 : l ≤ 64) :
    (byte (((l - 1) <<< 2) ||| TAG_COPY2)).val = (l - 1) * 4 + 2 := by
  rw [copy2_tag _ (by omega), byte_val]
  omega

/-- What `emitCopy` writes when there is room: at most `max len 4 - 1` bytes,
which the decoder reads as a copy of `len` bytes from `offset` back. -/
theorem emitCopyLoop_spec (offset : Nat) (ho0 : 0 < offset) (ho1 : offset ≤ 32768) :
    ∀ (fuel : Nat) (d : List Byte) (len : Nat), len ≤ fuel →
      ∃ bs, (∀ dEnd, (len = 0 ∨ d.length + max len 3 ≤ dEnd) →
          emitCopyLoop dEnd offset fuel d len = some (d ++ bs)) ∧
        (len = 0 → bs = []) ∧ bs.length + 1 ≤ max len 4 ∧
        ∀ out : List Byte, offset ≤ out.length → Dec bs out (copyBack offset len out) := by
  intro fuel
  induction fuel with
  | zero =>
    intro d len hf
    have : len = 0 := by omega
    subst this
    exact ⟨[], fun _ _ => by simp [emitCopyLoop], fun _ => rfl, by simp,
      fun out _ => Dec_nil out⟩
  | succ fuel ih =>
    intro d len hf
    by_cases hl : len = 0
    · subst hl
      exact ⟨[], fun _ _ => by simp [emitCopyLoop], fun _ => rfl, by simp,
        fun out _ => Dec_nil out⟩
    · have hpos : len > 0 := by omega
      by_cases hc : (0 : Int) ≤ (len : Int) - 4 ∧ (len : Int) - (4 : Int) < ((1 <<< 3 : Nat) : Int)
          ∧ offset < 1 <<< 11
      · have h8 : ((1 <<< 3 : Nat) : Int) = 8 := by decide
        have h2048 : (1 : Nat) <<< 11 = 2048 := by decide
        have hc1 := hc
        rw [h8, h2048] at hc1
        obtain ⟨c1, c2, c3⟩ := hc1
        refine ⟨[byte ((((offset >>> 8) &&& 0x07) <<< 5) ||| (((len : Int) - 4).toNat <<< 2)
            ||| TAG_COPY1), byte offset], ?_, fun h => absurd h hl, by simp, ?_⟩
        · intro dEnd hsp
          have hsp1 : ¬ (d.length + 3 > dEnd) := by omega
          unfold emitCopyLoop
          rw [if_pos hpos, if_neg hsp1]
          dsimp only
          rw [if_pos hc]
        · intro out hout
          refine ⟨1, by simp, fun rest k => ?_⟩
          have hb := copy1_byte offset len (by omega) (by omega) c3
          have hov : (byte offset).val = offset % 256 := byte_val offset
          have := decodeTags_copy1 k _ (byte offset) rest out (by rw [hb]; omega)
            (by rw [hb, hov]; omega) (by rw [hb, hov]; omega)
          rw [hb, hov] at this
          rw [show (offset / 256 * 32 + (len - 4) * 4 + 1) / 32 * 256 + offset % 256 = offset
            by omega, show 4 + (offset / 256 * 32 + (len - 4) * 4 + 1) / 4 % 8 = len by omega] at this
          simpa using this
      · obtain ⟨l, hle⟩ : ∃ l, l = (if len > 64 then 64 else len) := ⟨_, rfl⟩
        have hl1 : 1 ≤ l ∧ l ≤ 64 ∧ l ≤ len ∧ (len ≤ 64 → l = len) ∧ (len > 64 → l = 64) := by
          rw [hle]; split_ifs <;> omega
        obtain ⟨l1, l2, l3, l4, l5⟩ := hl1
        obtain ⟨bs1, e1, z1, sz1, dec1⟩ := ih
          (d ++ [byte (((l - 1) <<< 2) ||| TAG_COPY2), byte offset, byte (offset >>> 8)])
          (len - l) (by omega)
        refine ⟨[byte (((l - 1) <<< 2) ||| TAG_COPY2), byte offset, byte (offset >>> 8)] ++ bs1,
          ?_, fun h => absurd h hl, ?_, ?_⟩
        · intro dEnd hsp
          have hsp1 : ¬ (d.length + 3 > dEnd) := by omega
          unfold emitCopyLoop
          rw [if_pos hpos, if_neg hsp1]
          dsimp only
          rw [if_neg hc, ← hle, e1 dEnd
            (by simp only [List.length_append, List.length_cons, List.length_nil]; omega),
            List.append_assoc]
        · by_cases h0 : len - l = 0
          · rw [z1 h0]; simp only [List.length_append, List.length_cons, List.length_nil]; omega
          · simp only [List.length_append, List.length_cons, List.length_nil]; omega
        · intro out hout
          have hb := copy2_byte l l1 l2
          have h0 : (byte offset).val = offset % 256 := byte_val offset
          have h1 : (byte (offset >>> 8)).val = offset / 256 := by
            rw [byte_val, Nat.shiftRight_eq_div_pow]; omega
          have step : Dec [byte (((l - 1) <<< 2) ||| TAG_COPY2), byte offset, byte (offset >>> 8)]
              out (copyBack offset l out) := by
            refine ⟨1, by simp, fun rest k => ?_⟩
            have := decodeTags_copy2 k _ (byte offset) (byte (offset >>> 8)) rest out
              (by rw [hb]; omega) (by rw [h0, h1]; omega) (by rw [h0, h1]; omega)
            rw [hb, h0, h1, show offset % 256 + 256 * (offset / 256) = offset by omega,
              show 1 + ((l - 1) * 4 + 2) / 4 = l by omega] at this
            simpa using this
          have h2 := dec1 (copyBack offset l out) (by rw [copyBack_length]; omega)
          rw [← copyBack_add, show l + (len - l) = len by omega] at h2
          exact Dec_append step h2

theorem toInt32_of_lt (x : Nat) (h : x < 2 ^ 31) : toInt32 (x : Int) = (x : Int) := by
  have h' : x < 2147483648 := h
  unfold toInt32
  omega

theorem toInt32_toNat (x : Nat) (h : x < 2 ^ 31) : (toInt32 (x : Int)).toNat = x := by
  rw [toInt32_of_lt x h, Int.toNat_ofNat]

theorem toInt32_sub (a b : Nat) (hb : b ≤ a) (h : a - b < 2 ^ 31) :
    (toInt32 ((a : Int) - (b : Int))).toNat = a - b := by
  rw [← Int.ofNat_sub hb, toInt32_toNat _ h]

/-- For a literal shorter than `2^31` bytes the conversion of its length to `int`
changes nothing: `emitLiteral` checks the room and writes the header and the
bytes. -/
theorem emitLiteral_eq (d : List Byte) (dEnd : Nat) (L : List Byte) (h : L.length < 2 ^ 31) :
    emitLiteral d dEnd L
      = if d.length + 6 + L.length > dEnd then none
        else some (d ++ literalHeader L.length ++ L) := by
  unfold emitLiteral
  rw [toInt32_of_lt _ h]
  dsimp only
  by_cases c : d.length + 6 + L.length > dEnd
  · rw [if_pos c, if_pos (by omega)]
  · rw [if_neg c, if_neg (by omega), if_neg (by omega), Int.toNat_ofNat, List.take_length]

theorem emitLiteral_spec (d : List Byte) (dEnd : Nat) (L : List Byte) (h0 : 0 < L.length)
    (h1 : L.length < 2 ^ 31) (hsp : d.length + 6 + L.length ≤ dEnd) :
    emitLiteral d dEnd L = some (d ++ (literalHeader L.length ++ L)) ∧
      ∀ out : List Byte, Dec (literalHeader L.length ++ L) out (out ++ L) := by
  constructor
  · rw [emitLiteral_eq d dEnd L h1, if_neg (by omega), List.append_assoc]
  · intro out
    refine ⟨1, by simp only [List.length_append]; omega, fun rest k => ?_⟩
    exact decodeTags_literal k L rest out h0 (lt_trans h1 (by norm_num))

theorem getD_take_lt (S : List Byte) (s i : Nat) (h : i < s) :
    (S.take s).getD i 0 = S.getD i 0 := by
  simp only [List.getD_eq_getElem?_getD, List.getElem?_take_of_lt h]

theorem take_succ_getD (S : List Byte) (s : Nat) (h : s < S.length) :
    S.take s ++ [S.getD s 0] = S.take (s + 1) := by
  rw [List.take_succ, List.getD_eq_getElem?_getD, List.getElem?_eq_getElem h]
  rfl

/-- A copy whose source bytes repeat the bytes `off` places earlier extends a
prefix of `S` to a longer prefix. -/
theorem copyBack_take (S : List Byte) (off : Nat) (hoff : 0 < off) :
    ∀ (n s : Nat), off ≤ s → s + n ≤ S.length →
      (∀ i, i < n → S.getD (s + i) 0 = S.getD (s + i - off) 0) →
      copyBack off n (S.take s) = S.take (s + n) := by
  intro n
  induction n with
  | zero => intro s _ _ _; rfl
  | succ n ih =>
    intro s hs hn hm
    have hlen : (S.take s).length = s := by rw [List.length_take]; omega
    have h0 := hm 0 (by omega)
    simp only [Nat.add_zero] at h0
    rw [copyBack, hlen, getD_take_lt S s (s - off) (by omega), ← h0,
      take_succ_getD S s (by omega), ih (s + 1) (by omega) (by omega)]
    · rw [show s + 1 + n = s + (n + 1) by omega]
    · intro i hi
      have := hm (i + 1) (by omega)
      rw [show s + 1 + i = s + (i + 1) by omega]
      exact this

theorem srcAt_eq (S : List Byte) (a b : Nat) (h : srcAt S a = srcAt S b) :
    S.getD a 0 = S.getD b 0 := Fin.ext h

theorem L32_inj (S : List Byte) (s t : Nat) (h : L32 S s = L32 S t) :
    ∀ j, j < 4 → srcAt S (s + j) = srcAt S (t + j) := by
  rw [L32_eq, L32_eq] at h
  have a0 : srcAt S s < 256 := (S.getD s 0).isLt
  have a1 : srcAt S (s + 1) < 256 := (S.getD (s + 1) 0).isLt
  have a2 : srcAt S (s + 2) < 256 := (S.getD (s + 2) 0).isLt
  have a3 : srcAt S (s + 3) < 256 := (S.getD (s + 3) 0).isLt
  have b0 : srcAt S t < 256 := (S.getD t 0).isLt
  have b1 : srcAt S (t + 1) < 256 := (S.getD (t + 1) 0).isLt
  have b2 : srcAt S (t + 2) < 256 := (S.getD (t + 2) 0).isLt
  have b3 : srcAt S (t + 3) < 256 := (S.getD (t + 3) 0).isLt
  intro j hj
  have hj' : j = 0 ∨ j = 1 ∨ j = 2 ∨ j = 3 := by omega
  rcases hj' with rfl | rfl | rfl | rfl
  · simp only [Nat.add_zero]; omega
  · omega
  · omega
  · omega

/-- The extension loop stops inside the source, keeps the distance between the
two cursors, and only steps over equal bytes. -/
theorem extendMatch_spec (S : List Byte) : ∀ (fuel s t : Nat), s ≤ S.length →
    s ≤ (extendMatch S fuel s t).1 ∧ (extendMatch S fuel s t).1 ≤ S.length ∧
      (extendMatch S fuel s t).2 + s = (extendMatch S fuel s t).1 + t ∧
      ∀ i, i < (extendMatch S fuel s t).1 - s → srcAt S (s + i) = srcAt S (t + i) := by
  intro fuel
  induction fuel with
  | zero =>
    intro s t hs
    simp only [extendMatch]
    exact ⟨Nat.le_refl _, hs, Nat.add_comm _ _, fun i hi => by omega⟩
  | succ fuel ih =>
    intro s t hs
    by_cases hc : s < S.length ∧ srcAt S s = srcAt S t
    · have e : extendMatch S (fuel + 1) s t = extendMatch S fuel (s + 1) (t + 1) := by
        simp only [extendMatch, hc, and_self, if_true]
      rw [e]
      obtain ⟨i1, i2, i3, i4⟩ := ih (s + 1) (t + 1) (by omega)
      refine ⟨by omega, i2, by omega, fun i hi => ?_⟩
      by_cases h0 : i = 0
      · subst h0; exact hc.2
      · have := i4 (i - 1) (by omega)
        rw [show s + 1 + (i - 1) = s + i by omega, show t + 1 + (i - 1) = t + i by omega] at this
        exact this
    · have e : extendMatch S (fuel + 1) s t = (s, t) := by
        simp only [extendMatch, hc, if_false]
      rw [e]
      exact ⟨Nat.le_refl _, hs, Nat.add_comm _ _, fun i hi => by simp at hi⟩

theorem slice_length (S : List Byte) (a b : Nat) (hab : a ≤ b) (hb : b ≤ S.length) :
    (slice S a b).length = b - a := by
  unfold slice
  rw [List.length_take, List.length_drop]
  omega

theorem take_append_slice (S : List Byte) (a b : Nat) (hab : a ≤ b) :
    S.take a ++ slice S a b = S.take b := by
  unfold slice
  rw [← List.take_add, show a + (b - a) = b by omega]

theorem MAXOFFSET_eq : MAXOFFSET = 32768 := by decide

/-- The main loop of `encode`, started in a state where the output so far
decodes to the source up to `lit` and is at most 7/6 of it, ends with an output
that decodes to the whole source, provided the destination has room for
`len + len/6 + 6` bytes. -/
theorem encodeLoop_spec (S : List Byte) (hn : S.length < 2 ^ 31) :
    ∀ (fuel : Nat) (tbl : Nat → Int) (s lit : Nat) (d : List Byte),
      S.length + 1 ≤ fuel + s → lit ≤ s → s ≤ S.length → (∀ i, tbl i < (s : Int)) →
      Dec d [] (S.take lit) → 6 * d.length ≤ 7 * lit →
      ∃ out, (∀ dEnd, S.length + S.length / 6 + 6 ≤ dEnd →
          encodeLoop S dEnd fuel tbl s lit d = some out) ∧ Dec out [] S ∧
        out.length ≤ S.length + S.length / 6 + 5 := by
  intro fuel
  induction fuel with
  | zero => intro tbl s lit d hf _ hs; omega
  | succ fuel ih =>
    intro tbl s lit d hf hlit hs htbl hdec hsz
    by_cases hloop : s + 3 < S.length
    · obtain ⟨t, ht⟩ : ∃ t, t = tbl (hashSlot (L32 S s)) := ⟨_, rfl⟩
      have htl : t < (s : Int) := by rw [ht]; exact htbl _
      by_cases hmiss : t < 0 ∨ (s : Int) - t > (MAXOFFSET : Int) ∨ L32 S s ≠ L32 S t.toNat
      · have e : ∀ dEnd, encodeLoop S dEnd (fuel + 1) tbl s lit d
            = encodeLoop S dEnd fuel
                (fun i => if i = hashSlot (L32 S s) then (s : Int) else tbl i) (s + 1) lit d := by
          intro dEnd
          rw [encodeLoop, if_pos hloop]
          dsimp only
          rw [← ht, if_pos hmiss]
        simp only [e]
        refine ih _ (s + 1) lit d (by omega) (by omega) (by omega) ?_ hdec hsz
        intro i
        dsimp only
        split_ifs
        · push_cast; omega
        · have := htbl i; push_cast; omega
      · have hm : 0 ≤ t ∧ (s : Int) - t ≤ 32768 ∧ L32 S s = L32 S t.toNat := by
          rw [MAXOFFSET_eq] at hmiss
          push_neg at hmiss
          exact ⟨hmiss.1, by have := hmiss.2.1; push_cast at this; omega, hmiss.2.2⟩
        obtain ⟨m0, m1, m2⟩ := hm
        obtain ⟨t1, ht1⟩ : ∃ t1 : Nat, t1 = t.toNat := ⟨_, rfl⟩
        have htt : (t1 : Int) = t := by rw [ht1]; exact Int.toNat_of_nonneg m0
        have ht1s : t1 < s := by omega
        have hoff : s - t1 ≤ 32768 := by omega
        obtain ⟨st, hst⟩ :
            ∃ st, st = extendMatch S (S.length - (s + 4)) (s + 4) (t.toNat + 4) := ⟨_, rfl⟩
        obtain ⟨x1, x2, x3, x4⟩ := extendMatch_spec S (S.length - (s + 4)) (s + 4) (t.toNat + 4)
          (by omega)
        rw [← hst] at x1 x2 x3 x4
        rw [← ht1] at x3 x4
        rw [← ht1] at m2
        have hmatch : ∀ i, i < st.1 - s → S.getD (s + i) 0 = S.getD (s + i - (s - t1)) 0 := by
          intro i hi
          rw [show s + i - (s - t1) = t1 + i by omega]
          apply srcAt_eq
          by_cases h4 : i < 4
          · exact L32_inj S s t1 m2 i h4
          · have := x4 (i - 4) (by omega)
            rw [show s + 4 + (i - 4) = s + i by omega,
              show t1 + 4 + (i - 4) = t1 + i by omega] at this
            exact this
        -- the pending literal
        have hlitStep : ∃ d1, (∀ dEnd, S.length + S.length / 6 + 6 ≤ dEnd →
            (if lit ≠ s then emitLiteral d dEnd (slice S lit s) else some d) = some d1)
            ∧ Dec d1 [] (S.take s) ∧ 6 * d1.length ≤ 7 * s + 6 := by
          by_cases hl : lit = s
          · refine ⟨d, fun _ _ => by rw [if_neg (by simpa using hl)], ?_, by omega⟩
            rw [← hl]; exact hdec
          · have hlen := slice_length S lit s (by omega) (by omega)
            have e2 := (emitLiteral_spec d (d.length + 6 + (slice S lit s).length)
              (slice S lit s) (by omega) (by omega) (Nat.le_refl _)).2
            have hh := literalHeader_length (slice S lit s).length
            refine ⟨_, fun dEnd hroom => by
              rw [if_pos hl]
              exact (emitLiteral_spec d dEnd (slice S lit s) (by omega) (by omega) (by omega)).1,
              ?_, ?_⟩
            · have := Dec_append hdec (e2 (S.take lit))
              rw [take_append_slice S lit s (by omega)] at this
              exact this
            · simp only [List.length_append]
              omega
        obtain ⟨d1, el, hd1, hs1⟩ := hlitStep
        -- the copy
        obtain ⟨bs, ec, _, hbs, hcd⟩ := emitCopyLoop_spec (st.1 - st.2) (by omega) (by omega)
          (st.1 - s) d1 (st.1 - s) (Nat.le_refl _)
        have hcopy : Dec bs (S.take s) (S.take st.1) := by
          have := hcd (S.take s) (by rw [List.length_take]; omega)
          rw [show st.1 - st.2 = s - t1 by omega,
            copyBack_take S (s - t1) (by omega) (st.1 - s) s (by omega) (by omega) hmatch,
            show s + (st.1 - s) = st.1 by omega] at this
          exact this
        have e : ∀ dEnd, S.length + S.length / 6 + 6 ≤ dEnd →
            encodeLoop S dEnd (fuel + 1) tbl s lit d
            = encodeLoop S dEnd fuel
                (fun i => if i = hashSlot (L32 S s) then (s : Int) else tbl i) st.1 st.1
                (d1 ++ bs) := by
          intro dEnd hroom
          rw [encodeLoop, if_pos hloop]
          dsimp only
          rw [← ht, if_neg hmiss, ← hst, el dEnd hroom]
          dsimp only
          rw [toInt32_sub st.1 st.2 (by omega) (by omega),
            toInt32_sub st.1 s (by omega) (by omega), emitCopy, ec dEnd (Or.inr (by omega))]
        obtain ⟨out, o1, o2, o3⟩ := ih
          (fun i => if i = hashSlot (L32 S s) then (s : Int) else tbl i) st.1 st.1 (d1 ++ bs)
          (by omega) (Nat.le_refl _) x2
          (by
            intro i
            dsimp only
            split_ifs
            · omega
            · have := htbl i; omega)
          (Dec_append hd1 hcopy) (by simp only [List.length_append]; omega)
        exact ⟨out, fun dEnd hroom => by rw [e dEnd hroom]; exact o1 dEnd hroom, o2, o3⟩
    · have e : ∀ dEnd, encodeLoop S dEnd (fuel + 1) tbl s lit d
          = if lit ≠ S.length then emitLiteral d dEnd (slice S lit S.length) else some d := by
        intro dEnd
        rw [encodeLoop, if_neg hloop]
      simp only [e]
      by_cases hl : lit = S.length
      · refine ⟨d, fun _ _ => by rw [if_neg (by simpa using hl)], ?_, by omega⟩
        rw [hl, List.take_length] at hdec
        exact hdec
      · have hlen := slice_length S lit S.length (by omega) (Nat.le_refl _)
        have e2 := (emitLiteral_spec d (d.length + 6 + (slice S lit S.length).length)
          (slice S lit S.length) (by omega) (by omega) (Nat.le_refl _)).2
        have hh := literalHeader_length (slice S lit S.length).length
        refine ⟨_, fun dEnd hroom => by
          rw [if_pos hl]
          exact (emitLiteral_spec d dEnd (slice S lit S.length) (by omega) (by omega)
            (by omega)).1, ?_, ?_⟩
        · have := Dec_append hdec (e2 (S.take lit))
          rw [take_append_slice S lit S.length (by omega), List.take_length] at this
          exact this
        · simp only [List.length_append]
          omega

set_option maxRecDepth 8192 in
theorem or128 (y : Nat) (hy : y < 256) : (y ||| 0x80) = y % 128 + 128 := by
  have h : ∀ y, y < 256 → (y ||| 0x80) = y % 128 + 128 := by decide
  exact h y hy

theorem putUvarintLoop_length : ∀ (fuel x : Nat),
    1 ≤ (putUvarintLoop fuel x).length ∧ (putUvarintLoop fuel x).length ≤ fuel + 1 := by
  intro fuel
  induction fuel with
  | zero => intro x; simp [putUvarintLoop]
  | succ fuel ih =>
    intro x
    unfold putUvarintLoop
    split_ifs
    · have := ih (x >>> 7)
      simp only [List.length_cons]
      omega
    · simp

theorem PutUvarint_length (x : Nat) :
    1 ≤ (PutUvarint x).length ∧ (PutUvarint x).length ≤ 10 :=
  putUvarintLoop_length 9 _

theorem uvarint_putUvarintLoop : ∀ (fuel x : Nat) (rest : List Byte), x < 128 ^ (fuel + 1) →
    uvarint (putUvarintLoop fuel x ++ rest) = some (x, rest) := by
  intro fuel
  induction fuel with
  | zero =>
    intro x rest hx
    have hx' : x < 128 := by simpa using hx
    rw [show putUvarintLoop 0 x ++ rest = byte x :: rest from rfl, uvarint, byte_val,
      if_pos (by omega), show x % 256 = x by omega]
  | succ fuel ih =>
    intro x rest hx
    unfold putUvarintLoop
    by_cases h : x ≥ 0x80
    · rw [if_pos h]
      have hv : (byte ((x % 256) ||| 0x80)).val = x % 128 + 128 := by
        rw [byte_val, or128 _ (Nat.mod_lt _ (by decide))]
        omega
      have hx2 : x >>> 7 < 128 ^ (fuel + 1) := by
        rw [Nat.shiftRight_eq_div_pow]
        rw [pow_succ] at hx
        exact Nat.div_lt_of_lt_mul (by rw [Nat.mul_comm]; exact hx)
      rw [List.cons_append, uvarint, hv, if_neg (by omega), ih (x >>> 7) rest hx2]
      simp only [Nat.shiftRight_eq_div_pow]
      congr 2
      omega
    · rw [if_neg h]
      rw [show [byte x] ++ rest = byte x :: rest from rfl, uvarint, byte_val,
        if_pos (by omega), show x % 256 = x by omega]

theorem uvarint_PutUvarint (x : Nat) (rest : List Byte) (hx : x < 2 ^ 64) :
    uvarint (PutUvarint x ++ rest) = some (x, rest) := by
  unfold PutUvarint
  rw [Nat.mod_eq_of_lt hx]
  exact uvarint_putUvarintLoop 9 x rest (lt_trans hx (by norm_num))

/-- The function `Encode` by cases on what `encode` has done. -/
theorem Encode_eq (dst src : List Byte) :
    Encode dst src =
      (let n := MaxEncodedLen src.length
       let dstLen := if dst.length < n then n else dst.length
       let v := PutUvarint src.length
       if src.length = 0 then some v
       else
         match encode (dstLen - v.length) src with
         | none => none
         | some out =>
           let l := toInt32 out.length
           if l < 0 then none else some ((v ++ out).take (v.length + l.toNat))) := by
  unfold Encode encodeResult
  dsimp only
  by_cases h0 : src.length = 0
  · rw [if_pos h0, if_pos h0]
  · rw [if_neg h0, if_neg h0]
    cases encode ((if dst.length < MaxEncodedLen src.length then MaxEncodedLen src.length
        else dst.length) - (PutUvarint src.length).length) src with
    | none => rfl
    | some out => rfl

/-- The result of `Encode` on a source whose worst-case output `len + len/6 + 5`
is below `2^31`, so that every length `encode.go` converts to `int` keeps its
value: it returns (no panic) the same block for every destination, the block
decodes to the source, declares its length, and is no longer than
`MaxEncodedLen`. -/
theorem Encode_spec (S : List Byte) (hn : S.length + S.length / 6 + 5 < 2 ^ 31) :
    ∃ c, (∀ dst, Encode dst S = some c) ∧ Decode c = some S ∧ DecodedLen c = some S.length ∧
      c.length ≤ MaxEncodedLen S.length := by
  have hv := PutUvarint_length S.length
  have hn1 : S.length < 2 ^ 31 := by omega
  have huv := fun rest => uvarint_PutUvarint S.length rest
    (lt_trans hn1 (by norm_num))
  by_cases h0 : S.length = 0
  · refine ⟨PutUvarint S.length, fun dst => ?_, ?_, ?_, by unfold MaxEncodedLen; omega⟩
    · rw [Encode_eq]
      dsimp only
      rw [if_pos h0]
    · have := huv []
      rw [List.append_nil] at this
      unfold Decode
      rw [this]
      have hS : S = [] := List.length_eq_zero.mp h0
      subst hS
      rfl
    · have := huv []
      rw [List.append_nil] at this
      unfold DecodedLen
      rw [this]
  · obtain ⟨out, e1, e2, e3⟩ := encodeLoop_spec S hn1
      (S.length + 1) (fun _ => -1) 0 0 [] (by omega) (Nat.le_refl _) (Nat.zero_le _)
      (fun _ => by simp) (by rw [List.take_zero]; exact Dec_nil []) (by simp)
    refine ⟨PutUvarint S.length ++ out, fun dst => ?_, ?_, ?_, ?_⟩
    · rw [Encode_eq]
      dsimp only
      rw [if_neg h0]
      unfold encode
      rw [e1 _ (by unfold MaxEncodedLen; split_ifs <;> omega)]
      dsimp only
      rw [toInt32_of_lt out.length (by omega), if_neg (by omega), Int.toNat_ofNat,
        ← List.length_append, List.take_length]
    · unfold Decode
      rw [huv out]
      dsimp only
      rw [Dec_run e2]
      dsimp only
      rw [if_pos rfl]
    · unfold DecodedLen
      rw [huv out]
    · simp only [List.length_append]
      unfold MaxEncodedLen
      omega

/-! ## `NewReader` -/

theorem zip_any_ne : ∀ (a b : List Byte), a.length = b.length →
    ((a.zip b).any (fun p => decide (p.1 ≠ p.2)) = true ↔ a ≠ b) := by
  intro a
  induction a with
  | nil =>
    intro b hb
    have : b = [] := List.length_eq_zero.mp hb.symm
    subst this
    simp
  | cons x xs ih =>
    intro b hb
    cases b with
    | nil => simp at hb
    | cons y ys =>
      have hl : xs.length = ys.length := by simpa using hb
      have := ih ys hl
      simp only [List.zip_cons_cons, List.any_cons, Bool.or_eq_true, this, ne_eq,
        List.cons.injEq, not_and, decide_eq_true_eq]
      tauto

/-- The result of `NewReader` by cases on the source. -/
theorem NewReader_spec (src : List Byte) :
    NewReader src =
      (if src.length < 10 then .error Err.ErrUnexpectedEOF
       else if src.take 10 = [0xff, 0x06, 0x00, 0x00, 0x73, 0x4e, 0x61, 0x50, 0x70, 0x59] then
         .ok { r := src.drop 10, blkCap := 0, dec := [], strict := false }
       else .error Err.ErrFramingCorrupt) := by
  unfold NewReader ReadFull
  by_cases h10 : src.length < 10
  · rw [if_pos h10, if_neg (by omega)]
    by_cases h0 : src.length = 0
    · rw [if_pos h0]; rfl
    · rw [if_neg h0]; rfl
  · rw [if_neg h10, if_pos (by omega)]
    dsimp only
    have hlen : (src.take 10).length = signature.length := by
      rw [List.length_take]; simp [signature]; omega
    have hz := zip_any_ne (src.take 10) signature hlen
    have hs : signature = [0xff, 0x06, 0x00, 0x00, 0x73, 0x4e, 0x61, 0x50, 0x70, 0x59] := rfl
    rw [← hs]
    by_cases he : src.take 10 = signature
    · have : ¬ ((src.take 10).zip signature).any (fun p => decide (p.1 ≠ p.2)) = true := by
        rw [hz]; simpa using he
      rw [if_neg this, if_pos he]
    · have : ((src.take 10).zip signature).any (fun p => decide (p.1 ≠ p.2)) = true := by
        rw [hz]; exact he
      rw [if_pos this, if_neg he]

/-- C6 (signature enforcement in `NewReader`). For every source: `NewReader`
returns `io.ErrUnexpectedEOF` when the source holds fewer than 10 bytes (zero
included), `ErrFramingCorrupt` when it holds at least 10 bytes and the first 10
differ from the signature, and otherwise a `Reader` positioned after the
signature; so it returns a `Reader` if and only if the first 10 bytes are
`FF 06 00 00 73 4E 61 50 70 59`. -/
theorem C6_signature_enforcement (src : List Byte) :
    NewReader src =
        (if src.length < 10 then .error Err.ErrUnexpectedEOF
         else if src.take 10 = [0xff, 0x06, 0x00, 0x00, 0x73, 0x4e, 0x61, 0x50, 0x70, 0x59] then
           .ok { r := src.drop 10, blkCap := 0, dec := [], strict := false }
         else .error Err.ErrFramingCorrupt) ∧
      ((∃ rd, NewReader src = .ok rd) ↔
        src.take 10 = [0xff, 0x06, 0x00, 0x00, 0x73, 0x4e, 0x61, 0x50, 0x70, 0x59]) := by
  have key := NewReader_spec src
  refine ⟨key, ?_⟩
  rw [key]
  by_cases h10 : src.length < 10
  · rw [if_pos h10]
    constructor
    · rintro ⟨rd, h⟩; cases h
    · intro h
      have := congrArg List.length h
      rw [List.length_take] at this
      simp at this
      omega
  · rw [if_neg h10]
    by_cases he : src.take 10 = [0xff, 0x06, 0x00, 0x00, 0x73, 0x4e, 0x61, 0x50, 0x70, 0x59]
    · rw [if_pos he]
      exact ⟨fun _ => he, fun _ => ⟨_, rfl⟩⟩
    · rw [if_neg he]
      constructor
      · rintro ⟨rd, h⟩; cases h
      · intro h; exact absurd h he

/-- C7 (strict reader construction), the code at the failing inputs: on the empty
source and on ten bytes that are not the signature `NewReader` returns its error
(and a nil `*Reader`), and `NewReaderStrictMem` does not return at all: it
panics in `szr.strict = true`. -/
theorem C7_strict_constructor_panics :
    NewReader [] = .error Err.ErrUnexpectedEOF ∧ NewReaderStrictMem [] = none ∧
      NewReader [0, 0, 0, 0, 0, 0, 0, 0, 0, 0] = .error Err.ErrFramingCorrupt ∧
      NewReaderStrictMem [0, 0, 0, 0, 0, 0, 0, 0, 0, 0] = none := by
  exact ⟨rfl, rfl, rfl, rfl⟩

/-! ## The checksum -/

theorem crcBit_lt (c : Nat) (h : c < 2 ^ 32) : crcBit c < 2 ^ 32 := by
  unfold crcBit
  have h1 : c >>> 1 < 2 ^ 32 := by rw [Nat.shiftRight_eq_div_pow]; omega
  split_ifs
  · exact Nat.xor_lt_two_pow h1 (by norm_num)
  · exact h1

theorem crcByte_lt (c : Nat) (b : Byte) (h : c < 2 ^ 32) : crcByte c b < 2 ^ 32 := by
  unfold crcByte
  have h0 : c ^^^ b.val < 2 ^ 32 :=
    Nat.xor_lt_two_pow h (lt_trans b.isLt (by norm_num))
  have step : ∀ n x, x < 2 ^ 32 → crcBit^[n] x < 2 ^ 32 := by
    intro n
    induction n with
    | zero => intro x hx; exact hx
    | succ n ih => intro x hx; rw [Function.iterate_succ_apply]; exact ih _ (crcBit_lt x hx)
  exact step 8 _ h0

theorem foldl_crcByte_lt : ∀ (data : List Byte) (c : Nat), c < 2 ^ 32 →
    data.foldl crcByte c < 2 ^ 32 := by
  intro data
  induction data with
  | nil => intro c hc; exact hc
  | cons b bs ih => intro c hc; exact ih _ (crcByte_lt c b hc)

theorem crc32c_lt (data : List Byte) : crc32c data < 2 ^ 32 :=
  Nat.xor_lt_two_pow (foldl_crcByte_lt data _ (by norm_num)) (by norm_num)

/-- The expression of `Flush` and `Read` is the rotation by 15 plus the constant. -/
theorem maskCRC_eq (sum : Nat) (h : sum < 2 ^ 32) :
    maskCRC sum = (rotateRight32 sum 15 + 0xA282EAD8) % 2 ^ 32 := by
  have e1 : (sum <<< 17) % 2 ^ 32 = 2 ^ 17 * (sum % 32768) := by
    rw [Nat.shiftLeft_eq]; omega
  have e2 : sum >>> 15 < 2 ^ 17 := by rw [Nat.shiftRight_eq_div_pow]; omega
  have e3 : (sum >>> 15) ||| ((sum <<< 17) % 2 ^ 32) = 2 ^ 17 * (sum % 32768) + sum >>> 15 := by
    rw [e1, Nat.lor_comm]
    exact (Nat.mul_add_lt_is_or e2 (sum % 32768)).symm
  have e4 : rotateRight32 sum 15 = 2 ^ 17 * (sum % 32768) + sum >>> 15 := by
    unfold rotateRight32
    rw [Nat.shiftRight_eq_div_pow]
    norm_num
    omega
  unfold maskCRC
  rw [e3, e4]

theorem maskCRC_crc32c (data : List Byte) : maskCRC (crc32c data) = maskedChecksum data :=
  maskCRC_eq _ (crc32c_lt data)

theorem maskedChecksum_lt (data : List Byte) : maskedChecksum data < 2 ^ 32 :=
  Nat.mod_lt _ (by norm_num)

theorem chunkHead_eq (type : Byte) (n masked : Nat) :
    chunkHead type n masked = [type] ++ LE24 n ++ LE32 masked := by
  unfold chunkHead LE24 LE32 byte
  simp only [Nat.shiftRight_eq_div_pow, List.cons_append, List.nil_append, List.cons.injEq,
    Fin.mk.injEq, and_true, true_and]
  omega

/-! ## `Writer.Flush` -/

theorem Encode_length_pos (dst S c : List Byte) (h : Encode dst S = some c) : 1 ≤ c.length := by
  have hv := PutUvarint_length S.length
  rw [Encode_eq] at h
  dsimp only at h
  by_cases h0 : S.length = 0
  · rw [if_pos h0] at h
    rw [← Option.some.inj h]; exact hv.1
  · rw [if_neg h0] at h
    cases he : encode ((if dst.length < MaxEncodedLen S.length then MaxEncodedLen S.length
        else dst.length) - (PutUvarint S.length).length) S with
    | none => rw [he] at h; cases h
    | some out =>
      rw [he] at h
      dsimp only at h
      split_ifs at h
      rw [← Option.some.inj h, List.length_take, List.length_append]
      omega

/-- What `Flush` does, for every scratch buffer of at least 8 bytes (whether or
not `snappy.Encode` could use it, that is on the single-write path and on the
two-write path alike): the sink receives one chunk in wire format, of type 0x01
with the raw block when the encoding is longer than the block and of type 0x00
with the encoding otherwise, and the buffer count returns to 0. -/
theorem Flush_spec (w : Writer) (hc : 8 ≤ w.c.length) (hb : w.b.length ≤ 2 ^ 30) :
    ∃ enc, (∀ dst, Encode dst w.b = some enc) ∧ enc.length ≤ MaxEncodedLen w.b.length ∧
      ∃ w1, w.Flush = some w1 ∧
        w1.w = w.w ++ wireChunk (if enc.length > w.b.length then 0x01 else 0x00) w.b
              (if enc.length > w.b.length then w.b else enc) ∧
        w1.b = [] ∧ w1.c.length = w.c.length := by
  obtain ⟨enc, he, _, _, hlen⟩ := Encode_spec w.b (by
    have hb2 : w.b.length ≤ 1073741824 := hb
    have h31 : (2 : Nat) ^ 31 = 2147483648 := by norm_num
    omega)
  refine ⟨enc, he, hlen, ?_⟩
  have hne : enc ≠ [] := by
    intro h
    have := Encode_length_pos [] w.b enc (he [])
    rw [h] at this
    simp at this
  unfold Writer.Flush
  rw [he]
  dsimp only
  have hhead : ∀ (t : Byte) (n m : Nat) (l : List Byte), (chunkHead t n m ++ l).take 8
      = chunkHead t n m := by
    intro t n m l
    rfl
  have hc1 : (if (decide ¬(List.drop 8 w.c).length < MaxEncodedLen w.b.length) = true then
      List.take 8 w.c ++ (enc ++ List.drop enc.length (List.drop 8 w.c)) else w.c).length
      = w.c.length := by
    split_ifs with h
    · have h' : ¬ (List.drop 8 w.c).length < MaxEncodedLen w.b.length := by simpa using h
      rw [List.length_drop] at h'
      simp only [List.length_append, List.length_take, List.length_drop]
      omega
    · rfl
  have hc2 : ∀ (t : Byte) (n m : Nat), (chunkHead t n m ++ List.drop 8
      (if (decide ¬(List.drop 8 w.c).length < MaxEncodedLen w.b.length) = true then
      List.take 8 w.c ++ (enc ++ List.drop enc.length (List.drop 8 w.c)) else w.c)).length
      = w.c.length := by
    intro t n m
    rw [List.length_append, List.length_drop, hc1]
    simp only [chunkHead, List.length_cons, List.length_nil]
    omega
  have hw : ∀ (t : Byte) (P : List Byte),
      chunkHead t (P.length + 4) (maskCRC (crc32c w.b)) ++ P = wireChunk t w.b P := by
    intro t P
    rw [chunkHead_eq, maskCRC_crc32c, Nat.add_comm]
    rfl
  by_cases hinc : enc.length > w.b.length
  · have hi : decide (enc.length > w.n) = true := by simpa [Writer.n] using hinc
    simp only [hi, Bool.not_true, Bool.false_and, if_true, Bool.false_eq_true, if_false, hinc,
      false_and]
    refine ⟨_, rfl, ?_, rfl, hc2 _ _ _⟩
    dsimp only
    rw [hhead, List.append_assoc, Writer.n, hw]
  · have hi : decide (enc.length > w.n) = false := by simpa [Writer.n] using hinc
    simp only [hi, Bool.not_false, Bool.true_and, if_false, Bool.false_eq_true, hinc, hne,
      and_false]
    by_cases hal : (List.drop 8 w.c).length < MaxEncodedLen w.b.length
    · have ha : (decide ¬(List.drop 8 w.c).length < MaxEncodedLen w.b.length) = false := by
        simpa using hal
      have hc2' := hc2
      simp only [ha, Bool.and_false, Bool.false_eq_true, if_false] at hc2' ⊢
      refine ⟨_, rfl, ?_, rfl, hc2' _ _ _⟩
      dsimp only
      rw [hhead, List.append_assoc, hw]
    · have ha : (decide ¬(List.drop 8 w.c).length < MaxEncodedLen w.b.length) = true := by
        simpa using hal
      have hc2' := hc2
      simp only [ha, Bool.and_true, if_true] at hc2' ⊢
      have hge : decide ((chunkHead 0 (enc.length + 4) (maskCRC (crc32c w.b)) ++ List.drop 8
          (List.take 8 w.c ++ (enc ++ List.drop enc.length (List.drop 8 w.c)))).length
            ≥ enc.length + 4 + 4) = true := by
        rw [decide_eq_true_eq, hc2']
        rw [List.length_drop] at hal
        omega
      simp only [hge, if_true]
      refine ⟨_, rfl, ?_, rfl, hc2' _ _ _⟩
      dsimp only
      have h8 : (List.take 8 w.c).length = 8 := by rw [List.length_take]; omega
      have hd : List.drop 8 (List.take 8 w.c ++ (enc ++ List.drop enc.length (List.drop 8 w.c)))
          = enc ++ List.drop enc.length (List.drop 8 w.c) := List.drop_left' h8
      rw [hd, ← List.append_assoc, hw]
      have hl : (wireChunk 0 w.b enc).length = enc.length + 4 + 4 := by
        simp [wireChunk, LE24, LE32]
      rw [← hl, List.take_left]

theorem leNat_LE24 (n : Nat) (h : n < 2 ^ 24) : leNat (LE24 n) = n := by
  unfold LE24
  rw [leNat_three, byte_val, byte_val, byte_val]
  omega

theorem leNat_LE32 (n : Nat) (h : n < 2 ^ 32) : leNat (LE32 n) = n := by
  unfold LE32
  rw [leNat_four, byte_val, byte_val, byte_val, byte_val]
  omega

/-- C4, the claim as stated fails: the block "abcdabcd" encodes to 8 bytes, which
is not smaller than the block, and `Flush` emits a Compressed chunk (type 0x00)
holding the encoding, not an Uncompressed one. -/
theorem C4_counterexample :
    Encode [] ([97, 98, 99, 100, 97, 98, 99, 100] : List Byte)
        = some [8, 12, 97, 98, 99, 100, 1, 4] ∧
      ¬ (([8, 12, 97, 98, 99, 100, 1, 4] : List Byte).length
          < ([97, 98, 99, 100, 97, 98, 99, 100] : List Byte).length) ∧
      ∃ w1, Writer.Flush { w := [], b := [97, 98, 99, 100, 97, 98, 99, 100],
                           c := List.replicate (MaxEncodedLen 65536 + 8) 0 } = some w1 ∧
        w1.w = wireChunk 0x00 [97, 98, 99, 100, 97, 98, 99, 100]
          [8, 12, 97, 98, 99, 100, 1, 4] := by
  have he : Encode [] ([97, 98, 99, 100, 97, 98, 99, 100] : List Byte)
      = some [8, 12, 97, 98, 99, 100, 1, 4] := by decide
  refine ⟨he, by decide, ?_⟩
  obtain ⟨enc, h1, _, w1, h2, h3, _, _⟩ := Flush_spec
    { w := [], b := [97, 98, 99, 100, 97, 98, 99, 100],
      c := List.replicate (MaxEncodedLen 65536 + 8) 0 } (by simp) (by decide)
  have hval : enc = [8, 12, 97, 98, 99, 100, 1, 4] := by
    have := h1 []
    dsimp only at this
    rw [he] at this
    exact (Option.some.inj this).symm
  subst hval
  exact ⟨w1, h2, by simpa using h3⟩

/-- C4 as amended (compressed-vs-raw decision in `Flush`): for every buffered
block `B` of at most 65536 bytes, `Flush` emits an Uncompressed chunk (type 0x01,
payload = checksum + the raw bytes of `B`) exactly when the encoded block is
longer than `B`, and a Compressed chunk (type 0x00, payload = checksum +
`Encode(B)`) whenever `len(Encode(B)) <= len(B)`, equality included. -/
theorem C4_flush_decision (w : Writer) (hc : 8 ≤ w.c.length) (hb : w.b.length ≤ blockSize) :
    ∃ enc w1, Encode [] w.b = some enc ∧ w.Flush = some w1 ∧
      (enc.length > w.b.length → w1.w = w.w ++ wireChunk 0x01 w.b w.b) ∧
      (enc.length ≤ w.b.length → w1.w = w.w ++ wireChunk 0x00 w.b enc) := by
  have hb' : w.b.length ≤ 2 ^ 30 := le_trans hb (by decide)
  obtain ⟨enc, h1, _, w1, h2, h3, _, _⟩ := Flush_spec w hc hb'
  refine ⟨enc, w1, h1 [], h2, fun h => ?_, fun h => ?_⟩
  · rw [h3, if_pos h, if_pos h]
  · rw [h3, if_neg (by omega), if_neg (by omega)]

theorem C4_flush_decision_witness :
    ∃ enc w1, Encode [] ([97, 98, 99, 100, 97, 98, 99, 100] : List Byte) = some enc ∧
      Writer.Flush { w := [], b := [97, 98, 99, 100, 97, 98, 99, 100],
                     c := List.replicate (MaxEncodedLen 65536 + 8) 0 } = some w1 ∧
      (enc.length > ([97, 98, 99, 100, 97, 98, 99, 100] : List Byte).length →
        w1.w = [] ++ wireChunk 0x01 [97, 98, 99, 100, 97, 98, 99, 100]
          [97, 98, 99, 100, 97, 98, 99, 100]) ∧
      (enc.length ≤ ([97, 98, 99, 100, 97, 98, 99, 100] : List Byte).length →
        w1.w = [] ++ wireChunk 0x00 [97, 98, 99, 100, 97, 98, 99, 100] enc) :=
  C4_flush_decision { w := [], b := [97, 98, 99, 100, 97, 98, 99, 100],
                      c := List.replicate (MaxEncodedLen 65536 + 8) 0 } (by simp) (by decide)

/-- C5 (chunk wire format). For every buffered block `B` of at most 65536 bytes
and every scratch buffer, `Flush` succeeds and appends to the sink exactly
`[type] ++ LE24(4 + len(P)) ++ LE32(masked) ++ P`, where `P` is `Encode(B)` for
type 0x00 and `B` itself for type 0x01, `masked` is the CRC-32C of the
uncompressed bytes `B` rotated right by 15 plus `0xA282EAD8` modulo `2^32` in
both cases, and `4 + len(P) < 2^24`, so that the three length bytes hold it
exactly; the bytes are the same on the single-write path and on the two-write
path (any other scratch buffer `c2` leads to the same sink), and `n` is 0
afterwards. -/
theorem C5_chunk_wire_format (w : Writer) (hc : 8 ≤ w.c.length) (hb : w.b.length ≤ blockSize) :
    ∃ enc w1 type P, Encode [] w.b = some enc ∧ w.Flush = some w1 ∧
      ((type = 0x00 ∧ P = enc) ∨ (type = 0x01 ∧ P = w.b)) ∧
      w1.w = w.w ++ ([type] ++ LE24 (4 + P.length)
        ++ LE32 ((rotateRight32 (crc32c w.b) 15 + 0xA282EAD8) % 2 ^ 32) ++ P) ∧
      4 + P.length < 2 ^ 24 ∧ leNat (LE24 (4 + P.length)) = 4 + P.length ∧
      w1.n = 0 ∧
      ∀ c2 : List Byte, 8 ≤ c2.length →
        ∃ w2, Writer.Flush { w with c := c2 } = some w2 ∧ w2.w = w1.w := by
  have hb' : w.b.length ≤ 2 ^ 30 := le_trans hb (by decide)
  have hb2 : w.b.length ≤ 65536 := hb
  obtain ⟨enc, h1, _, w1, h2, h3, h4, _⟩ := Flush_spec w hc hb'
  have hP : (if enc.length > w.b.length then w.b else enc).length ≤ 65536 := by
    split_ifs <;> omega
  refine ⟨enc, w1, if enc.length > w.b.length then 0x01 else 0x00,
    if enc.length > w.b.length then w.b else enc, h1 [], h2, ?_, h3, by omega,
    leNat_LE24 _ (by omega), ?_, ?_⟩
  · by_cases h : enc.length > w.b.length
    · right; rw [if_pos h, if_pos h]; exact ⟨rfl, rfl⟩
    · left; rw [if_neg h, if_neg h]; exact ⟨rfl, rfl⟩
  · unfold Writer.n; rw [h4]; rfl
  · intro c2 hc2
    obtain ⟨enc2, g1, _, w2, g2, g3, _, _⟩ := Flush_spec { w with c := c2 } hc2 hb'
    have : enc2 = enc := by
      have a := g1 []
      have b := h1 []
      dsimp only at a
      rw [b] at a
      exact (Option.some.inj a).symm
    subst this
    exact ⟨w2, g2, by rw [g3, h3]⟩

theorem C5_chunk_wire_format_witness :
    ∃ enc w1 type P, Encode [] ([97, 98, 99] : List Byte) = some enc ∧
      Writer.Flush { w := [], b := [97, 98, 99], c := List.replicate 8 0 } = some w1 ∧
      ((type = 0x00 ∧ P = enc) ∨ (type = 0x01 ∧ P = ([97, 98, 99] : List Byte))) ∧
      w1.w = [] ++ ([type] ++ LE24 (4 + P.length)
        ++ LE32 ((rotateRight32 (crc32c [97, 98, 99]) 15 + 0xA282EAD8) % 2 ^ 32) ++ P) ∧
      4 + P.length < 2 ^ 24 ∧ leNat (LE24 (4 + P.length)) = 4 + P.length ∧
      w1.n = 0 ∧
      ∀ c2 : List Byte, 8 ≤ c2.length →
        ∃ w2, Writer.Flush { w := [], b := [97, 98, 99], c := c2 } = some w2 ∧ w2.w = w1.w :=
  C5_chunk_wire_format { w := [], b := [97, 98, 99], c := List.replicate 8 0 }
    (by decide) (by decide)

/-! ## `Reader.Read` -/

theorem ReadFull_cons4 (a b c d : Byte) (rest : List Byte) :
    ReadFull (a :: b :: c :: d :: rest) 4 = ([a, b, c, d], none, rest) := by
  unfold ReadFull
  rw [if_pos (by simp)]
  rfl

/-- The first iteration of `Read` when nothing is buffered and `p` is not empty:
it pulls a chunk. -/
theorem Read_pull (r : Reader) (plen : Nat) (hd : r.dec = []) (hp : 0 < plen) :
    r.Read plen =
      match r.pull with
      | .error (e, r1) => some ([], some e, r1)
      | .ok r2 => Reader.readLoop (r.r.length + 1) r2 plen [] := by
  unfold Reader.Read
  rw [Reader.readLoop, if_pos (by simpa using hp), if_neg (by simp [hd])]

/-- C10, the claim as stated fails: a strict `Reader` that pulls a chunk header
declaring 76495 bytes (more than `MaxEncodedLen(65536) + 4 = 76494`) does not
return `ErrStrictMemLimitExceeded`; it grows the chunk buffer to 76495 bytes and
goes on to read the payload (here the source ends, hence `io.ErrUnexpectedEOF`). -/
theorem C10_counterexample :
    MaxEncodedLen 65536 + 4 = 76494 ∧
      (0xcf + 0x2a * 256 + 0x01 * 65536 : Nat) = 76495 ∧
      Reader.Read { r := [0x80, 0xcf, 0x2a, 0x01], blkCap := 0, dec := [], strict := true } 1
        = some ([], some Err.ErrUnexpectedEOF,
            { r := [], blkCap := 76495, dec := [], strict := true }) := by
  refine ⟨by decide, by decide, ?_⟩
  rfl

/-- C10 as amended (strict-memory bound): for a `Reader` in strict mode, whenever
`Read` pulls a chunk header whose declared 3-byte length exceeds
`strictBlockLimit = MaxEncodedLen(65536) + 8 = 76498`, the pull ends with
`ErrStrictMemLimitExceeded`, the source standing right after the 4 header
bytes (no payload byte read) and the chunk buffer capacity unchanged; so does
`Read` itself when it is called with nothing buffered and a non-empty `p`,
returning 0 bytes. -/
theorem C10_strict_bound (r : Reader) (tag b1 b2 b3 : Byte) (rest : List Byte) (plen : Nat)
    (hs : r.strict = true) (hr : r.r = tag :: b1 :: b2 :: b3 :: rest)
    (hl : b1.val + b2.val * 256 + b3.val * 65536 > 76498) :
    MaxEncodedLen 65536 = 76490 ∧ strictBlockLimit = 76498 ∧
      r.pull = .error (Err.ErrStrictMemLimitExceeded, { r with r := rest }) ∧
      (r.dec = [] → 0 < plen →
        r.Read plen = some ([], some Err.ErrStrictMemLimitExceeded, { r with r := rest })) := by
  have hlim : strictBlockLimit = 76498 := by decide
  have hpull : r.pull = .error (Err.ErrStrictMemLimitExceeded, { r with r := rest }) := by
    unfold Reader.pull
    rw [hr, ReadFull_cons4]
    dsimp only
    rw [if_pos]
    refine ⟨hs, ?_⟩
    simp only [List.getD_cons_succ, List.getD_cons_zero, Nat.shiftLeft_eq, hlim]
    omega
  refine ⟨by decide, hlim, hpull, fun hd hp => ?_⟩
  rw [Read_pull r plen hd hp, hpull]

theorem C10_strict_bound_witness :
    MaxEncodedLen 65536 = 76490 ∧ strictBlockLimit = 76498 ∧
      Reader.pull { r := [0x00, 0xd3, 0x2a, 0x01, 7, 7], blkCap := 0, dec := [], strict := true }
        = .error (Err.ErrStrictMemLimitExceeded,
            { r := [7, 7], blkCap := 0, dec := [], strict := true }) ∧
      (([] : List Byte) = [] → 0 < 5 →
        Reader.Read { r := [0x00, 0xd3, 0x2a, 0x01, 7, 7], blkCap := 0, dec := [], strict := true } 5
          = some ([], some Err.ErrStrictMemLimitExceeded,
              { r := [7, 7], blkCap := 0, dec := [], strict := true })) :=
  C10_strict_bound { r := [0x00, 0xd3, 0x2a, 0x01, 7, 7], blkCap := 0, dec := [], strict := true }
    0x00 0xd3 0x2a 0x01 [7, 7] 5 rfl rfl (by decide)

theorem ReadFull_err (r : List Byte) (n : Nat) (x : List Byte) (e : Err) (rest : List Byte)
    (h : ReadFull r n = (x, some e, rest)) :
    rest = [] ∧ (e = Err.EOF ∨ e = Err.ErrUnexpectedEOF) := by
  unfold ReadFull at h
  split_ifs at h
  · simp at h
  · simp only [Prod.mk.injEq, Option.some.injEq] at h
    exact ⟨h.2.2.symm, Or.inl h.2.1.symm⟩
  · simp only [Prod.mk.injEq, Option.some.injEq] at h
    exact ⟨h.2.2.symm, Or.inr h.2.1.symm⟩

theorem chunkSwitch_err (tag l : Nat) (blk dec0 : List Byte) (e : Err)
    (h : chunkSwitch tag l blk dec0 = .error e) :
    e = Err.ErrFramingCorrupt ∨ e = Err.ErrCorrupt ∨ e = Err.ErrUnexpectedChunk := by
  unfold chunkSwitch at h
  split_ifs at h
  · split at h
    · simp only [Except.error.injEq] at h; exact Or.inl h.symm
    · split_ifs at h
      · simp only [Except.error.injEq] at h; exact Or.inl h.symm
      · split at h
        · simp only [Except.error.injEq] at h; exact Or.inr (Or.inl h.symm)
        · simp at h
  all_goals first
    | (simp only [Except.error.injEq] at h; exact Or.inl h.symm)
    | (simp only [Except.error.injEq] at h; exact Or.inr (Or.inr h.symm))

theorem process_err (r1 r2 : Reader) (tag l : Nat) (blk : List Byte) (e : Err)
    (h : r1.process tag l blk = .error (e, r2)) :
    e = Err.ErrFramingCorrupt ∨ e = Err.ErrCorrupt ∨ e = Err.ErrUnexpectedChunk
      ∨ e = Err.ErrCRCMismatch := by
  unfold Reader.process at h
  by_cases c : (tag = chunkTypeCompressed ∨ tag = chunkTypeUncompressed) ∧ blk.length < 4
  · rw [if_pos c] at h
    simp only [Except.error.injEq, Prod.mk.injEq] at h; exact Or.inl h.1.symm
  · rw [if_neg c] at h
    dsimp only at h
    cases hsw : chunkSwitch tag l blk r1.dec with
    | error e1 =>
      rw [hsw] at h
      simp only [Except.error.injEq, Prod.mk.injEq] at h
      rw [← h.1]
      rcases chunkSwitch_err _ _ _ _ _ hsw with h1 | h1 | h1
      · exact Or.inl h1
      · exact Or.inr (Or.inl h1)
      · exact Or.inr (Or.inr (Or.inl h1))
    | ok dec =>
      rw [hsw] at h
      dsimp only at h
      split_ifs at h
      all_goals
        simp only [Except.error.injEq, Prod.mk.injEq] at h
        exact Or.inr (Or.inr (Or.inr h.1.symm))

/-- A pull that ends with `io.EOF` or `io.ErrUnexpectedEOF` has used up the source. -/
theorem pull_eof (r r1 : Reader) (e : Err) (h : r.pull = .error (e, r1))
    (he : e = Err.EOF ∨ e = Err.ErrUnexpectedEOF) : r1.r = [] ∧ r1.dec = r.dec := by
  unfold Reader.pull at h
  split at h
  · rename_i x e1 rest heq
    simp only [Except.error.injEq, Prod.mk.injEq] at h
    obtain ⟨_, h2⟩ := h
    subst h2
    exact ⟨(ReadFull_err _ _ _ _ _ heq).1, rfl⟩
  · dsimp only at h
    rename_i x hd rest heq
    by_cases c1 : r.strict = true ∧
        (hd.getD 1 0).val + ((hd.getD 2 0).val <<< 8) + ((hd.getD 3 0).val <<< 16)
          > strictBlockLimit
    · rw [if_pos c1] at h
      simp only [Except.error.injEq, Prod.mk.injEq] at h
      rcases he with he | he <;> rw [he] at h <;> simp at h
    · rw [if_neg c1] at h
      generalize (if r.blkCap < (hd.getD 1 0).val + ((hd.getD 2 0).val <<< 8)
        + ((hd.getD 3 0).val <<< 16) then (hd.getD 1 0).val + ((hd.getD 2 0).val <<< 8)
        + ((hd.getD 3 0).val <<< 16) else r.blkCap) = cap at h
      split at h
      · rename_i x e1 rest heq
        simp only [Except.error.injEq, Prod.mk.injEq] at h
        obtain ⟨_, h2⟩ := h
        subst h2
        exact ⟨(ReadFull_err _ _ _ _ _ heq).1, rfl⟩
      · rcases process_err _ _ _ _ _ _ h with h1 | h1 | h1 | h1 <;>
          rcases he with he | he <;> rw [he] at h1 <;> simp at h1

/-- A `Read` loop that ends with `io.EOF` or `io.ErrUnexpectedEOF` leaves a
reader with nothing buffered over an exhausted source. -/
theorem readLoop_eof : ∀ (fuel : Nat) (r : Reader) (plen : Nat) (out out1 : List Byte) (e : Err)
    (r1 : Reader), Reader.readLoop fuel r plen out = some (out1, some e, r1) →
    (e = Err.EOF ∨ e = Err.ErrUnexpectedEOF) → r1.r = [] ∧ r1.dec = [] := by
  intro fuel
  induction fuel with
  | zero => intro r plen out out1 e r1 h; simp [Reader.readLoop] at h
  | succ fuel ih =>
    intro r plen out out1 e r1 h he
    rw [Reader.readLoop] at h
    by_cases c1 : out.length < plen
    · rw [if_pos c1] at h
      by_cases c2 : r.dec.length > 0
      · rw [if_pos c2] at h
        exact ih _ _ _ _ _ _ h he
      · rw [if_neg c2] at h
        have hdec : r.dec = [] := List.length_eq_zero.mp (by omega)
        cases hp : r.pull with
        | error x =>
          obtain ⟨e1, r2⟩ := x
          rw [hp] at h
          simp only [Option.some.injEq, Prod.mk.injEq] at h
          obtain ⟨_, h2, h3⟩ := h
          subst h2 h3
          have := pull_eof r r2 e1 hp he
          exact ⟨this.1, by rw [this.2, hdec]⟩
        | ok r2 =>
          rw [hp] at h
          exact ih _ _ _ _ _ _ h he
    · rw [if_neg c1] at h
      simp at h

/-- The result of `Read` on a reader with nothing buffered over an exhausted source. -/
theorem Read_exhausted (r : Reader) (hr : r.r = []) (hd : r.dec = []) (plen : Nat) :
    r.Read plen = some ([], if 0 < plen then some Err.EOF else none, r) := by
  obtain ⟨rr, cap, dec, strict⟩ := r
  simp only at hr hd
  subst hr hd
  unfold Reader.Read
  by_cases hp : 0 < plen
  · rw [if_pos hp, Reader.readLoop, if_pos (by simpa using hp), if_neg (by simp)]
    rfl
  · rw [if_neg hp, Reader.readLoop, if_neg (by simpa using hp)]

set_option maxRecDepth 100000 in
/-- C8, the claim as stated fails: the `Reader` keeps no error state. Over a
source holding a chunk of the reserved type 0x02 followed by a valid Uncompressed
chunk for "hi", the first `Read` returns `ErrUnexpectedChunk` and the next `Read`
on the same `Reader` returns the two bytes "hi". The same happens after
`ErrFramingCorrupt` (an Uncompressed chunk too short for its checksum), after
the decoder's error (a Compressed chunk whose block declares 9 bytes and holds
8) and, in strict mode, after `ErrStrictMemLimitExceeded`. -/
theorem C8_counterexample :
    (Reader.Read { r := [0x02, 0, 0, 0] ++ wireChunk 0x01 [104, 105] [104, 105],
                   blkCap := 0, dec := [], strict := false } 4
        = some ([], some Err.ErrUnexpectedChunk,
            { r := wireChunk 0x01 [104, 105] [104, 105],
              blkCap := 0, dec := [], strict := false }) ∧
      Reader.Read { r := wireChunk 0x01 [104, 105] [104, 105],
                    blkCap := 0, dec := [], strict := false } 4
        = some ([104, 105], some Err.EOF,
            { r := [], blkCap := 6, dec := [], strict := false })) ∧
    (Reader.Read { r := [0x01, 0, 0, 0] ++ wireChunk 0x01 [104, 105] [104, 105],
                   blkCap := 6, dec := [], strict := false } 4
        = some ([], some Err.ErrFramingCorrupt,
            { r := wireChunk 0x01 [104, 105] [104, 105],
              blkCap := 6, dec := [], strict := false })) ∧
    (Reader.Read { r := wireChunk 0x00 [97, 97, 97, 97, 97, 97, 97, 97]
                          [9, 12, 97, 97, 97, 97, 1, 1]
                        ++ wireChunk 0x01 [104, 105] [104, 105],
                   blkCap := 12, dec := [], strict := false } 4
        = some ([], some Err.ErrCorrupt,
            { r := wireChunk 0x01 [104, 105] [104, 105],
              blkCap := 12, dec := [], strict := false }) ∧
      Reader.Read { r := wireChunk 0x01 [104, 105] [104, 105],
                    blkCap := 12, dec := [], strict := false } 4
        = some ([104, 105], some Err.EOF,
            { r := [], blkCap := 12, dec := [], strict := false })) ∧
    (Reader.Read { r := [0x80, 0xff, 0xff, 0xff] ++ wireChunk 0x01 [104, 105] [104, 105],
                   blkCap := 0, dec := [], strict := true } 4
        = some ([], some Err.ErrStrictMemLimitExceeded,
            { r := wireChunk 0x01 [104, 105] [104, 105],
              blkCap := 0, dec := [], strict := true }) ∧
      Reader.Read { r := wireChunk 0x01 [104, 105] [104, 105],
                    blkCap := 0, dec := [], strict := true } 4
        = some ([104, 105], some Err.EOF,
            { r := [], blkCap := 6, dec := [], strict := true })) := by
  refine ⟨⟨?_, ?_⟩, ?_, ⟨?_, ?_⟩, ⟨?_, ?_⟩⟩ <;> decide

/-- C8 as amended (the errors that are terminal): once a `Read` call has returned
`io.EOF` or `io.ErrUnexpectedEOF` the source is exhausted and nothing is
buffered, so every later `Read` call on that `Reader` returns 0 bytes (with
`io.EOF` when `p` is not empty) and leaves the `Reader` as it is. -/
theorem C8_eof_is_terminal (r : Reader) (plen : Nat) (out : List Byte) (e : Err) (r1 : Reader)
    (h : r.Read plen = some (out, some e, r1))
    (he : e = Err.EOF ∨ e = Err.ErrUnexpectedEOF) (plen2 : Nat) :
    r1.Read plen2 = some ([], if 0 < plen2 then some Err.EOF else none, r1) := by
  obtain ⟨h1, h2⟩ := readLoop_eof _ _ _ _ _ _ _ h he
  exact Read_exhausted r1 h1 h2 plen2

theorem C8_eof_is_terminal_witness :
    Reader.Read { r := [0x01, 9, 0, 0, 1, 2, 3], blkCap := 0, dec := [7], strict := false } 3
      = some ([7], some Err.ErrUnexpectedEOF,
          { r := [], blkCap := 9, dec := [], strict := false }) ∧
    Reader.Read { r := [], blkCap := 9, dec := [], strict := false } 5
      = some ([], if 0 < 5 then some Err.EOF else none,
          { r := [], blkCap := 9, dec := [], strict := false }) :=
  ⟨by decide,
   C8_eof_is_terminal
     { r := [0x01, 9, 0, 0, 1, 2, 3], blkCap := 0, dec := [7], strict := false } 3 [7]
     Err.ErrUnexpectedEOF { r := [], blkCap := 9, dec := [], strict := false }
     (by decide) (Or.inr rfl) 5⟩

/-- The block that failed its checksum stays in `r.dec`: over an Uncompressed
chunk for "hi" whose last byte was changed, `Read` returns `ErrCRCMismatch` and
the next `Read` hands out the two bytes of the rejected block. -/
theorem Read_after_crc_mismatch :
    Reader.Read { r := (wireChunk 0x01 [104, 105] [104, 105]).take 9 ++ [106],
                  blkCap := 0, dec := [], strict := false } 4
        = some ([], some Err.ErrCRCMismatch,
            { r := [], blkCap := 6, dec := [104, 106], strict := false }) ∧
      Reader.Read { r := [], blkCap := 6, dec := [104, 106], strict := false } 4
        = some ([104, 106], some Err.EOF,
            { r := [], blkCap := 6, dec := [], strict := false }) := by
  constructor <;> decide

/-! ## The CRC detects a change of one byte -/

theorem crcBit_inj (c d : Nat) (hc : c < 2 ^ 32) (hd : d < 2 ^ 32) (h : crcBit c = crcBit d) :
    c = d := by
  unfold crcBit at h
  have hp : (0x82f63b78 : Nat).testBit 31 = true := by decide
  have hc1 : c >>> 1 < 2 ^ 31 := by rw [Nat.shiftRight_eq_div_pow]; omega
  have hd1 : d >>> 1 < 2 ^ 31 := by rw [Nat.shiftRight_eq_div_pow]; omega
  have tc : (c >>> 1).testBit 31 = false := Nat.testBit_lt_two_pow hc1
  have td : (d >>> 1).testBit 31 = false := Nat.testBit_lt_two_pow hd1
  have key : c >>> 1 = d >>> 1 ∧ c % 2 = d % 2 := by
    split_ifs at h with h1 h2 h2
    · exact ⟨Nat.xor_left_inj.mp h, by omega⟩
    · have := congrArg (fun x => x.testBit 31) h
      simp only [Nat.testBit_xor, tc, td, hp] at this
      simp at this
    · have := congrArg (fun x => x.testBit 31) h
      simp only [Nat.testBit_xor, tc, td, hp] at this
      simp at this
    · exact ⟨h, by omega⟩
  rw [Nat.shiftRight_eq_div_pow, Nat.shiftRight_eq_div_pow] at key
  omega

theorem crcBit_iter_lt : ∀ (n x : Nat), x < 2 ^ 32 → crcBit^[n] x < 2 ^ 32 := by
  intro n
  induction n with
  | zero => intro x hx; exact hx
  | succ n ih => intro x hx; rw [Function.iterate_succ_apply]; exact ih _ (crcBit_lt x hx)

theorem crcBit_iter_inj : ∀ (n c d : Nat), c < 2 ^ 32 → d < 2 ^ 32 →
    crcBit^[n] c = crcBit^[n] d → c = d := by
  intro n
  induction n with
  | zero => intro c d _ _ h; exact h
  | succ n ih =>
    intro c d hc hd h
    rw [Function.iterate_succ_apply, Function.iterate_succ_apply] at h
    exact crcBit_inj c d hc hd (ih _ _ (crcBit_lt c hc) (crcBit_lt d hd) h)

theorem crcByte_inj_state (c d : Nat) (b : Byte) (hc : c < 2 ^ 32) (hd : d < 2 ^ 32)
    (h : crcByte c b = crcByte d b) : c = d := by
  unfold crcByte at h
  have hb : b.val < 2 ^ 32 := lt_trans b.isLt (by norm_num)
  exact Nat.xor_left_inj.mp
    (crcBit_iter_inj 8 _ _ (Nat.xor_lt_two_pow hc hb) (Nat.xor_lt_two_pow hd hb) h)

theorem crcByte_inj_byte (c : Nat) (a b : Byte) (hc : c < 2 ^ 32)
    (h : crcByte c a = crcByte c b) : a = b := by
  unfold crcByte at h
  have ha : a.val < 2 ^ 32 := lt_trans a.isLt (by norm_num)
  have hb : b.val < 2 ^ 32 := lt_trans b.isLt (by norm_num)
  exact Fin.ext (Nat.xor_right_inj.mp
    (crcBit_iter_inj 8 _ _ (Nat.xor_lt_two_pow hc ha) (Nat.xor_lt_two_pow hc hb) h))

theorem foldl_crcByte_inj : ∀ (data : List Byte) (c d : Nat), c < 2 ^ 32 → d < 2 ^ 32 →
    data.foldl crcByte c = data.foldl crcByte d → c = d := by
  intro data
  induction data with
  | nil => intro c d _ _ h; exact h
  | cons b bs ih =>
    intro c d hc hd h
    exact crcByte_inj_state c d b hc hd (ih _ _ (crcByte_lt c b hc) (crcByte_lt d b hd) h)

/-- Two byte strings that differ in exactly one byte have different CRC-32C. -/
theorem crc32c_one_byte (pre post : List Byte) (a b : Byte) (hab : a ≠ b) :
    crc32c (pre ++ a :: post) ≠ crc32c (pre ++ b :: post) := by
  intro h
  unfold crc32c at h
  have h1 := Nat.xor_left_inj.mp h
  rw [List.foldl_append, List.foldl_append, List.foldl_cons, List.foldl_cons] at h1
  have hpre := foldl_crcByte_lt pre 0xffffffff (by norm_num)
  have h2 := foldl_crcByte_inj post _ _ (crcByte_lt _ a hpre) (crcByte_lt _ b hpre) h1
  exact hab (crcByte_inj_byte _ a b hpre h2)

theorem maskCRC_inj (x y : Nat) (hx : x < 2 ^ 32) (hy : y < 2 ^ 32) (h : maskCRC x = maskCRC y) :
    x = y := by
  rw [maskCRC_eq x hx, maskCRC_eq y hy] at h
  have rot : ∀ z, z < 2 ^ 32 → rotateRight32 z 15 = z / 32768 + z % 32768 * 131072 := by
    intro z _
    unfold rotateRight32
    norm_num
  rw [rot x hx, rot y hy] at h
  have bx : x / 32768 + x % 32768 * 131072 < 4294967296 := by omega
  have byy : y / 32768 + y % 32768 * 131072 < 4294967296 := by omega
  have e : x / 32768 + x % 32768 * 131072 = y / 32768 + y % 32768 * 131072 := by
    generalize x / 32768 + x % 32768 * 131072 = u at h bx
    generalize y / 32768 + y % 32768 * 131072 = v at h byy
    omega
  omega

/-! ## Pulling one chunk -/

theorem ReadFull_append (blk rest : List Byte) :
    ReadFull (blk ++ rest) blk.length = (blk, none, rest) := by
  unfold ReadFull
  rw [if_pos (by simp)]
  simp

/-- The head of a chunk on the source: the type byte and the three length bytes. -/
theorem pull_chunk (r : Reader) (tag b1 b2 b3 : Byte) (blk rest : List Byte)
    (hr : r.r = tag :: b1 :: b2 :: b3 :: (blk ++ rest))
    (hl : b1.val + b2.val * 256 + b3.val * 65536 = blk.length) :
    r.pull =
      if r.strict = true ∧ blk.length > strictBlockLimit then
        .error (Err.ErrStrictMemLimitExceeded, { r with r := blk ++ rest })
      else
        Reader.process
          { r with r := rest, blkCap := if r.blkCap < blk.length then blk.length else r.blkCap }
          tag.val blk.length blk := by
  unfold Reader.pull
  rw [hr, ReadFull_cons4]
  dsimp only
  have e : (([tag, b1, b2, b3] : List Byte).getD 1 0).val
      + ((([tag, b1, b2, b3] : List Byte).getD 2 0).val <<< 8)
      + ((([tag, b1, b2, b3] : List Byte).getD 3 0).val <<< 16) = blk.length := by
    simp only [List.getD_cons_succ, List.getD_cons_zero, Nat.shiftLeft_eq]
    omega
  rw [e, ReadFull_append]
  rfl

/-- The checksum `Read` extracts from the first four bytes of the payload. -/
theorem masked_eq (blk : List Byte) (h4 : 4 ≤ blk.length) :
    (blk.getD 0 0).val + ((blk.getD 1 0).val <<< 8) + ((blk.getD 2 0).val <<< 16)
      + ((blk.getD 3 0).val <<< 24) = leNat (blk.take 4) := by
  match blk, h4 with
  | a :: b :: c :: d :: tl, _ =>
    simp only [List.getD_cons_succ, List.getD_cons_zero, Nat.shiftLeft_eq, List.take_succ_cons,
      List.take_zero, leNat_four]
    omega

theorem chunkSwitch_uncompressed (l : Nat) (blk dec0 : List Byte) :
    chunkSwitch 1 l blk dec0 =
      if l > blockSize + 4 then .error Err.ErrFramingCorrupt
      else .ok ((blk.drop 4).take blockSize) := by
  unfold chunkSwitch
  rw [if_neg (by decide), if_pos (by decide)]

/-- Processing an Uncompressed chunk whose payload has room for the checksum. -/
theorem process_uncompressed (r1 : Reader) (blk : List Byte) (h4 : 4 ≤ blk.length) :
    r1.process 1 blk.length blk =
      if blk.length > blockSize + 4 then .error (Err.ErrFramingCorrupt, r1)
      else if maskCRC (crc32c (blk.drop 4)) ≠ leNat (blk.take 4) then
        .error (Err.ErrCRCMismatch, { r1 with dec := blk.drop 4 })
      else .ok { r1 with dec := blk.drop 4 } := by
  unfold Reader.process
  rw [if_neg (by omega), masked_eq blk h4, chunkSwitch_uncompressed]
  have h1 : (1 : Nat) = chunkTypeCompressed ∨ (1 : Nat) = chunkTypeUncompressed := Or.inr rfl
  by_cases hl : blk.length > blockSize + 4
  · rw [if_pos hl, if_pos hl]
    rfl
  · rw [if_neg hl, if_neg hl]
    have : (blk.drop 4).take blockSize = blk.drop 4 :=
      List.take_of_length_le (by rw [List.length_drop]; omega)
    simp only [this, h1, if_true, true_and]

theorem flipBit_ne (b : Byte) (k : Nat) (hk : k < 8) : flipBit b k ≠ b := by
  intro h
  have h1 := congrArg Fin.val h
  unfold flipBit at h1
  rw [byte_val] at h1
  have hp : (1 : Nat) <<< k < 2 ^ 8 := by
    rw [Nat.shiftLeft_eq, Nat.one_mul]
    exact Nat.pow_lt_pow_right (by decide) hk
  have hx : b.val ^^^ (1 <<< k) < 256 := Nat.xor_lt_two_pow (n := 8) b.isLt hp
  rw [Nat.mod_eq_of_lt hx] at h1
  have h2 : b.val ^^^ (1 <<< k) = b.val ^^^ 0 := by rw [Nat.xor_zero]; exact h1
  have h3 := Nat.xor_right_inj.mp h2
  rw [Nat.shiftLeft_eq, Nat.one_mul] at h3
  exact absurd h3 (by positivity)

theorem flipAt_length (blk : List Byte) (i k : Nat) (hi : i < blk.length) :
    (flipAt blk i k).length = blk.length := by
  unfold flipAt
  simp only [List.length_append, List.length_take, List.length_cons, List.length_drop]
  omega

theorem split_at (blk : List Byte) (i : Nat) (hi : i < blk.length) :
    blk = blk.take i ++ blk.getD i 0 :: blk.drop (i + 1) := by
  rw [List.getD_eq_getElem _ _ hi, ← List.drop_eq_getElem_cons hi, List.take_append_drop]

set_option maxRecDepth 100000 in
/-- C9, the claim as stated fails for Compressed chunks. The chunk below holds
the block `[8, 12, 'a','a','a','a', 1, 1]` (literal "aaaa", then a copy of 4
bytes from offset 1) for "aaaaaaaa" and is read without error. Flipping bit 1 of
its last payload byte (copy offset 1 becomes 3) gives a chunk that is read
without any error and yields the same eight bytes; flipping bit 0 of the first
byte after the checksum (declared length 8 becomes 9) makes `Read` fail with the
decoder's error, not with `ErrCRCMismatch`. -/
theorem C9_counterexample :
    Reader.Read
        { r := wireChunk 0x00 [97, 97, 97, 97, 97, 97, 97, 97] [8, 12, 97, 97, 97, 97, 1, 1],
          blkCap := 0, dec := [], strict := false } 8
      = some ([97, 97, 97, 97, 97, 97, 97, 97], none,
          { r := [], blkCap := 12, dec := [], strict := false }) ∧
    flipAt (LE32 (maskedChecksum [97, 97, 97, 97, 97, 97, 97, 97])
        ++ [8, 12, 97, 97, 97, 97, 1, 1]) 11 1
      = LE32 (maskedChecksum [97, 97, 97, 97, 97, 97, 97, 97])
        ++ [8, 12, 97, 97, 97, 97, 1, 3] ∧
    Reader.Read
        { r := wireChunk 0x00 [97, 97, 97, 97, 97, 97, 97, 97] [8, 12, 97, 97, 97, 97, 1, 3],
          blkCap := 0, dec := [], strict := false } 8
      = some ([97, 97, 97, 97, 97, 97, 97, 97], none,
          { r := [], blkCap := 12, dec := [], strict := false }) ∧
    flipAt (LE32 (maskedChecksum [97, 97, 97, 97, 97, 97, 97, 97])
        ++ [8, 12, 97, 97, 97, 97, 1, 1]) 4 0
      = LE32 (maskedChecksum [97, 97, 97, 97, 97, 97, 97, 97])
        ++ [9, 12, 97, 97, 97, 97, 1, 1] ∧
    Reader.Read
        { r := wireChunk 0x00 [97, 97, 97, 97, 97, 97, 97, 97] [9, 12, 97, 97, 97, 97, 1, 1],
          blkCap := 0, dec := [], strict := false } 8
      = some ([], some Err.ErrCorrupt,
          { r := [], blkCap := 12, dec := [], strict := false }) := by
  refine ⟨?_, ?_, ?_, ?_, ?_⟩ <;> decide

/-- C9 as amended (checksum enforcement for Uncompressed chunks): for every
Uncompressed (0x01) chunk that the `Reader` pulls without error and every single
bit flipped in its payload at a position after the 4 checksum bytes, the pull of
the modified chunk fails with `ErrCRCMismatch`, and the `Read` call that pulls
it (nothing buffered, `p` not empty) returns that error and none of the chunk's
bytes. -/
theorem C9_uncompressed_bit_flip (r r2 : Reader) (b1 b2 b3 : Byte) (blk rest : List Byte)
    (i k : Nat) (hr : r.r = 0x01 :: b1 :: b2 :: b3 :: (blk ++ rest))
    (hl : b1.val + b2.val * 256 + b3.val * 65536 = blk.length)
    (hok : r.pull = .ok r2) (hi : 4 ≤ i) (hi2 : i < blk.length) (hk : k < 8) :
    ∃ r3,
      Reader.pull { r with r := 0x01 :: b1 :: b2 :: b3 :: (flipAt blk i k ++ rest) }
        = .error (Err.ErrCRCMismatch, r3) ∧
      (r.dec = [] → ∀ plen, 0 < plen →
        Reader.Read { r with r := 0x01 :: b1 :: b2 :: b3 :: (flipAt blk i k ++ rest) } plen
          = some ([], some Err.ErrCRCMismatch, r3)) := by
  have hlen := flipAt_length blk i k hi2
  have h1v : ((0x01 : Byte)).val = 1 := rfl
  -- the unmodified chunk
  rw [pull_chunk r 0x01 b1 b2 b3 blk rest hr hl, h1v, process_uncompressed _ blk (by omega)]
    at hok
  by_cases c1 : r.strict = true ∧ blk.length > strictBlockLimit
  · rw [if_pos c1] at hok; cases hok
  rw [if_neg c1] at hok
  by_cases c2 : blk.length > blockSize + 4
  · rw [if_pos c2] at hok; cases hok
  rw [if_neg c2] at hok
  by_cases c3 : maskCRC (crc32c (blk.drop 4)) ≠ leNat (blk.take 4)
  · rw [if_pos c3] at hok; cases hok
  -- the modified chunk
  have hp := pull_chunk { r with r := 0x01 :: b1 :: b2 :: b3 :: (flipAt blk i k ++ rest) }
    0x01 b1 b2 b3 (flipAt blk i k) rest rfl (by rw [hlen]; exact hl)
  rw [h1v, process_uncompressed _ _ (by omega)] at hp
  have c1' : ¬ (r.strict = true ∧ (flipAt blk i k).length > strictBlockLimit) := by
    rw [hlen]; exact c1
  dsimp only at hp
  rw [if_neg c1', if_neg (by rw [hlen]; exact c2)] at hp
  have htake : (flipAt blk i k).take 4 = blk.take 4 := by
    unfold flipAt
    rw [List.take_append_of_le_length (by rw [List.length_take]; omega), List.take_take,
      Nat.min_eq_left hi]
  have hdrop : (flipAt blk i k).drop 4
      = (blk.take i).drop 4 ++ flipBit (blk.getD i 0) k :: blk.drop (i + 1) := by
    unfold flipAt
    rw [List.drop_append_of_le_length (by rw [List.length_take]; omega)]
  have hdrop0 : blk.drop 4 = (blk.take i).drop 4 ++ blk.getD i 0 :: blk.drop (i + 1) := by
    conv_lhs => rw [split_at blk i hi2]
    rw [List.drop_append_of_le_length (by rw [List.length_take]; omega)]
  have hne : maskCRC (crc32c ((flipAt blk i k).drop 4)) ≠ leNat ((flipAt blk i k).take 4) := by
    rw [htake, ← not_not.mp c3]
    intro h
    have := maskCRC_inj _ _ (crc32c_lt _) (crc32c_lt _) h
    rw [hdrop, hdrop0] at this
    exact crc32c_one_byte _ _ _ _ (flipBit_ne _ k hk) this
  rw [if_pos hne] at hp
  refine ⟨_, hp, fun hd plen hpl => ?_⟩
  rw [Read_pull { r with r := 0x01 :: b1 :: b2 :: b3 :: (flipAt blk i k ++ rest) } plen hd hpl,
    hp]

theorem C9_uncompressed_bit_flip_witness :
    ∃ r3,
      Reader.pull
          { r := 0x01 :: 6 :: 0 :: 0 ::
              (flipAt (LE32 (maskedChecksum [104, 105]) ++ [104, 105]) 5 0 ++ []),
            blkCap := 0, dec := [], strict := false }
        = .error (Err.ErrCRCMismatch, r3) ∧
      (([] : List Byte) = [] → ∀ plen, 0 < plen →
        Reader.Read
            { r := 0x01 :: 6 :: 0 :: 0 ::
                (flipAt (LE32 (maskedChecksum [104, 105]) ++ [104, 105]) 5 0 ++ []),
              blkCap := 0, dec := [], strict := false } plen
          = some ([], some Err.ErrCRCMismatch, r3)) :=
  C9_uncompressed_bit_flip
    { r := 0x01 :: 6 :: 0 :: 0 :: ((LE32 (maskedChecksum [104, 105]) ++ [104, 105]) ++ []),
      blkCap := 0, dec := [], strict := false }
    { r := [], blkCap := 6, dec := [104, 105], strict := false }
    6 0 0 (LE32 (maskedChecksum [104, 105]) ++ [104, 105]) [] 5 0 rfl (by decide) rfl
    (by decide) (by decide) (by decide)

/-! ## The stream the `Writer` produces -/

theorem Flush_frame (w : Writer) (hc : 8 ≤ w.c.length) (hb : w.b.length ≤ blockSize) :
    ∃ w1, w.Flush = some w1 ∧ w1.w = w.w ++ frame w.b ∧ w1.b = [] ∧ w1.c.length = w.c.length := by
  have hb' : w.b.length ≤ 2 ^ 30 := le_trans hb (by decide)
  obtain ⟨enc, h1, _, w1, h2, h3, h4, h5⟩ := Flush_spec w hc hb'
  refine ⟨w1, h2, ?_, h4, h5⟩
  rw [h3]
  unfold frame
  rw [h1 []]
  dsimp only
  split_ifs <;> rfl

theorem frames_cons (B : List Byte) (bs : List (List Byte)) :
    frames (B :: bs) = frame B ++ frames bs := by
  simp [frames]

theorem frames_append (as bs : List (List Byte)) :
    frames (as ++ bs) = frames as ++ frames bs := by
  simp [frames]

/-- The loop of `Write`: it returns `len(data)`, emits a chunk for every full
block, and keeps fewer than `blockSize` bytes buffered. -/
theorem writeLoop_spec : ∀ (fuel : Nat) (w : Writer) (data : List Byte) (n0 : Nat),
    8 ≤ w.c.length → w.b.length < blockSize → data.length < fuel →
    ∃ w1 blocks, Writer.writeLoop fuel w data n0 = some (w1, n0 + data.length) ∧
      w1.w = w.w ++ frames blocks ∧ (∀ B ∈ blocks, B.length = blockSize) ∧
      blocks.flatten ++ w1.b = w.b ++ data ∧ w1.b.length < blockSize ∧ 8 ≤ w1.c.length := by
  intro fuel
  induction fuel with
  | zero => intro w data n0 _ _ h; omega
  | succ fuel ih =>
    intro w data n0 hc hb hf
    rw [Writer.writeLoop]
    by_cases hd : data.length > 0
    · rw [if_pos hd]
      dsimp only
      obtain ⟨copied, hcop⟩ : ∃ c, c = min (blockSize - w.n) data.length := ⟨_, rfl⟩
      rw [← hcop]
      have hn : w.n = w.b.length := rfl
      have hc1 : 1 ≤ copied ∧ copied ≤ data.length ∧ copied ≤ blockSize - w.b.length := by
        rw [hcop, hn]; omega
      have hlen : (w.b ++ data.take copied).length = w.b.length + copied := by
        rw [List.length_append, List.length_take]; omega
      by_cases hfull : Writer.n { w with b := w.b ++ data.take copied } = blockSize
      · rw [if_pos hfull]
        have hfull' : (w.b ++ data.take copied).length = blockSize := hfull
        obtain ⟨w2, f1, f2, f3, f4⟩ := Flush_frame { w with b := w.b ++ data.take copied } hc
          (by rw [hfull'])
        rw [f1]
        dsimp only
        obtain ⟨w3, blocks, g1, g2, g3, g4, g5, g6⟩ := ih w2 (data.drop copied) (n0 + copied)
          (by rw [f4]; exact hc) (by rw [f3]; decide)
          (by rw [List.length_drop]; omega)
        refine ⟨w3, (w.b ++ data.take copied) :: blocks, ?_, ?_, ?_, ?_, g5, g6⟩
        · rw [g1, List.length_drop]
          congr 2
          omega
        · rw [g2, f2, frames_cons, List.append_assoc]
        · intro B hB
          rcases List.mem_cons.mp hB with h | h
          · rw [h]; exact hfull'
          · exact g3 B h
        · rw [List.flatten_cons, List.append_assoc, g4, f3, List.nil_append, List.append_assoc,
            List.take_append_drop]
      · rw [if_neg hfull]
        have hfull' : ¬ (w.b ++ data.take copied).length = blockSize := hfull
        have hall : copied = data.length := by
          rw [hlen] at hfull'
          rw [hcop, hn] at hfull' ⊢
          omega
        obtain ⟨w3, blocks, g1, g2, g3, g4, g5, g6⟩ := ih { w with b := w.b ++ data.take copied }
          (data.drop copied) (n0 + copied) hc
          (by
            show (w.b ++ data.take copied).length < blockSize
            rw [hlen]; rw [hlen] at hfull'; omega)
          (by rw [List.length_drop]; omega)
        refine ⟨w3, blocks, ?_, g2, g3, ?_, g5, g6⟩
        · rw [g1, List.length_drop]
          congr 2
          omega
        · rw [g4]
          show (w.b ++ data.take copied) ++ data.drop copied = w.b ++ data
          rw [List.append_assoc, List.take_append_drop]
    · rw [if_neg hd]
      have : data = [] := List.length_eq_zero.mp (by omega)
      subst this
      exact ⟨w, [], rfl, by simp [frames], by simp, by simp, hb, hc⟩

theorem writes_spec : ∀ (ds : List (List Byte)) (w : Writer),
    8 ≤ w.c.length → w.b.length < blockSize →
    ∃ w1 blocks, w.writes ds = some w1 ∧
      w1.w = w.w ++ frames blocks ∧ (∀ B ∈ blocks, B.length = blockSize) ∧
      blocks.flatten ++ w1.b = w.b ++ ds.flatten ∧ w1.b.length < blockSize ∧ 8 ≤ w1.c.length := by
  intro ds
  induction ds with
  | nil => intro w hc hb; exact ⟨w, [], rfl, by simp [frames], by simp, by simp, hb, hc⟩
  | cons d ds ih =>
    intro w hc hb
    obtain ⟨w1, bl1, g1, g2, g3, g4, g5, g6⟩ :=
      writeLoop_spec (d.length + 2) w d 0 hc hb (by omega)
    obtain ⟨w2, bl2, k1, k2, k3, k4, k5, k6⟩ := ih w1 g6 g5
    refine ⟨w2, bl1 ++ bl2, ?_, ?_, ?_, ?_, k5, k6⟩
    · rw [Writer.writes, Writer.Write, g1]
      exact k1
    · rw [k2, g2, frames_append, List.append_assoc]
    · intro B hB
      rcases List.mem_append.mp hB with h | h
      · exact g3 B h
      · exact k3 B h
    · rw [List.flatten_append, List.append_assoc, k4, ← List.append_assoc, g4, List.flatten_cons,
        List.append_assoc]

/-! ## Reading the stream back -/

theorem chunkSwitch_compressed (l : Nat) (blk dec0 B : List Byte)
    (hdl : DecodedLen (blk.drop 4) = some B.length) (hB : B.length ≤ blockSize)
    (hdec : Decode (blk.drop 4) = some B) :
    chunkSwitch 0 l blk dec0 = .ok B := by
  unfold chunkSwitch
  rw [if_pos (by decide), hdl]
  dsimp only
  rw [if_neg (by omega), hdec]

/-- Processing a Compressed chunk whose block decodes to `B` and whose checksum
is that of `B`. -/
theorem process_compressed (r1 : Reader) (blk B : List Byte) (h4 : 4 ≤ blk.length)
    (hdl : DecodedLen (blk.drop 4) = some B.length) (hB : B.length ≤ blockSize)
    (hdec : Decode (blk.drop 4) = some B) (hcrc : maskCRC (crc32c B) = leNat (blk.take 4)) :
    r1.process 0 blk.length blk = .ok { r1 with dec := B } := by
  unfold Reader.process
  rw [if_neg (by omega), masked_eq blk h4, chunkSwitch_compressed _ blk _ B hdl hB hdec]
  have h0 : (0 : Nat) = chunkTypeCompressed ∨ (0 : Nat) = chunkTypeUncompressed := Or.inl rfl
  simp only [h0, if_true, true_and, hcrc, ne_eq, not_true_eq_false, if_false]

/-- Pulling the chunk the `Writer` emitted for a block `B` yields `B`, in strict
mode too. -/
theorem pull_frame (r : Reader) (B rest : List Byte) (hB : B.length ≤ blockSize)
    (hr : r.r = frame B ++ rest) :
    ∃ cap, r.pull = .ok { r := rest, blkCap := cap, dec := B, strict := r.strict } := by
  have hB31 : B.length + B.length / 6 + 5 < 2 ^ 31 := by
    have hB2 : B.length ≤ 65536 := hB
    have h31 : (2 : Nat) ^ 31 = 2147483648 := by norm_num
    omega
  have hB' : B.length ≤ 65536 := hB
  obtain ⟨enc, h1, h2, h3, h4⟩ := Encode_spec B hB31
  have hlim : strictBlockLimit = 76498 := by decide
  have hbs : blockSize = 65536 := by decide
  -- a chunk with payload `P`, `P.length ≤ 65536`
  have hshape : ∀ (t : Byte) (P : List Byte), P.length ≤ 65536 →
      wireChunk t B P ++ rest
        = t :: byte ((4 + P.length) % 256) :: byte ((4 + P.length) / 256 % 256)
          :: byte ((4 + P.length) / 65536 % 256) :: ((LE32 (maskedChecksum B) ++ P) ++ rest) ∧
      (byte ((4 + P.length) % 256)).val + (byte ((4 + P.length) / 256 % 256)).val * 256
        + (byte ((4 + P.length) / 65536 % 256)).val * 65536
        = (LE32 (maskedChecksum B) ++ P).length := by
    intro t P hP
    constructor
    · simp [wireChunk, LE24]
    · rw [byte_val, byte_val, byte_val]
      simp only [List.length_append, LE32, List.length_cons, List.length_nil]
      omega
  have hlen32 : (LE32 (maskedChecksum B)).length = 4 := rfl
  have htake : ∀ P : List Byte, (LE32 (maskedChecksum B) ++ P).take 4 = LE32 (maskedChecksum B) := by
    intro P
    rw [← hlen32, List.take_left]
  have hdrop : ∀ P : List Byte, (LE32 (maskedChecksum B) ++ P).drop 4 = P := by
    intro P
    exact List.drop_left' hlen32
  have hcrc : maskCRC (crc32c B) = leNat (LE32 (maskedChecksum B)) := by
    rw [leNat_LE32 _ (maskedChecksum_lt B), maskCRC_crc32c]
  unfold frame at hr
  rw [h1 []] at hr
  dsimp only at hr
  by_cases hinc : enc.length > B.length
  · rw [if_pos hinc] at hr
    obtain ⟨s1, s2⟩ := hshape 0x01 B hB'
    rw [s1] at hr
    have hlenblk : (LE32 (maskedChecksum B) ++ B).length = 4 + B.length := by
      rw [List.length_append, hlen32]
    rw [pull_chunk r _ _ _ _ _ rest hr s2, if_neg (by rw [hlenblk, hlim]; omega),
      show ((0x01 : Byte)).val = 1 from rfl, process_uncompressed _ _ (by rw [hlenblk]; omega),
      if_neg (by rw [hlenblk, hbs]; omega), htake, hdrop, if_neg (by rw [hcrc]; simp)]
    exact ⟨_, rfl⟩
  · rw [if_neg hinc] at hr
    obtain ⟨s1, s2⟩ := hshape 0x00 enc (by omega)
    rw [s1] at hr
    have hlenblk : (LE32 (maskedChecksum B) ++ enc).length = 4 + enc.length := by
      rw [List.length_append, hlen32]
    rw [pull_chunk r _ _ _ _ _ rest hr s2, if_neg (by rw [hlenblk, hlim]; omega),
      show ((0x00 : Byte)).val = 0 from rfl,
      process_compressed _ _ B (by rw [hlenblk]; omega) (by rw [hdrop]; exact h3) hB
        (by rw [hdrop]; exact h2) (by rw [htake]; exact hcrc)]
    exact ⟨_, rfl⟩

theorem frame_length (B : List Byte) (hB : B.length ≤ blockSize) : 8 ≤ (frame B).length := by
  have hB31 : B.length + B.length / 6 + 5 < 2 ^ 31 := by
    have hB2 : B.length ≤ 65536 := hB
    have h31 : (2 : Nat) ^ 31 = 2147483648 := by norm_num
    omega
  obtain ⟨enc, h1, _, _, _⟩ := Encode_spec B hB31
  unfold frame
  rw [h1 []]
  dsimp only
  split_ifs <;> simp [wireChunk, LE24, LE32]

theorem frames_length : ∀ (blocks : List (List Byte)), (∀ B ∈ blocks, B.length ≤ blockSize) →
    8 * blocks.length ≤ (frames blocks).length := by
  intro blocks
  induction blocks with
  | nil => intro _; simp
  | cons B bs ih =>
    intro h
    rw [frames_cons, List.length_append, List.length_cons]
    have := frame_length B (h B (List.mem_cons_self _ _))
    have := ih (fun X hX => h X (List.mem_cons_of_mem _ hX))
    omega

theorem take_drop_split (dec J : List Byte) (k c : Nat) (hc : c = min k dec.length) :
    (dec ++ J).take k = dec.take c ++ (dec.drop c ++ J).take (k - c) ∧
      (dec ++ J).drop k = (dec.drop c ++ J).drop (k - c) ∧
      (dec.drop c ++ J).length + c = (dec ++ J).length := by
  by_cases h : k ≤ dec.length
  · have : c = k := by omega
    subst this
    refine ⟨?_, ?_, ?_⟩
    · rw [Nat.sub_self, List.take_zero, List.append_nil, List.take_append_of_le_length h]
    · rw [Nat.sub_self, List.drop_zero, List.drop_append_of_le_length h]
    · simp only [List.length_append, List.length_drop]; omega
  · have : c = dec.length := by omega
    subst this
    refine ⟨?_, ?_, ?_⟩
    · rw [List.take_length, List.drop_length, List.nil_append, List.take_append_eq_append_take,
        List.take_of_length_le (by omega)]
    · rw [List.drop_length, List.nil_append, List.drop_append_eq_append_drop,
        List.drop_of_length_le (by omega), List.nil_append]
    · simp only [List.length_append, List.length_drop]; omega

theorem pull_empty (r : Reader) (hr : r.r = []) : r.pull = .error (Err.EOF, r) := by
  obtain ⟨rr, cap, dec, strict⟩ := r
  simp only at hr
  subst hr
  rfl

/-- The loop of `Read` over a source that holds the chunks of `blocks`: it hands
out the buffered bytes and then the blocks, as far as `p` has room, reports
`io.EOF` exactly when they did not fill `p`, and leaves a reader of the same
kind. -/
theorem readLoop_frames : ∀ (fuel : Nat) (r : Reader) (blocks : List (List Byte)) (plen : Nat)
    (out : List Byte), (∀ B ∈ blocks, B.length ≤ blockSize) → r.r = frames blocks →
    (plen ≤ out.length ∧ 1 ≤ fuel ∨
      2 * blocks.length + (if r.dec = [] then 0 else 1) + 1 ≤ fuel) →
    ∃ r1 blocks1,
      Reader.readLoop fuel r plen out
        = some (out ++ (r.dec ++ blocks.flatten).take (plen - out.length),
            (if (r.dec ++ blocks.flatten).length < plen - out.length then some Err.EOF else none),
            r1) ∧
      (∀ B ∈ blocks1, B.length ≤ blockSize) ∧ r1.r = frames blocks1 ∧
      r1.strict = r.strict ∧
      r1.dec ++ blocks1.flatten = (r.dec ++ blocks.flatten).drop (plen - out.length) := by
  intro fuel
  induction fuel with
  | zero => intro r blocks plen out _ _ h; omega
  | succ fuel ih =>
    intro r blocks plen out hbl hr hf
    rw [Reader.readLoop]
    by_cases c1 : out.length < plen
    · rw [if_pos c1]
      have hf2 : 2 * blocks.length + (if r.dec = [] then 0 else 1) + 1 ≤ fuel + 1 := by omega
      by_cases c2 : r.dec.length > 0
      · rw [if_pos c2]
        dsimp only
        have hne : r.dec ≠ [] := by
          intro h; rw [h] at c2; simp at c2
        rw [if_neg hne] at hf2
        obtain ⟨c, hc⟩ : ∃ c, c = min (plen - out.length) r.dec.length := ⟨_, rfl⟩
        rw [← hc]
        obtain ⟨t1, t2, t3⟩ := take_drop_split r.dec blocks.flatten (plen - out.length) c hc
        have hlen : (out ++ r.dec.take c).length = out.length + c := by
          rw [List.length_append, List.length_take]; omega
        obtain ⟨r1, bl1, e1, e2, e3, e4, e5⟩ := ih { r with dec := r.dec.drop c } blocks plen
          (out ++ r.dec.take c) hbl hr
          (by
            rw [hlen]
            by_cases hk : plen - out.length ≤ r.dec.length
            · left; omega
            · right
              have : c = r.dec.length := by omega
              have hd : List.drop c r.dec = [] := by rw [this, List.drop_length]
              dsimp only
              rw [if_pos hd]
              omega)
        refine ⟨r1, bl1, ?_, e2, e3, e4, ?_⟩
        · rw [e1, hlen]
          dsimp only
          rw [t1, show plen - (out.length + c) = plen - out.length - c by omega,
            List.append_assoc]
          congr 2
          have : ((r.dec.drop c ++ blocks.flatten).length < plen - out.length - c)
              ↔ ((r.dec ++ blocks.flatten).length < plen - out.length) := by omega
          simp only [this]
        · rw [e5, hlen]
          dsimp only
          rw [t2, show plen - (out.length + c) = plen - out.length - c by omega]
      · rw [if_neg c2]
        have hdec : r.dec = [] := List.length_eq_zero.mp (by omega)
        rw [if_pos hdec] at hf2
        cases blocks with
        | nil =>
          have hr0 : r.r = [] := by rw [hr]; rfl
          rw [pull_empty r hr0]
          dsimp only
          refine ⟨r, [], ?_, hbl, hr, rfl, ?_⟩
          · rw [hdec]
            simp only [List.flatten_nil, List.append_nil, List.take_nil, List.length_nil]
            rw [if_pos (by omega)]
          · rw [hdec]; simp
        | cons B bs =>
          rw [frames_cons] at hr
          obtain ⟨cap, hp⟩ := pull_frame r B (frames bs) (hbl B (List.mem_cons_self _ _)) hr
          rw [hp]
          dsimp only
          obtain ⟨r1, bl1, e1, e2, e3, e4, e5⟩ := ih
            { r := frames bs, blkCap := cap, dec := B, strict := r.strict } bs plen out
            (fun X hX => hbl X (List.mem_cons_of_mem _ hX)) rfl
            (by
              right
              dsimp only
              rw [List.length_cons] at hf2
              split_ifs <;> omega)
          refine ⟨r1, bl1, ?_, e2, e3, e4, ?_⟩
          · rw [e1, hdec]
            simp only [List.flatten_cons, List.nil_append]
          · rw [e5, hdec]
            simp only [List.flatten_cons, List.nil_append]
    · rw [if_neg c1]
      refine ⟨r, blocks, ?_, hbl, hr, rfl, ?_⟩
      · rw [show plen - out.length = 0 by omega]
        simp
      · rw [show plen - out.length = 0 by omega]
        simp

/-- A sequence of `Read` calls over a source that holds the chunks of `blocks`. -/
theorem reads_frames : ∀ (ps : List Nat) (r : Reader) (blocks : List (List Byte)),
    (∀ B ∈ blocks, B.length ≤ blockSize) → r.r = frames blocks →
    r.reads ps = some (expectedReads (r.dec ++ blocks.flatten) ps) := by
  intro ps
  induction ps with
  | nil => intro r blocks _ _; rfl
  | cons p ps ih =>
    intro r blocks hbl hr
    have hlen := frames_length blocks hbl
    obtain ⟨r1, bl1, e1, e2, e3, _, e5⟩ := readLoop_frames (r.r.length + 2) r blocks p [] hbl hr
      (by right; rw [hr]; split_ifs <;> omega)
    rw [Reader.reads, Reader.Read, e1]
    dsimp only
    rw [ih r1 bl1 e2 e3, e5]
    simp only [List.length_nil, Nat.sub_zero, List.nil_append, expectedReads]

/-- C3 (streaming round trip). For every byte sequence and every way `ws` of
splitting it into a sequence of `Write` calls on a fresh `Writer` over a sink
that never fails, followed by a final `Flush` (which is what `Close` does): the
writes and the flush succeed, `NewReader` over the bytes written to the sink
returns a `Reader` and no error, and for every sequence `ps` of buffer lengths
the `Read` calls return exactly the bytes of `ws.flatten` in order, each call
filling its buffer from what is left, with `io.EOF` as soon as, and as long as,
less than a full buffer is left, and no other error. -/
theorem C3_streaming_round_trip (ws : List (List Byte)) :
    ∃ w1 w2 rd, (NewWriter []).writes ws = some w1 ∧ w1.Flush = some w2 ∧
      w1.Close = w1.Flush ∧ NewReader w2.w = .ok rd ∧
      ∀ ps : List Nat, rd.reads ps = some (expectedReads ws.flatten ps) := by
  have hc0 : 8 ≤ (NewWriter []).c.length := by
    show 8 ≤ (List.replicate (MaxEncodedLen 65536 + 8) (0 : Byte)).length
    rw [List.length_replicate]
    exact Nat.le_add_left 8 _
  obtain ⟨w1, blocks, g1, g2, g3, g4, g5, g6⟩ := writes_spec ws (NewWriter []) hc0 (by decide)
  obtain ⟨w2, f1, f2, _, _⟩ := Flush_frame w1 g6 (Nat.le_of_lt g5)
  have hstream : w2.w = signature ++ frames (blocks ++ [w1.b]) := by
    rw [f2, g2, frames_append, List.append_assoc]
    simp [NewWriter, frames]
  have hbl : ∀ B ∈ blocks ++ [w1.b], B.length ≤ blockSize := by
    intro B hB
    rcases List.mem_append.mp hB with h | h
    · exact Nat.le_of_eq (g3 B h)
    · rw [List.mem_singleton.mp h]; exact Nat.le_of_lt g5
  have hS : (blocks ++ [w1.b]).flatten = ws.flatten := by
    rw [List.flatten_append, List.flatten_cons, List.flatten_nil, List.append_nil, g4]
    rfl
  have hnr := NewReader_spec w2.w
  have hsl : ¬ w2.w.length < 10 := by
    rw [hstream, List.length_append]; simp [signature]
  have ht : w2.w.take 10 = [0xff, 0x06, 0x00, 0x00, 0x73, 0x4e, 0x61, 0x50, 0x70, 0x59] := by
    rw [hstream]; rfl
  have hd : w2.w.drop 10 = frames (blocks ++ [w1.b]) := by
    rw [hstream]; rfl
  rw [if_neg hsl, if_pos ht, hd] at hnr
  refine ⟨w1, w2, _, g1, f1, rfl, hnr, fun ps => ?_⟩
  have := reads_frames ps
    { r := frames (blocks ++ [w1.b]), blkCap := 0, dec := [], strict := false }
    (blocks ++ [w1.b]) hbl rfl
  rw [this]
  simp only [List.nil_append, hS]

/-! ## `Read` always returns -/

theorem ReadFull_ok (r : List Byte) (n : Nat) (x rest : List Byte)
    (h : ReadFull r n = (x, none, rest)) : n ≤ r.length ∧ x = r.take n ∧ rest = r.drop n := by
  unfold ReadFull at h
  split_ifs at h with h1 h2
  · simp only [Prod.mk.injEq, true_and] at h
    exact ⟨h1, h.1.symm, h.2.symm⟩
  · simp at h
  · simp at h

theorem process_ok (r1 r2 : Reader) (tag l : Nat) (blk : List Byte)
    (h : r1.process tag l blk = .ok r2) : r2.r = r1.r := by
  unfold Reader.process at h
  by_cases c : (tag = chunkTypeCompressed ∨ tag = chunkTypeUncompressed) ∧ blk.length < 4
  · rw [if_pos c] at h; cases h
  · rw [if_neg c] at h
    dsimp only at h
    cases hsw : chunkSwitch tag l blk r1.dec with
    | error e1 => rw [hsw] at h; cases h
    | ok dec =>
      rw [hsw] at h
      dsimp only at h
      split_ifs at h
      all_goals
        simp only [Except.ok.injEq] at h
        rw [← h]

/-- A pull that reaches the end of the loop body has taken at least the four
bytes of a chunk head from the source. -/
theorem pull_ok (r r2 : Reader) (h : r.pull = .ok r2) : r2.r.length + 4 ≤ r.r.length := by
  unfold Reader.pull at h
  split at h
  · cases h
  · rename_i x hd rest heq
    obtain ⟨a1, _, a3⟩ := ReadFull_ok _ _ _ _ heq
    dsimp only at h
    by_cases c1 : r.strict = true ∧
        (hd.getD 1 0).val + ((hd.getD 2 0).val <<< 8) + ((hd.getD 3 0).val <<< 16)
          > strictBlockLimit
    · rw [if_pos c1] at h; cases h
    · rw [if_neg c1] at h
      generalize (if r.blkCap < (hd.getD 1 0).val + ((hd.getD 2 0).val <<< 8)
        + ((hd.getD 3 0).val <<< 16) then (hd.getD 1 0).val + ((hd.getD 2 0).val <<< 8)
        + ((hd.getD 3 0).val <<< 16) else r.blkCap) = cap at h
      split at h
      · cases h
      · rename_i x2 blk rest2 heq2
        obtain ⟨_, _, b3⟩ := ReadFull_ok _ _ _ _ heq2
        have := process_ok _ _ _ _ _ h
        rw [this]
        dsimp only
        rw [b3, a3, List.length_drop, List.length_drop]
        omega

theorem readLoop_total : ∀ (fuel : Nat) (r : Reader) (plen : Nat) (out : List Byte),
    (plen ≤ out.length ∧ 1 ≤ fuel ∨
      2 * (r.r.length / 4) + (if r.dec = [] then 0 else 1) + 1 ≤ fuel) →
    ∃ res, Reader.readLoop fuel r plen out = some res := by
  intro fuel
  induction fuel with
  | zero => intro r plen out h; omega
  | succ fuel ih =>
    intro r plen out hf
    rw [Reader.readLoop]
    by_cases c1 : out.length < plen
    · rw [if_pos c1]
      have hf2 : 2 * (r.r.length / 4) + (if r.dec = [] then 0 else 1) + 1 ≤ fuel + 1 := by omega
      by_cases c2 : r.dec.length > 0
      · rw [if_pos c2]
        have hne : r.dec ≠ [] := by
          intro h; rw [h] at c2; simp at c2
        rw [if_neg hne] at hf2
        apply ih
        dsimp only
        by_cases hk : plen - out.length ≤ r.dec.length
        · left
          rw [List.length_append, List.length_take]
          omega
        · right
          have hd : List.drop (min (plen - out.length) r.dec.length) r.dec = [] := by
            rw [Nat.min_eq_right (by omega), List.drop_length]
          rw [if_pos hd]
          omega
      · rw [if_neg c2]
        have hdec : r.dec = [] := List.length_eq_zero.mp (by omega)
        rw [if_pos hdec] at hf2
        cases hp : r.pull with
        | error x => exact ⟨_, rfl⟩
        | ok r2 =>
          dsimp only
          apply ih
          right
          have := pull_ok r r2 hp
          split_ifs <;> omega
    · rw [if_neg c1]
      exact ⟨_, rfl⟩

/-- Totality: `Read` returns for every reader and every buffer length: the fuel it passes
to its loop is enough. -/
theorem Read_total (r : Reader) (plen : Nat) : ∃ res, r.Read plen = some res := by
  unfold Reader.Read
  apply readLoop_total
  right
  split_ifs <;> omega

/-! ## Flush with nothing buffered -/

theorem Encode_empty (dst : List Byte) : Encode dst [] = some [0] := rfl

theorem wireChunk_empty : wireChunk 0x01 [] [] = [0x01, 0x04, 0x00, 0x00, 0xD8, 0xEA, 0x82, 0xA2] := by
  decide

/-- C20 (Flush with zero buffered bytes). On a Writer with `n = 0`, `Flush`
returns (no panic: the index `content[0]` of the contiguity test is not
evaluated, which the model would report as `none`), the encoding of the empty
block is the single byte 0, longer than the 0 bytes buffered, the masked
checksum of the empty sequence is `0xA282EAD8`, exactly the 8 bytes
`01 04 00 00 D8 EA 82 A2` are appended to the sink, and `n` is 0 afterwards. -/
theorem C20_empty_flush (w : Writer) (hn : w.n = 0) (hc : 8 ≤ w.c.length) :
    Encode (w.c.drop 8) w.b = some [0] ∧ maskCRC (crc32c []) = 0xA282EAD8 ∧
      ∃ w1, w.Flush = some w1 ∧
        w1.w = w.w ++ [0x01, 0x04, 0x00, 0x00, 0xD8, 0xEA, 0x82, 0xA2] ∧ w1.n = 0 := by
  have hb : w.b = [] := List.length_eq_zero.mp hn
  obtain ⟨enc, h1, _, w1, h2, h3, h4, _⟩ := Flush_spec w hc (by rw [hb]; decide)
  have he : enc = [0] := by
    have a := h1 []
    rw [hb, Encode_empty] at a
    exact (Option.some.inj a).symm
  subst he
  refine ⟨h1 _, by decide, w1, h2, ?_, ?_⟩
  · rw [h3, hb]
    exact congrArg _ wireChunk_empty
  · unfold Writer.n; rw [h4]; rfl

theorem C20_empty_flush_witness :
    Encode ((NewWriter []).c.drop 8) (NewWriter []).b = some [0] ∧
      maskCRC (crc32c []) = 0xA282EAD8 ∧
      ∃ w1, (NewWriter []).Flush = some w1 ∧
        w1.w = (NewWriter []).w ++ [0x01, 0x04, 0x00, 0x00, 0xD8, 0xEA, 0x82, 0xA2] ∧ w1.n = 0 :=
  C20_empty_flush (NewWriter []) rfl (by
    show 8 ≤ (List.replicate (MaxEncodedLen 65536 + 8) (0 : Byte)).length
    rw [List.length_replicate]; exact Nat.le_add_left 8 _)

/-! ## Strict mode and the streams of the `Writer` -/

theorem calls_spec : ∀ (cs : List Call) (w : Writer),
    8 ≤ w.c.length → w.b.length < blockSize →
    ∃ w1 blocks, w.calls cs = some w1 ∧
      w1.w = w.w ++ frames blocks ∧ (∀ B ∈ blocks, B.length ≤ blockSize) ∧
      blocks.flatten ++ w1.b = w.b ++ (cs.map Call.data).flatten ∧
      w1.b.length < blockSize ∧ 8 ≤ w1.c.length := by
  intro cs
  induction cs with
  | nil => intro w hc hb; exact ⟨w, [], rfl, by simp [frames], by simp, by simp, hb, hc⟩
  | cons c cs ih =>
    intro w hc hb
    cases c with
    | Write d =>
      obtain ⟨w1, bl1, g1, g2, g3, g4, g5, g6⟩ :=
        writeLoop_spec (d.length + 2) w d 0 hc hb (by omega)
      obtain ⟨w2, bl2, k1, k2, k3, k4, k5, k6⟩ := ih w1 g6 g5
      refine ⟨w2, bl1 ++ bl2, ?_, ?_, ?_, ?_, k5, k6⟩
      · rw [Writer.calls, Writer.Write, g1]
        exact k1
      · rw [k2, g2, frames_append, List.append_assoc]
      · intro B hB
        rcases List.mem_append.mp hB with h | h
        · exact Nat.le_of_eq (g3 B h)
        · exact k3 B h
      · rw [List.flatten_append, List.append_assoc, k4, ← List.append_assoc, g4,
          List.map_cons, List.flatten_cons, List.append_assoc]
        rfl
    | Flush =>
      obtain ⟨w1, f1, f2, f3, f4⟩ := Flush_frame w hc (Nat.le_of_lt hb)
      obtain ⟨w2, bl2, k1, k2, k3, k4, k5, k6⟩ :=
        ih w1 (by omega) (by rw [f3]; decide)
      refine ⟨w2, w.b :: bl2, ?_, ?_, ?_, ?_, k5, k6⟩
      · rw [Writer.calls, f1]
        exact k1
      · rw [k2, f2, frames_cons, List.append_assoc]
      · intro B hB
        rcases List.mem_cons.mp hB with h | h
        · rw [h]; exact Nat.le_of_lt hb
        · exact k3 B h
      · rw [List.flatten_cons, List.append_assoc, k4, f3, List.map_cons, List.flatten_cons]
        rfl

theorem expectedReads_err : ∀ (ps : List Nat) (S : List Byte),
    ∀ x ∈ expectedReads S ps, x.2 = none ∨ x.2 = some Err.EOF := by
  intro ps
  induction ps with
  | nil => intro S x hx; simp [expectedReads] at hx
  | cons p ps ih =>
    intro S x hx
    rw [expectedReads] at hx
    rcases List.mem_cons.mp hx with h | h
    · rw [h]
      dsimp only
      split_ifs
      · right; rfl
      · left; rfl
    · exact ih _ x h

/-- C11 (strict mode accepts the Writer's own output). For every buffered
block of 0..65536 bytes `Flush` emits a chunk whose declared length
`4 + len(P)` is at most 65536 + 4, which is at most `strictBlockLimit`. For
every sequence of `Write` and `Flush` calls on a fresh `Writer`, both
`NewReader` and `NewReaderStrictMem` accept the bytes in the sink, and for every
sequence of `Read` buffer lengths the strict Reader returns exactly what the
non-strict Reader returns: the bytes of all the chunks written, in order, with
no error other than `io.EOF`, so never `ErrStrictMemLimitExceeded`. -/
theorem C11_strict_accepts_writer_output (w : Writer) (hc : 8 ≤ w.c.length)
    (hb : w.b.length ≤ blockSize) (cs : List Call) :
    (∃ w1 type P, w.Flush = some w1 ∧ w1.w = w.w ++ wireChunk type w.b P ∧
      leNat (LE24 (4 + P.length)) = 4 + P.length ∧
      4 + P.length ≤ 65536 + 4 ∧ 65536 + 4 ≤ strictBlockLimit) ∧
    ∃ w1 rd rds S, (NewWriter []).calls cs = some w1 ∧
      NewReader w1.w = .ok rd ∧ rd.strict = false ∧
      NewReaderStrictMem w1.w = some (.ok rds) ∧ rds.strict = true ∧
      S ++ w1.b = (cs.map Call.data).flatten ∧
      ∀ ps : List Nat, rds.reads ps = rd.reads ps ∧
        rds.reads ps = some (expectedReads S ps) ∧
        ∀ x ∈ expectedReads S ps, x.2 ≠ some Err.ErrStrictMemLimitExceeded := by
  constructor
  · have hb' : w.b.length ≤ 2 ^ 30 := le_trans hb (by decide)
    have hb2 : w.b.length ≤ 65536 := hb
    obtain ⟨enc, h1, _, w1, h2, h3, _, _⟩ := Flush_spec w hc hb'
    have hP : (if enc.length > w.b.length then w.b else enc).length ≤ 65536 := by
      split_ifs <;> omega
    exact ⟨w1, _, _, h2, h3, leNat_LE24 _ (by omega), by omega, by decide⟩
  · have hc0 : 8 ≤ (NewWriter []).c.length := by
      show 8 ≤ (List.replicate (MaxEncodedLen 65536 + 8) (0 : Byte)).length
      rw [List.length_replicate]
      exact Nat.le_add_left 8 _
    obtain ⟨w1, blocks, g1, g2, g3, g4, _, _⟩ := calls_spec cs (NewWriter []) hc0 (by decide)
    have hstream : w1.w = signature ++ frames blocks := by
      rw [g2]; simp [NewWriter]
    have hnr := NewReader_spec w1.w
    have hsl : ¬ w1.w.length < 10 := by
      rw [hstream, List.length_append]; simp [signature]
    have ht : w1.w.take 10 = [0xff, 0x06, 0x00, 0x00, 0x73, 0x4e, 0x61, 0x50, 0x70, 0x59] := by
      rw [hstream]; rfl
    have hd : w1.w.drop 10 = frames blocks := by
      rw [hstream]; rfl
    rw [if_neg hsl, if_pos ht, hd] at hnr
    refine ⟨w1, _, { r := frames blocks, blkCap := 0, dec := [], strict := true },
      blocks.flatten, g1, hnr, rfl, ?_, rfl, ?_, fun ps => ?_⟩
    · unfold NewReaderStrictMem
      rw [hnr]
    · rw [g4]; rfl
    · have a := reads_frames ps
        { r := frames blocks, blkCap := 0, dec := [], strict := false } blocks g3 rfl
      have b := reads_frames ps
        { r := frames blocks, blkCap := 0, dec := [], strict := true } blocks g3 rfl
      simp only [List.nil_append] at a b
      refine ⟨by rw [a, b], b, fun x hx => ?_⟩
      rcases expectedReads_err ps _ x hx with h | h <;> rw [h] <;> simp

theorem C11_strict_accepts_writer_output_witness :
    (∃ w1 type P, Writer.Flush { w := [], b := [97, 98, 99], c := List.replicate 8 0 } = some w1 ∧
      w1.w = [] ++ wireChunk type [97, 98, 99] P ∧
      leNat (LE24 (4 + P.length)) = 4 + P.length ∧
      4 + P.length ≤ 65536 + 4 ∧ 65536 + 4 ≤ strictBlockLimit) ∧
    ∃ w1 rd rds S, (NewWriter []).calls [Call.Write [97, 98], Call.Flush, Call.Write [99]]
        = some w1 ∧
      NewReader w1.w = .ok rd ∧ rd.strict = false ∧
      NewReaderStrictMem w1.w = some (.ok rds) ∧ rds.strict = true ∧
      S ++ w1.b = ([Call.Write [97, 98], Call.Flush, Call.Write [99]].map Call.data).flatten ∧
      ∀ ps : List Nat, rds.reads ps = rd.reads ps ∧
        rds.reads ps = some (expectedReads S ps) ∧
        ∀ x ∈ expectedReads S ps, x.2 ≠ some Err.ErrStrictMemLimitExceeded :=
  C11_strict_accepts_writer_output { w := [], b := [97, 98, 99], c := List.replicate 8 0 }
    (by decide) (by decide) [Call.Write [97, 98], Call.Flush, Call.Write [99]]

/-! ## The space checks of the encoder -/

/-- The function `encode` returns its output whenever the source is shorter than `2^31`
bytes and the destination has room for `len + len/6 + 6` bytes, and the output
does not depend on the room. -/
theorem encode_room (S : List Byte) (hn : S.length < 2 ^ 31) :
    ∃ out, (∀ dEnd, S.length + S.length / 6 + 6 ≤ dEnd → encode dEnd S = some out) ∧
      out.length ≤ S.length + S.length / 6 + 5 := by
  obtain ⟨out, e1, _, e3⟩ := encodeLoop_spec S hn
    (S.length + 1) (fun _ => -1) 0 0 [] (by omega) (Nat.le_refl _) (Nat.zero_le _)
    (fun _ => by simp) (by rw [List.take_zero]; exact Dec_nil []) (by simp)
  exact ⟨out, fun dEnd h => e1 dEnd h, e3⟩

/-! ## Short inputs -/

theorem PutUvarint_small (x : Nat) (h : x < 128) : PutUvarint x = [byte x] := by
  unfold PutUvarint
  rw [Nat.mod_eq_of_lt (lt_trans h (by norm_num))]
  unfold putUvarintLoop
  rw [if_neg (by omega)]

theorem literalHeader_small (len : Nat) (h0 : 0 < len) (h : len < 60) :
    literalHeader len = [byte ((len - 1) <<< 2)] := by
  unfold literalHeader
  simp only [if_neg (show ¬ len = 0 by omega), if_pos h, TAG_LITERAL, Nat.or_zero]

theorem encodeLoop_tail (S : List Byte) (dEnd fuel : Nat) (tbl : Nat → Int) (s lit : Nat)
    (d : List Byte) (h : ¬ s + 3 < S.length) :
    encodeLoop S dEnd (fuel + 1) tbl s lit d
      = if lit ≠ S.length then emitLiteral d dEnd (slice S lit S.length) else some d := by
  rw [encodeLoop, if_neg h]

theorem encodeLoop_miss (S : List Byte) (dEnd fuel : Nat) (tbl : Nat → Int) (s lit : Nat)
    (d : List Byte) (h : s + 3 < S.length)
    (hm : tbl (hashSlot (L32 S s)) < 0 ∨ (s : Int) - tbl (hashSlot (L32 S s)) > (MAXOFFSET : Int)
      ∨ L32 S s ≠ L32 S (tbl (hashSlot (L32 S s))).toNat) :
    encodeLoop S dEnd (fuel + 1) tbl s lit d
      = encodeLoop S dEnd fuel (fun i => if i = hashSlot (L32 S s) then (s : Int) else tbl i)
          (s + 1) lit d := by
  rw [encodeLoop, if_pos h]
  dsimp only
  rw [if_pos hm]

/-- A source of 1 to 4 bytes has no match: `encode` writes it as one literal. -/
theorem encode_short (S : List Byte) (dEnd : Nat) (h0 : S ≠ []) (h4 : S.length ≤ 4) :
    encode dEnd S = emitLiteral [] dEnd S := by
  have hsl : slice S 0 S.length = S := by
    unfold slice
    rw [List.drop_zero, Nat.sub_zero, List.take_length]
  have hpos : 0 < S.length := List.length_pos.mpr h0
  have hne : 0 ≠ S.length := by omega
  unfold encode
  by_cases h : 0 + 3 < S.length
  · have hm : (fun _ : Nat => (-1 : Int)) (hashSlot (L32 S 0)) < 0 := by
      show (-1 : Int) < 0
      decide
    obtain ⟨k, hk⟩ : ∃ k, S.length = k + 1 := ⟨S.length - 1, by omega⟩
    rw [encodeLoop_miss S dEnd S.length (fun _ => -1) 0 0 [] h (Or.inl hm)]
    have e := encodeLoop_tail S dEnd k
      (fun i => if i = hashSlot (L32 S 0) then ((0 : Nat) : Int) else (fun _ => -1) i) (0 + 1) 0 []
      (by omega)
    rw [← hk, if_pos hne, hsl] at e
    exact e
  · rw [encodeLoop_tail S dEnd S.length _ 0 0 [] h, if_pos hne, hsl]

theorem Encode_short (S : List Byte) (hS : S.length ≤ 4) :
    Encode [] S = some (if S = [] then [0] else byte S.length :: byte ((S.length - 1) <<< 2) :: S)
      ∧ (S ≠ [] → parseTags (S.length + 1) (byte ((S.length - 1) <<< 2) :: S)
          = some [Element.literal S]) := by
  constructor
  · by_cases h0 : S = []
    · subst h0
      rfl
    · have hpos : 0 < S.length := List.length_pos.mpr h0
      have hv := PutUvarint_small S.length (by omega)
      have h31 : (2 : Nat) ^ 31 = 2147483648 := by norm_num
      rw [Encode_eq]
      dsimp only
      rw [if_neg (by omega), encode_short S _ h0 hS, emitLiteral_eq _ _ _ (by omega), hv,
        literalHeader_small _ hpos (by omega), if_neg (by
          unfold MaxEncodedLen
          simp only [List.length_nil, List.length_cons]
          split_ifs <;> omega)]
      dsimp only
      rw [toInt32_of_lt _ (by
          simp only [List.length_append, List.length_nil, List.length_cons]
          omega),
        if_neg (by omega), Int.toNat_ofNat, ← List.length_append, List.take_length, if_neg h0]
      rfl
  · intro _
    match S, hS with
    | [a], _ => exact (show parseTags 2 [byte 0, a] = some [Element.literal [a]] from rfl)
    | [a, b], _ => exact (show parseTags 3 [byte 4, a, b] = some [Element.literal [a, b]] from rfl)
    | [a, b, c], _ =>
      exact (show parseTags 4 [byte 8, a, b, c] = some [Element.literal [a, b, c]] from rfl)
    | [a, b, c, d], _ =>
      exact (show parseTags 5 [byte 12, a, b, c, d] = some [Element.literal [a, b, c, d]]
        from rfl)
    | _ :: _ :: _ :: _ :: _ :: _, h => simp at h

/-- C15 (inputs too short to contain a match). For every `S` of at most 4
bytes and every destination, `Encode` returns the single varint byte `len(S)`
followed, when `S` is not empty, by the tag byte `(len(S)-1)<<2` and the bytes
of `S`, and nothing else; these tag bytes are one Literal element holding `S`
and no Copy element. In particular the encoding of the empty input is `[0x00]`
and that of "aaaa" is `[0x04, 0x0C, 'a', 'a', 'a', 'a']`. -/
theorem C15_short_inputs (S : List Byte) (hS : S.length ≤ 4) :
    (∀ dst, Encode dst S
      = some (if S = [] then [0x00] else byte S.length :: byte ((S.length - 1) <<< 2) :: S)) ∧
    (S ≠ [] → parseTags (S.length + 1) (byte ((S.length - 1) <<< 2) :: S)
      = some [Element.literal S]) ∧
    Encode [] [] = some [0x00] ∧
    Encode [] [97, 97, 97, 97] = some [0x04, 0x0C, 97, 97, 97, 97] := by
  obtain ⟨c, h1, _⟩ := Encode_spec S (by
    have h31 : (2 : Nat) ^ 31 = 2147483648 := by norm_num
    omega)
  obtain ⟨e1, e2⟩ := Encode_short S hS
  refine ⟨fun dst => ?_, e2, rfl, by decide⟩
  rw [h1 dst, ← e1, h1 []]

theorem C15_short_inputs_witness :
    (∀ dst, Encode dst [97, 98]
      = some (if ([97, 98] : List Byte) = [] then [0x00]
          else byte ([97, 98] : List Byte).length
            :: byte ((([97, 98] : List Byte).length - 1) <<< 2) :: [97, 98])) ∧
    (([97, 98] : List Byte) ≠ [] →
      parseTags (([97, 98] : List Byte).length + 1)
        (byte ((([97, 98] : List Byte).length - 1) <<< 2) :: [97, 98])
      = some [Element.literal [97, 98]]) ∧
    Encode [] [] = some [0x00] ∧
    Encode [] [97, 97, 97, 97] = some [0x04, 0x0C, 97, 97, 97, 97] :=
  C15_short_inputs [97, 98] (by decide)

/-! ## The scenario "aaaaaaaa" -/

/-- C14, counterexample. The block `Encode(nil, "aaaaaaaa")` is `08 00 61 0d 01`:
after the varint 8 its first element is a Literal of length 1 (the tag byte
`00` and one `a`), not of length at least 4; the other seven bytes come from
one Copy. -/
theorem C14_counterexample :
    Encode [] ([97, 97, 97, 97, 97, 97, 97, 97] : List Byte) = some [0x08, 0x00, 0x61, 0x0d, 0x01] ∧
      parseTags 4 [0x00, 0x61, 0x0d, 0x01] = some [Element.literal [97], Element.copy 1 1 7] ∧
      ∀ c lit els, Encode [] ([97, 97, 97, 97, 97, 97, 97, 97] : List Byte) = some c →
        parseTags c.length (c.drop 1) = some (Element.literal lit :: els) → lit.length < 4 := by
  have h1 : Encode [] ([97, 97, 97, 97, 97, 97, 97, 97] : List Byte)
      = some [0x08, 0x00, 0x61, 0x0d, 0x01] := by decide
  have h2 : parseTags 5 [0x00, 0x61, 0x0d, 0x01]
      = some [Element.literal [97], Element.copy 1 1 7] := by decide
  refine ⟨h1, by decide, ?_⟩
  intro c lit els hc hp
  rw [h1] at hc
  rw [← Option.some.inj hc] at hp
  have hp2 : parseTags 5 [0x00, 0x61, 0x0d, 0x01] = some (Element.literal lit :: els) := hp
  rw [h2] at hp2
  have h3 := List.head_eq_of_cons_eq (Option.some.inj hp2)
  rw [← Element.literal.inj h3]
  decide

/-- C14 (the scenario "aaaaaaaa", amended). The block `Encode(nil, "aaaaaaaa")`
is the varint 8 followed by a Literal element of length 1 (the first `a`) and
one 2-byte Copy element (tag type 1) with offset 1 and length 7, which covers
all the remaining bytes; the block decodes back to "aaaaaaaa". -/
theorem C14_aaaaaaaa :
    Encode [] ([97, 97, 97, 97, 97, 97, 97, 97] : List Byte) = some [0x08, 0x00, 0x61, 0x0d, 0x01] ∧
      uvarint [0x08, 0x00, 0x61, 0x0d, 0x01] = some (8, [0x00, 0x61, 0x0d, 0x01]) ∧
      parseTags 4 [0x00, 0x61, 0x0d, 0x01] = some [Element.literal [97], Element.copy 1 1 7] ∧
      TAG_COPY1 = 1 ∧ 1 + 7 = ([97, 97, 97, 97, 97, 97, 97, 97] : List Byte).length ∧
      Decode [0x08, 0x00, 0x61, 0x0d, 0x01] = some [97, 97, 97, 97, 97, 97, 97, 97] := by
  decide

/-! ## The end of the source -/

theorem pull_short_head (r : Reader) (h1 : 1 ≤ r.r.length) (h3 : r.r.length ≤ 3) :
    r.pull = .error (Err.ErrUnexpectedEOF, { r with r := [] }) := by
  unfold Reader.pull ReadFull
  rw [if_neg (by omega), if_neg (by omega)]

theorem pull_short_payload (r : Reader) (tag b1 b2 b3 : Byte) (rest : List Byte)
    (hr : r.r = tag :: b1 :: b2 :: b3 :: rest)
    (hl : rest.length < b1.val + b2.val * 256 + b3.val * 65536)
    (hs : r.strict = true → b1.val + b2.val * 256 + b3.val * 65536 ≤ strictBlockLimit) :
    ∃ cap, r.pull = .error (Err.ErrUnexpectedEOF, { r with r := [], blkCap := cap }) := by
  unfold Reader.pull
  rw [hr, ReadFull_cons4]
  dsimp only
  have e : (([tag, b1, b2, b3] : List Byte).getD 1 0).val
      + ((([tag, b1, b2, b3] : List Byte).getD 2 0).val <<< 8)
      + ((([tag, b1, b2, b3] : List Byte).getD 3 0).val <<< 16)
      = b1.val + b2.val * 256 + b3.val * 65536 := by
    simp only [List.getD_cons_succ, List.getD_cons_zero, Nat.shiftLeft_eq]
  rw [e]
  generalize b1.val + b2.val * 256 + b3.val * 65536 = l at hl hs
  rw [if_neg (by
    intro h
    have := hs h.1
    omega)]
  unfold ReadFull
  rw [if_neg (by omega)]
  by_cases h0 : rest.length = 0
  · rw [if_pos h0]
    exact ⟨_, rfl⟩
  · rw [if_neg h0]
    exact ⟨_, rfl⟩

/-- C13, the claim as stated fails. In strict mode a source that ends after a
complete header whose declared length (here `0xffffff`) exceeds
`strictBlockLimit`, before any payload byte, makes `Read` return
`ErrStrictMemLimitExceeded`, not `io.ErrUnexpectedEOF`; and a `Read` with an
empty `p` at the end of the source returns no error instead of `io.EOF`. -/
theorem C13_counterexample :
    Reader.Read { r := [0x00, 0xff, 0xff, 0xff], blkCap := 0, dec := [], strict := true } 1
        = some ([], some Err.ErrStrictMemLimitExceeded,
            { r := [], blkCap := 0, dec := [], strict := true }) ∧
      Reader.Read { r := [], blkCap := 0, dec := [], strict := false } 0
        = some ([], none, { r := [], blkCap := 0, dec := [], strict := false }) := by
  constructor <;> rfl

/-- C13 as amended (end-of-stream classification). For a `Reader` whose decoded
buffer is exhausted and a non-empty `p`: when the source ends exactly at a
chunk boundary `Read` returns 0 bytes and `io.EOF`; when it ends after 1..3
header bytes, or after a complete header and fewer than the declared number of
payload bytes (the declared length being at most `strictBlockLimit` if the
Reader is strict), `Read` returns 0 bytes and `io.ErrUnexpectedEOF`. -/
theorem C13_end_of_stream (r : Reader) (plen : Nat) (hd : r.dec = []) (hp : 0 < plen) :
    (r.r = [] → r.Read plen = some ([], some Err.EOF, r)) ∧
    (1 ≤ r.r.length → r.r.length ≤ 3 →
      r.Read plen = some ([], some Err.ErrUnexpectedEOF, { r with r := [] })) ∧
    (∀ (tag b1 b2 b3 : Byte) (rest : List Byte), r.r = tag :: b1 :: b2 :: b3 :: rest →
      rest.length < b1.val + b2.val * 256 + b3.val * 65536 →
      (r.strict = true → b1.val + b2.val * 256 + b3.val * 65536 ≤ strictBlockLimit) →
      ∃ cap, r.Read plen
        = some ([], some Err.ErrUnexpectedEOF, { r with r := [], blkCap := cap })) := by
  refine ⟨fun h => ?_, fun h1 h3 => ?_, fun tag b1 b2 b3 rest hr hl hs => ?_⟩
  · rw [Read_pull r plen hd hp, pull_empty r h]
  · rw [Read_pull r plen hd hp, pull_short_head r h1 h3]
  · obtain ⟨cap, hc⟩ := pull_short_payload r tag b1 b2 b3 rest hr hl hs
    exact ⟨cap, by rw [Read_pull r plen hd hp, hc]⟩

theorem C13_end_of_stream_witness :
    Reader.Read { r := [], blkCap := 0, dec := [], strict := true } 1
        = some ([], some Err.EOF, { r := [], blkCap := 0, dec := [], strict := true }) ∧
      Reader.Read { r := [0x01, 5], blkCap := 0, dec := [], strict := true } 1
        = some ([], some Err.ErrUnexpectedEOF,
            { r := [], blkCap := 0, dec := [], strict := true }) ∧
      ∃ cap, Reader.Read { r := [0x01, 5, 0, 0, 1, 2], blkCap := 0, dec := [], strict := true } 1
        = some ([], some Err.ErrUnexpectedEOF,
            { r := [], blkCap := cap, dec := [], strict := true }) :=
  ⟨(C13_end_of_stream { r := [], blkCap := 0, dec := [], strict := true } 1
      rfl (by decide)).1 rfl,
    (C13_end_of_stream { r := [0x01, 5], blkCap := 0, dec := [], strict := true } 1
      rfl (by decide)).2.1 (by decide) (by decide),
    (C13_end_of_stream { r := [0x01, 5, 0, 0, 1, 2], blkCap := 0, dec := [], strict := true } 1
      rfl (by decide)).2.2 0x01 5 0 0 [1, 2] rfl (by decide) (fun _ => by decide)⟩

/-! ## Chunks that carry no data -/

theorem process_skippable (r1 : Reader) (tag l : Nat) (blk : List Byte)
    (h1 : 0x80 ≤ tag) (h2 : tag ≤ 0xFE) : r1.process tag l blk = .ok r1 := by
  have hsw : chunkSwitch tag l blk r1.dec = .ok r1.dec := by
    unfold chunkSwitch chunkTypeCompressed chunkTypeUncompressed chunkTypeSig
      chunkTypeFirstSkippable
    rw [if_neg (by omega), if_neg (by omega), if_neg (by omega), if_neg (by omega)]
  unfold Reader.process
  rw [hsw]
  unfold chunkTypeCompressed chunkTypeUncompressed
  rw [if_neg (by omega)]
  dsimp only
  rw [if_neg (by omega)]

theorem process_reserved (r1 : Reader) (tag l : Nat) (blk : List Byte)
    (h1 : 0x02 ≤ tag) (h2 : tag ≤ 0x7F) :
    r1.process tag l blk = .error (Err.ErrUnexpectedChunk, r1) := by
  have hsw : chunkSwitch tag l blk r1.dec = .error Err.ErrUnexpectedChunk := by
    unfold chunkSwitch chunkTypeCompressed chunkTypeUncompressed chunkTypeSig
      chunkTypeFirstSkippable
    rw [if_neg (by omega), if_neg (by omega), if_neg (by omega), if_pos (by omega)]
  unfold Reader.process
  rw [hsw]
  unfold chunkTypeCompressed chunkTypeUncompressed
  rw [if_neg (by omega)]
  rfl

theorem process_sig (r1 : Reader) (blk : List Byte) :
    r1.process 0xFF blk.length blk =
      if blk = [0x73, 0x4e, 0x61, 0x50, 0x70, 0x59] then .ok r1
      else .error (Err.ErrFramingCorrupt, r1) := by
  have hsw : chunkSwitch 0xFF blk.length blk r1.dec =
      if blk = [0x73, 0x4e, 0x61, 0x50, 0x70, 0x59] then .ok r1.dec
      else .error Err.ErrFramingCorrupt := by
    unfold chunkSwitch chunkTypeCompressed chunkTypeUncompressed chunkTypeSig
    rw [if_neg (by omega), if_neg (by omega), if_pos rfl]
    by_cases h6 : blk.length = 6
    · rw [if_neg (by omega)]
      have hz := zip_any_ne blk (signature.drop 4) (by rw [h6]; rfl)
      by_cases hb : blk = [0x73, 0x4e, 0x61, 0x50, 0x70, 0x59]
      · rw [if_pos hb, if_neg]
        intro h
        exact (hz.mp h) hb
      · rw [if_neg hb, if_pos]
        exact hz.mpr hb
    · rw [if_pos h6, if_neg]
      intro hb
      rw [hb] at h6
      exact h6 rfl
  unfold Reader.process
  rw [hsw]
  unfold chunkTypeCompressed chunkTypeUncompressed
  rw [if_neg (by omega)]
  by_cases hb : blk = [0x73, 0x4e, 0x61, 0x50, 0x70, 0x59]
  · rw [if_pos hb, if_pos hb]
    dsimp only
    rw [if_neg (by omega)]
  · rw [if_neg hb, if_neg hb]
    rfl

/-- C12, the claim as stated fails. A strict `Reader` does not skip a chunk of
the skippable type 0x80 that declares 76499 bytes (more than `strictBlockLimit`),
although the whole payload and a further padding chunk are available: `Read`
returns `ErrStrictMemLimitExceeded` and leaves the source right after the four
header bytes. -/
theorem C12_counterexample :
    (0xd3 + 0x2a * 256 + 0x01 * 65536 : Nat) = (List.replicate 76499 (0 : Byte)).length ∧
      Reader.Read { r := [0x80, 0xd3, 0x2a, 0x01] ++ (List.replicate 76499 0 ++ [0xfe, 0, 0, 0]),
                    blkCap := 0, dec := [], strict := true } 1
        = some ([], some Err.ErrStrictMemLimitExceeded,
            { r := List.replicate 76499 0 ++ [0xfe, 0, 0, 0],
              blkCap := 0, dec := [], strict := true }) := by
  have hlen : (List.replicate 76499 (0 : Byte)).length = 76499 := List.length_replicate _ _
  refine ⟨by rw [hlen], ?_⟩
  rw [Read_pull _ 1 rfl (by decide),
    pull_chunk _ 0x80 0xd3 0x2a 0x01 (List.replicate 76499 0) [0xfe, 0, 0, 0] rfl
      (by rw [hlen]; rfl),
    if_pos ⟨rfl, by rw [hlen]; decide⟩]

/-- C12 as amended (non-data chunk dispatch in `Read`). For a `Reader` with
nothing buffered, a non-empty `p`, and a chunk at the front of the source whose
declared payload is fully available and, if the Reader is strict, whose declared
length is at most `strictBlockLimit`: (a) a chunk of type 0x80..0xFE is skipped
whatever its payload and length: the pull yields no decoded bytes and no error
and `Read` goes on with the source after the chunk; (b) a chunk of type
0x02..0x7F makes `Read` return `ErrUnexpectedChunk`; (c) a chunk of type 0xFF is
skipped in the same way when its payload is the 6 bytes "sNaPpY", and makes
`Read` return `ErrFramingCorrupt` otherwise. -/
theorem C12_non_data_chunks (r : Reader) (plen : Nat) (tag b1 b2 b3 : Byte)
    (blk rest : List Byte) (hd : r.dec = []) (hp : 0 < plen)
    (hr : r.r = tag :: b1 :: b2 :: b3 :: (blk ++ rest))
    (hl : b1.val + b2.val * 256 + b3.val * 65536 = blk.length)
    (hs : r.strict = true → blk.length ≤ strictBlockLimit) :
    ∃ next : Reader, next.r = rest ∧ next.dec = [] ∧ next.strict = r.strict ∧
      (0x80 ≤ tag.val → tag.val ≤ 0xFE →
        r.pull = .ok next ∧ r.Read plen = Reader.readLoop (r.r.length + 1) next plen []) ∧
      (0x02 ≤ tag.val → tag.val ≤ 0x7F →
        r.Read plen = some ([], some Err.ErrUnexpectedChunk, next)) ∧
      (tag.val = 0xFF →
        (blk = [0x73, 0x4e, 0x61, 0x50, 0x70, 0x59] →
          r.pull = .ok next ∧ r.Read plen = Reader.readLoop (r.r.length + 1) next plen []) ∧
        (blk ≠ [0x73, 0x4e, 0x61, 0x50, 0x70, 0x59] →
          r.Read plen = some ([], some Err.ErrFramingCorrupt, next))) := by
  have hpull := pull_chunk r tag b1 b2 b3 blk rest hr hl
  rw [if_neg (by
    intro h
    have := hs h.1
    omega)] at hpull
  have hread := Read_pull r plen hd hp
  rw [hpull] at hread
  refine ⟨{ r with r := rest, blkCap := if r.blkCap < blk.length then blk.length else r.blkCap },
    rfl, hd, rfl, fun h1 h2 => ?_, fun h1 h2 => ?_, fun h => ⟨fun hb => ?_, fun hb => ?_⟩⟩
  · rw [process_skippable _ _ _ _ h1 h2] at hpull hread
    exact ⟨hpull, hread⟩
  · rw [process_reserved _ _ _ _ h1 h2] at hread
    exact hread
  · rw [h, process_sig, if_pos hb] at hpull hread
    exact ⟨hpull, hread⟩
  · rw [h, process_sig, if_neg hb] at hread
    exact hread

theorem C12_non_data_chunks_witness :
    ∃ next : Reader, next.r = [0x02, 0, 0, 0] ∧ next.dec = [] ∧ next.strict = true ∧
      (0x80 ≤ (0xFE : Byte).val → (0xFE : Byte).val ≤ 0xFE →
        Reader.pull { r := [0xFE, 2, 0, 0, 7, 7, 0x02, 0, 0, 0], blkCap := 0, dec := [],
                      strict := true } = .ok next ∧
        Reader.Read { r := [0xFE, 2, 0, 0, 7, 7, 0x02, 0, 0, 0], blkCap := 0, dec := [],
                      strict := true } 1
          = Reader.readLoop (([0xFE, 2, 0, 0, 7, 7, 0x02, 0, 0, 0] : List Byte).length + 1)
              next 1 []) ∧
      (0x02 ≤ (0xFE : Byte).val → (0xFE : Byte).val ≤ 0x7F →
        Reader.Read { r := [0xFE, 2, 0, 0, 7, 7, 0x02, 0, 0, 0], blkCap := 0, dec := [],
                      strict := true } 1
          = some ([], some Err.ErrUnexpectedChunk, next)) ∧
      ((0xFE : Byte).val = 0xFF →
        (([7, 7] : List Byte) = [0x73, 0x4e, 0x61, 0x50, 0x70, 0x59] →
          Reader.pull { r := [0xFE, 2, 0, 0, 7, 7, 0x02, 0, 0, 0], blkCap := 0, dec := [],
                        strict := true } = .ok next ∧
          Reader.Read { r := [0xFE, 2, 0, 0, 7, 7, 0x02, 0, 0, 0], blkCap := 0, dec := [],
                        strict := true } 1
            = Reader.readLoop (([0xFE, 2, 0, 0, 7, 7, 0x02, 0, 0, 0] : List Byte).length + 1)
                next 1 []) ∧
        (([7, 7] : List Byte) ≠ [0x73, 0x4e, 0x61, 0x50, 0x70, 0x59] →
          Reader.Read { r := [0xFE, 2, 0, 0, 7, 7, 0x02, 0, 0, 0], blkCap := 0, dec := [],
                        strict := true } 1
            = some ([], some Err.ErrFramingCorrupt, next))) :=
  C12_non_data_chunks
    { r := [0xFE, 2, 0, 0, 7, 7, 0x02, 0, 0, 0], blkCap := 0, dec := [], strict := true } 1
    0xFE 2 0 0 [7, 7] [0x02, 0, 0, 0] rfl (by decide) rfl (by decide) (fun _ => by decide)

/-! ## `Write` and the way the caller splits the data -/

theorem flatten_length_const (k : Nat) : ∀ (X : List (List Byte)), (∀ B ∈ X, B.length = k) →
    X.flatten.length = k * X.length := by
  intro X
  induction X with
  | nil => intro _; simp
  | cons B X ih =>
    intro h
    have hB := h B (List.mem_cons_self _ _)
    have hX := ih (fun C hC => h C (List.mem_cons_of_mem _ hC))
    rw [List.flatten_cons, List.length_append, hB, hX, List.length_cons, Nat.mul_succ]
    omega

/-- A byte sequence splits in one way only into blocks of `k` bytes and a rest
shorter than `k`. -/
theorem blocks_unique (k : Nat) : ∀ (X Y : List (List Byte)) (r1 r2 : List Byte),
    (∀ B ∈ X, B.length = k) → (∀ B ∈ Y, B.length = k) → r1.length < k → r2.length < k →
    X.flatten ++ r1 = Y.flatten ++ r2 → X = Y ∧ r1 = r2 := by
  intro X
  induction X with
  | nil =>
    intro Y r1 r2 _ hY h1 _ h
    cases Y with
    | nil => exact ⟨rfl, by simpa using h⟩
    | cons B Y =>
      have hB := hY B (List.mem_cons_self _ _)
      have := congrArg List.length h
      simp only [List.flatten_nil, List.nil_append, List.flatten_cons, List.length_append]
        at this
      omega
  | cons A X ih =>
    intro Y r1 r2 hX hY h1 h2 h
    have hA := hX A (List.mem_cons_self _ _)
    cases Y with
    | nil =>
      have := congrArg List.length h
      simp only [List.flatten_nil, List.nil_append, List.flatten_cons, List.length_append]
        at this
      omega
    | cons B Y =>
      have hB := hY B (List.mem_cons_self _ _)
      rw [List.flatten_cons, List.flatten_cons, List.append_assoc, List.append_assoc] at h
      obtain ⟨e1, e2⟩ := List.append_inj h (by rw [hA, hB])
      obtain ⟨e3, e4⟩ := ih Y r1 r2 (fun C hC => hX C (List.mem_cons_of_mem _ hC))
        (fun C hC => hY C (List.mem_cons_of_mem _ hC)) h1 h2 e2
      exact ⟨by rw [e1, e3], e4⟩

/-- C19 (`Write` is independent of how the caller splits its data). For every
Writer state with fewer than 65536 bytes buffered and every `a`, `b`: `Write(a)`
followed by `Write(b)` returns `len(a)` and `len(b)` (the error is nil on a sink
that never fails), `Write(a ++ b)` returns `len(a) + len(b)`, both leave the
same bytes in the sink and the same buffered bytes, the count `n` is
`(n0 + len(a) + len(b)) mod 65536`, and what was appended to the sink is the
chunks of `(n0 + len(a) + len(b)) / 65536` blocks of 65536 bytes each, which
together with the buffered bytes are the bytes buffered before, `a` and `b`. -/
theorem C19_write_split (w : Writer) (a b : List Byte) (hc : 8 ≤ w.c.length)
    (hb : w.n < 65536) :
    ∃ w1 w2 w3 blocks, w.Write a = some (w1, a.length) ∧ w1.Write b = some (w2, b.length) ∧
      w.Write (a ++ b) = some (w3, a.length + b.length) ∧
      w3.w = w2.w ∧ w3.b = w2.b ∧
      w2.n = (w.n + a.length + b.length) % 65536 ∧
      w2.w = w.w ++ frames blocks ∧
      blocks.length = (w.n + a.length + b.length) / 65536 ∧
      (∀ B ∈ blocks, B.length = 65536) ∧
      blocks.flatten ++ w2.b = w.b ++ (a ++ b) := by
  have hbs : blockSize = 65536 := by decide
  have hb' : w.b.length < blockSize := by rw [hbs]; exact hb
  obtain ⟨w1, bl1, g1, g2, g3, g4, g5, g6⟩ :=
    writeLoop_spec (a.length + 2) w a 0 hc hb' (by omega)
  obtain ⟨w2, bl2, k1, k2, k3, k4, k5, k6⟩ :=
    writeLoop_spec (b.length + 2) w1 b 0 g6 g5 (by omega)
  obtain ⟨w3, bl3, m1, m2, m3, m4, m5, m6⟩ :=
    writeLoop_spec ((a ++ b).length + 2) w (a ++ b) 0 hc hb' (by omega)
  have h12 : ∀ B ∈ bl1 ++ bl2, B.length = blockSize := by
    intro B hB
    rcases List.mem_append.mp hB with h | h
    · exact g3 B h
    · exact k3 B h
  have hcat : (bl1 ++ bl2).flatten ++ w2.b = w.b ++ (a ++ b) := by
    rw [List.flatten_append, List.append_assoc, k4, ← List.append_assoc, g4,
      List.append_assoc]
  obtain ⟨e1, e2⟩ := blocks_unique blockSize bl3 (bl1 ++ bl2) w3.b w2.b m3 h12 m5 k5
    (by rw [m4, hcat])
  have hlen := congrArg List.length hcat
  rw [List.length_append, flatten_length_const blockSize _ h12, hbs] at hlen
  simp only [List.length_append] at hlen
  rw [hbs] at k5
  refine ⟨w1, w2, w3, bl1 ++ bl2, ?_, ?_, ?_, ?_, e2, ?_, ?_, ?_, ?_, hcat⟩
  · rw [Writer.Write, g1, Nat.zero_add]
  · rw [Writer.Write, k1, Nat.zero_add]
  · rw [Writer.Write, m1, Nat.zero_add, List.length_append]
  · rw [m2, e1, k2, g2, frames_append, List.append_assoc]
  · show w2.b.length = (w.b.length + a.length + b.length) % 65536
    omega
  · rw [k2, g2, frames_append, List.append_assoc]
  · show (bl1 ++ bl2).length = (w.b.length + a.length + b.length) / 65536
    rw [List.length_append]
    omega
  · intro B hB
    rw [← hbs]
    exact h12 B hB

theorem C19_write_split_witness :
    ∃ w1 w2 w3 blocks, (NewWriter []).Write [1, 2] = some (w1, ([1, 2] : List Byte).length) ∧
      w1.Write [3] = some (w2, ([3] : List Byte).length) ∧
      (NewWriter []).Write ([1, 2] ++ [3])
        = some (w3, ([1, 2] : List Byte).length + ([3] : List Byte).length) ∧
      w3.w = w2.w ∧ w3.b = w2.b ∧
      w2.n = ((NewWriter []).n + ([1, 2] : List Byte).length + ([3] : List Byte).length) % 65536 ∧
      w2.w = (NewWriter []).w ++ frames blocks ∧
      blocks.length
        = ((NewWriter []).n + ([1, 2] : List Byte).length + ([3] : List Byte).length) / 65536 ∧
      (∀ B ∈ blocks, B.length = 65536) ∧
      blocks.flatten ++ w2.b = (NewWriter []).b ++ ([1, 2] ++ [3]) :=
  C19_write_split (NewWriter []) [1, 2] [3] (by
    show 8 ≤ (List.replicate (MaxEncodedLen 65536 + 8) (0 : Byte)).length
    rw [List.length_replicate]; exact Nat.le_add_left 8 _) (by decide)

/-! ## The elements `emitCopy` writes -/

theorem parseTags_copy1 (n : Nat) (b o : Byte) (rest : List Byte) (hb : b.val % 4 = 1) :
    parseTags (n + 1) (b :: o :: rest)
      = (parseTags n rest).map
          (fun els => Element.copy 1 ((b.val / 32) * 256 + o.val) (4 + (b.val / 4) % 8) :: els) := by
  have hb0 : ¬ b.val % 4 = 0 := by omega
  have h3 : ¬ (rest.length + 1 < 1) := by omega
  simp only [parseTags, hb, hb0, if_true, if_false, List.take_succ_cons, List.take_zero,
    leNat_one, List.drop_succ_cons, List.drop_zero, List.length_cons, h3]
  cases parseTags n rest <;> rfl

theorem parseTags_copy2 (n : Nat) (b o0 o1 : Byte) (rest : List Byte) (hb : b.val % 4 = 2) :
    parseTags (n + 1) (b :: o0 :: o1 :: rest)
      = (parseTags n rest).map
          (fun els => Element.copy 2 (o0.val + 256 * o1.val) (1 + b.val / 4) :: els) := by
  have hb0 : ¬ b.val % 4 = 0 := by omega
  have h3 : ¬ (rest.length + 1 + 1 < 2) := by omega
  have e : leNat [o0, o1] = o0.val + 256 * o1.val := leNat_two o0 o1
  simp only [parseTags, hb, show ¬ (2 : Nat) = 0 by decide, show ¬ (2 : Nat) = 1 by decide,
    if_false, if_true, List.take_succ_cons, List.take_zero, List.drop_succ_cons, List.drop_zero,
    List.length_cons, e, h3]
  cases parseTags n rest <;> rfl

theorem emitCopyLoop_zero (dEnd offset fuel : Nat) (d : List Byte) :
    emitCopyLoop dEnd offset fuel d 0 = some d := by
  cases fuel <;> simp [emitCopyLoop]

/-- What `emitCopy` writes for a copy of `len ≥ 1` bytes, as elements: 3-byte
copies of 64 bytes while more than 64 bytes remain, then one last copy of the
`1..64` bytes that remain, in 2 bytes when `4..11` bytes remain and the offset
is below `2^11`, in 3 bytes otherwise. -/
theorem emitCopyLoop_elements (offset : Nat) (ho0 : 0 < offset) (ho1 : offset ≤ 32768) :
    ∀ (fuel : Nat) (d : List Byte) (len : Nat), 0 < len → len ≤ fuel →
      ∃ bs, (∀ dEnd, d.length + 3 * ((len - 1) / 64 + 1) ≤ dEnd →
          emitCopyLoop dEnd offset fuel d len = some (d ++ bs)) ∧
        (len - 1) / 64 + 1 ≤ bs.length ∧
        ∀ (rest : List Byte) (n : Nat),
          parseTags (n + ((len - 1) / 64 + 1)) (bs ++ rest)
            = (parseTags n rest).map (fun els =>
                List.replicate ((len - 1) / 64) (Element.copy 2 offset 64)
                  ++ Element.copy
                      (if 4 ≤ len - 64 * ((len - 1) / 64) ∧ len - 64 * ((len - 1) / 64) < 12
                          ∧ offset < 2048 then 1 else 2)
                      offset (len - 64 * ((len - 1) / 64)) :: els) := by
  intro fuel
  induction fuel with
  | zero => intro d len h0 hf; omega
  | succ fuel ih =>
    intro d len hpos hf
    have h8 : ((1 <<< 3 : Nat) : Int) = 8 := by decide
    have h2048 : (1 : Nat) <<< 11 = 2048 := by decide
    by_cases hc : (0 : Int) ≤ (len : Int) - 4 ∧ (len : Int) - (4 : Int) < ((1 <<< 3 : Nat) : Int)
        ∧ offset < 1 <<< 11
    · have hc1 := hc
      rw [h8, h2048] at hc1
      obtain ⟨c1, c2, c3⟩ := hc1
      have hk : (len - 1) / 64 = 0 := by omega
      refine ⟨[byte ((((offset >>> 8) &&& 0x07) <<< 5) ||| (((len : Int) - 4).toNat <<< 2)
          ||| TAG_COPY1), byte offset], ?_, by simp [hk], ?_⟩
      · intro dEnd hsp
        have hsp1 : ¬ (d.length + 3 > dEnd) := by omega
        unfold emitCopyLoop
        rw [if_pos hpos, if_neg hsp1]
        dsimp only
        rw [if_pos hc]
      · intro rest n
        have hb := copy1_byte offset len (by omega) (by omega) c3
        have hov : (byte offset).val = offset % 256 := byte_val offset
        have := parseTags_copy1 n _ (byte offset) rest (by rw [hb]; omega)
        rw [hb, hov, show (offset / 256 * 32 + (len - 4) * 4 + 1) / 32 * 256 + offset % 256
              = offset by omega,
          show 4 + (offset / 256 * 32 + (len - 4) * 4 + 1) / 4 % 8 = len by omega] at this
        rw [hk, Nat.mul_zero, Nat.sub_zero, if_pos ⟨by omega, by omega, c3⟩]
        simpa using this
    · obtain ⟨l, hle⟩ : ∃ l, l = (if len > 64 then 64 else len) := ⟨_, rfl⟩
      have hl1 : 1 ≤ l ∧ l ≤ 64 ∧ l ≤ len ∧ (len ≤ 64 → l = len) ∧ (len > 64 → l = 64) := by
        rw [hle]; split_ifs <;> omega
      obtain ⟨l1, l2, l3, l4, l5⟩ := hl1
      have hb := copy2_byte l l1 l2
      have h0 : (byte offset).val = offset % 256 := byte_val offset
      have h1 : (byte (offset >>> 8)).val = offset / 256 := by
        rw [byte_val, Nat.shiftRight_eq_div_pow]; omega
      have hstep : ∀ (rest : List Byte) (n : Nat),
          parseTags (n + 1)
            (byte (((l - 1) <<< 2) ||| TAG_COPY2) :: byte offset :: byte (offset >>> 8) :: rest)
            = (parseTags n rest).map (fun els => Element.copy 2 offset l :: els) := by
        intro rest n
        have := parseTags_copy2 n _ (byte offset) (byte (offset >>> 8)) rest
          (by rw [hb]; omega)
        rw [hb, h0, h1, show offset % 256 + 256 * (offset / 256) = offset by omega,
          show 1 + ((l - 1) * 4 + 2) / 4 = l by omega] at this
        exact this
      by_cases hlast : len ≤ 64
      · have hll : l = len := l4 hlast
        have hk : (len - 1) / 64 = 0 := by omega
        refine ⟨[byte (((l - 1) <<< 2) ||| TAG_COPY2), byte offset, byte (offset >>> 8)],
          ?_, by simp [hk], ?_⟩
        · intro dEnd hsp
          have hsp1 : ¬ (d.length + 3 > dEnd) := by omega
          unfold emitCopyLoop
          rw [if_pos hpos, if_neg hsp1]
          dsimp only
          rw [if_neg hc, ← hle, hll, Nat.sub_self, emitCopyLoop_zero]
        · intro rest n
          have hcn : ¬ (4 ≤ len ∧ len < 12 ∧ offset < 2048) := by
            intro h
            apply hc
            rw [h8, h2048]
            exact ⟨by omega, by omega, h.2.2⟩
          rw [hk, Nat.mul_zero, Nat.sub_zero, if_neg hcn]
          have := hstep rest n
          rw [hll] at this ⊢
          simpa using this
      · have hl64 : l = 64 := l5 (by omega)
        obtain ⟨bs1, e1, z1, p1⟩ := ih
          (d ++ [byte (((l - 1) <<< 2) ||| TAG_COPY2), byte offset, byte (offset >>> 8)])
          (len - l) (by omega) (by omega)
        have hk : (len - 1) / 64 = (len - l - 1) / 64 + 1 := by omega
        have hrem : len - 64 * ((len - 1) / 64) = len - l - 64 * ((len - l - 1) / 64) := by
          omega
        refine ⟨[byte (((l - 1) <<< 2) ||| TAG_COPY2), byte offset, byte (offset >>> 8)] ++ bs1,
          ?_, ?_, ?_⟩
        · intro dEnd hsp
          have hsp1 : ¬ (d.length + 3 > dEnd) := by omega
          unfold emitCopyLoop
          rw [if_pos hpos, if_neg hsp1]
          dsimp only
          rw [if_neg hc, ← hle, e1 dEnd
            (by simp only [List.length_append, List.length_cons, List.length_nil]; omega),
            List.append_assoc]
        · simp only [List.length_append, List.length_cons, List.length_nil]
          omega
        · intro rest n
          have e : n + ((len - l - 1) / 64 + 1 + 1) = (n + ((len - l - 1) / 64 + 1)) + 1 := by
            omega
          have := hstep (bs1 ++ rest) (n + ((len - l - 1) / 64 + 1))
          rw [p1 rest n] at this
          rw [hrem, hk, e]
          simp only [List.cons_append, List.nil_append, List.append_assoc]
          rw [this]
          cases parseTags n rest with
          | none => rfl
          | some els => simp [List.replicate_succ, hl64]

/-- C16, the claim as stated fails. For offset 1 and length 68 (more than 64)
`emitCopy`, with room for 100 bytes, writes `fe 01 00 01 01`: a 3-byte Copy
element (tag type 2) of length 64 and then a 2-byte Copy element (tag type 1,
one offset byte) of length 4, so not only 3-byte elements. -/
theorem C16_counterexample :
    emitCopy [] 100 1 68 = some [0xfe, 0x01, 0x00, 0x01, 0x01] ∧
      parseTags 5 [0xfe, 0x01, 0x00, 0x01, 0x01]
        = some [Element.copy TAG_COPY2 1 64, Element.copy TAG_COPY1 1 4] ∧
      TAG_COPY1 ≠ TAG_COPY2 := by
  decide

/-- C16 as amended (splitting of long copies). For every offset in `[1, 2^15]`,
every copy length `len > 64` and a destination with room for 3 bytes per
element, `emitCopy` returns, and what it appends is, back-to-back: `(len-1)/64`
(at least one) 3-byte Copy elements (tag type 2) of length 64, followed by one
last Copy element for the `1..64` bytes that remain, which is a 2-byte element
(tag type 1) when 4..11 bytes remain and the offset is below `2^11`, and a
3-byte element (tag type 2) otherwise; all elements carry the same offset, none
is longer than 64, and the lengths sum to exactly `len`. -/
theorem C16_copy_splitting (d : List Byte) (dEnd offset len : Nat) (ho0 : 1 ≤ offset)
    (ho1 : offset ≤ 2 ^ 15) (hl : 64 < len)
    (hroom : d.length + 3 * ((len - 1) / 64 + 1) ≤ dEnd) :
    ∃ bs, emitCopy d dEnd offset len = some (d ++ bs) ∧
      parseTags bs.length bs
        = some (List.replicate ((len - 1) / 64) (Element.copy TAG_COPY2 offset 64)
            ++ [Element.copy
                  (if 4 ≤ len - 64 * ((len - 1) / 64) ∧ len - 64 * ((len - 1) / 64) < 12
                      ∧ offset < 2 ^ 11 then TAG_COPY1 else TAG_COPY2)
                  offset (len - 64 * ((len - 1) / 64))]) ∧
      1 ≤ (len - 1) / 64 ∧ 1 ≤ len - 64 * ((len - 1) / 64) ∧
      len - 64 * ((len - 1) / 64) ≤ 64 ∧
      64 * ((len - 1) / 64) + (len - 64 * ((len - 1) / 64)) = len := by
  obtain ⟨bs, e1, z1, p1⟩ := emitCopyLoop_elements offset ho0 ho1 len d len (by omega)
    (Nat.le_refl _)
  refine ⟨bs, e1 dEnd hroom, ?_, by omega, by omega, by omega, by omega⟩
  have := p1 [] (bs.length - ((len - 1) / 64 + 1))
  rw [List.append_nil, Nat.sub_add_cancel z1] at this
  rw [this]
  cases bs.length - ((len - 1) / 64 + 1) <;> rfl

theorem C16_copy_splitting_witness :
    ∃ bs, emitCopy [] 100 1 68 = some ([] ++ bs) ∧
      parseTags bs.length bs
        = some (List.replicate ((68 - 1) / 64) (Element.copy TAG_COPY2 1 64)
            ++ [Element.copy
                  (if 4 ≤ 68 - 64 * ((68 - 1) / 64) ∧ 68 - 64 * ((68 - 1) / 64) < 12
                      ∧ 1 < 2 ^ 11 then TAG_COPY1 else TAG_COPY2)
                  1 (68 - 64 * ((68 - 1) / 64))]) ∧
      1 ≤ (68 - 1) / 64 ∧ 1 ≤ 68 - 64 * ((68 - 1) / 64) ∧
      68 - 64 * ((68 - 1) / 64) ≤ 64 ∧
      64 * ((68 - 1) / 64) + (68 - 64 * ((68 - 1) / 64)) = 68 :=
  C16_copy_splitting [] 100 1 68 (by decide) (by decide) (by decide) (by decide)

/-! ## The matches of `encode` -/

/-- The first component of `encodeLoopT` is `encodeLoop`. -/
theorem encodeLoopT_fst (S : List Byte) (dEnd : Nat) :
    ∀ (fuel : Nat) (tbl : Nat → Int) (s lit : Nat) (d : List Byte),
      (encodeLoopT S dEnd fuel tbl s lit d).1 = encodeLoop S dEnd fuel tbl s lit d := by
  intro fuel
  induction fuel with
  | zero => intro tbl s lit d; rfl
  | succ fuel ih =>
    intro tbl s lit d
    rw [encodeLoopT, encodeLoop]
    by_cases hloop : s + 3 < S.length
    · rw [if_pos hloop, if_pos hloop]
      dsimp only
      by_cases hmiss : tbl (hashSlot (L32 S s)) < 0
          ∨ (s : Int) - tbl (hashSlot (L32 S s)) > (MAXOFFSET : Int)
          ∨ L32 S s ≠ L32 S (tbl (hashSlot (L32 S s))).toNat
      · rw [if_pos hmiss, if_pos hmiss]
        exact ih _ _ _ _
      · rw [if_neg hmiss, if_neg hmiss]
        generalize (if lit ≠ s then emitLiteral d dEnd (slice S lit s) else some d) = o
        cases o with
        | none => rfl
        | some d1 =>
          dsimp only
          generalize emitCopy d1 dEnd _ _ = o2
          cases o2 with
          | none => rfl
          | some d2 =>
            dsimp only
            exact ih _ _ _ _
    · rw [if_neg hloop, if_neg hloop]

theorem emitCopyLoop_mono (offset : Nat) : ∀ (fuel dEnd dEnd1 : Nat) (d : List Byte) (len : Nat)
    (x : List Byte), dEnd ≤ dEnd1 → emitCopyLoop dEnd offset fuel d len = some x →
    emitCopyLoop dEnd1 offset fuel d len = some x := by
  intro fuel
  induction fuel with
  | zero =>
    intro dEnd dEnd1 d len x _ h
    exact h
  | succ fuel ih =>
    intro dEnd dEnd1 d len x hle h
    rw [emitCopyLoop] at h ⊢
    by_cases hpos : len > 0
    · rw [if_pos hpos] at h ⊢
      by_cases hsp : d.length + 3 > dEnd
      · rw [if_pos hsp] at h
        simp at h
      · rw [if_neg hsp] at h
        rw [if_neg (by omega)]
        dsimp only at h ⊢
        by_cases hc : (0 : Int) ≤ (len : Int) - 4 ∧ (len : Int) - (4 : Int) < ((1 <<< 3 : Nat) : Int)
            ∧ offset < 1 <<< 11
        · rw [if_pos hc] at h ⊢
          exact h
        · rw [if_neg hc] at h ⊢
          exact ih _ _ _ _ _ hle h
    · rw [if_neg hpos] at h ⊢
      exact h

/-- Whatever the room, a call of `emitCopy` that returns has appended a copy of
`len` bytes from `offset` back. -/
theorem emitCopy_some (d : List Byte) (dEnd offset len : Nat) (x : List Byte)
    (ho0 : 0 < offset) (ho1 : offset ≤ 32768) (h : emitCopy d dEnd offset len = some x) :
    ∃ bs, x = d ++ bs ∧
      ∀ out : List Byte, offset ≤ out.length → Dec bs out (copyBack offset len out) := by
  obtain ⟨bs, e1, _, _, e4⟩ := emitCopyLoop_spec offset ho0 ho1 len d len (Nat.le_refl _)
  refine ⟨bs, ?_, e4⟩
  have h1 := emitCopyLoop_mono offset len dEnd (dEnd + (d.length + max len 3)) d len x
    (by omega) h
  rw [e1 _ (Or.inr (by omega))] at h1
  exact (Option.some.inj h1).symm

/-- Whatever the room, a call of `emitLiteral` that returns has appended the
literal. -/
theorem emitLiteral_some (d : List Byte) (dEnd : Nat) (L x : List Byte) (h0 : 0 < L.length)
    (h1 : L.length < 2 ^ 31) (h : emitLiteral d dEnd L = some x) :
    ∀ pre out : List Byte, Dec d pre out → Dec x pre (out ++ L) := by
  intro pre out hd
  have e := emitLiteral_spec d (d.length + 6 + L.length) L h0 h1 (Nat.le_refl _)
  rw [emitLiteral_eq d dEnd L h1] at h
  split_ifs at h
  rw [← Option.some.inj h, List.append_assoc]
  exact Dec_append hd (e.2 out)

/-- Every match of the main loop of `encode`, started in a state where the
output so far decodes to the source up to `lit`: the candidate is an earlier
position of the source at most `2^15` back, its four bytes are those at the
scan position, the extension stays inside the source and keeps the distance,
all the bytes of the match agree, and the output at the call of `emitCopy`
decodes to the source up to the scan position. -/
theorem encodeLoopT_matches (S : List Byte) (hn : S.length < 2 ^ 31) (dEnd : Nat) :
    ∀ (fuel : Nat) (tbl : Nat → Int) (s lit : Nat) (d : List Byte),
      lit ≤ s → s ≤ S.length → (∀ i, tbl i < (s : Int)) → Dec d [] (S.take lit) →
      ∀ m ∈ (encodeLoopT S dEnd fuel tbl s lit d).2,
        0 ≤ m.t ∧ m.t < (m.s0 : Int) ∧ m.s0 + 3 < S.length ∧ (m.s0 : Int) - m.t ≤ 32768 ∧
          L32 S m.s0 = L32 S m.t.toNat ∧ m.s0 + 4 ≤ m.s1 ∧ m.s1 ≤ S.length ∧
          m.t1 + m.s0 = m.s1 + m.t.toNat ∧
          (∀ i, i < m.s1 - m.s0 → srcAt S (m.s0 + i) = srcAt S (m.t.toNat + i)) ∧
          Dec m.d [] (S.take m.s0) := by
  intro fuel
  induction fuel with
  | zero =>
    intro tbl s lit d _ _ _ _ m hm
    simp [encodeLoopT] at hm
  | succ fuel ih =>
    intro tbl s lit d hlit hs htbl hdec m hm
    rw [encodeLoopT] at hm
    by_cases hloop : s + 3 < S.length
    · rw [if_pos hloop] at hm
      dsimp only at hm
      obtain ⟨t, ht⟩ : ∃ t, t = tbl (hashSlot (L32 S s)) := ⟨_, rfl⟩
      rw [← ht] at hm
      have htl : t < (s : Int) := by rw [ht]; exact htbl _
      have htbl1 : ∀ s1 : Nat, s < s1 → ∀ i,
          (fun i => if i = hashSlot (L32 S s) then (s : Int) else tbl i) i < (s1 : Int) := by
        intro s1 hs1 i
        dsimp only
        split_ifs
        · omega
        · have := htbl i; omega
      by_cases hmiss : t < 0 ∨ (s : Int) - t > (MAXOFFSET : Int) ∨ L32 S s ≠ L32 S t.toNat
      · rw [if_pos hmiss] at hm
        exact ih _ (s + 1) lit d (by omega) (by omega) (htbl1 (s + 1) (by omega)) hdec m hm
      · rw [if_neg hmiss] at hm
        have hm3 : 0 ≤ t ∧ (s : Int) - t ≤ 32768 ∧ L32 S s = L32 S t.toNat := by
          rw [MAXOFFSET_eq] at hmiss
          push_neg at hmiss
          exact ⟨hmiss.1, by have := hmiss.2.1; push_cast at this; omega, hmiss.2.2⟩
        obtain ⟨m0, m1, m2⟩ := hm3
        obtain ⟨t1, ht1⟩ : ∃ t1 : Nat, t1 = t.toNat := ⟨_, rfl⟩
        have htt : (t1 : Int) = t := by rw [ht1]; exact Int.toNat_of_nonneg m0
        have ht1s : t1 < s := by omega
        obtain ⟨st, hst⟩ :
            ∃ st, st = extendMatch S (S.length - (s + 4)) (s + 4) (t.toNat + 4) := ⟨_, rfl⟩
        obtain ⟨x1, x2, x3, x4⟩ := extendMatch_spec S (S.length - (s + 4)) (s + 4) (t.toNat + 4)
          (by omega)
        rw [← hst] at x1 x2 x3 x4 hm
        rw [← ht1] at x3 x4 m2
        have hsrc : ∀ i, i < st.1 - s → srcAt S (s + i) = srcAt S (t1 + i) := by
          intro i hi
          by_cases h4 : i < 4
          · exact L32_inj S s t1 m2 i h4
          · have := x4 (i - 4) (by omega)
            rw [show s + 4 + (i - 4) = s + i by omega,
              show t1 + 4 + (i - 4) = t1 + i by omega] at this
            exact this
        have hmatch : ∀ i, i < st.1 - s → S.getD (s + i) 0 = S.getD (s + i - (s - t1)) 0 := by
          intro i hi
          rw [show s + i - (s - t1) = t1 + i by omega]
          exact srcAt_eq S _ _ (hsrc i hi)
        generalize hlv : (if lit ≠ s then emitLiteral d dEnd (slice S lit s) else some d) = o
          at hm
        cases o with
        | none => simp at hm
        | some d1 =>
          dsimp only at hm
          have hD1 : Dec d1 [] (S.take s) := by
            by_cases hl : lit = s
            · rw [if_neg (by simpa using hl)] at hlv
              rw [← Option.some.inj hlv, ← hl]
              exact hdec
            · rw [if_pos hl] at hlv
              have hlen := slice_length S lit s (by omega) (by omega)
              have := emitLiteral_some d dEnd (slice S lit s) d1 (by omega) (by omega) hlv
                [] (S.take lit) hdec
              rw [take_append_slice S lit s (by omega)] at this
              exact this
          have hmem : m = { s0 := s, t := t, s1 := st.1, t1 := st.2, d := d1 } ∨
              ∃ d2, emitCopy d1 dEnd (st.1 - st.2) (st.1 - s) = some d2 ∧
                m ∈ (encodeLoopT S dEnd fuel
                  (fun i => if i = hashSlot (L32 S s) then (s : Int) else tbl i)
                  st.1 st.1 d2).2 := by
            rw [toInt32_sub st.1 st.2 (by omega) (by omega),
              toInt32_sub st.1 s (by omega) (by omega)] at hm
            generalize hcv : emitCopy d1 dEnd (st.1 - st.2) (st.1 - s) = o2 at hm
            cases o2 with
            | none => exact Or.inl (List.mem_singleton.mp hm)
            | some d2 =>
              dsimp only at hm
              rcases List.mem_cons.mp hm with h | h
              · exact Or.inl h
              · exact Or.inr ⟨d2, rfl, h⟩
          rcases hmem with h | ⟨d2, hcv, h⟩
          · subst h
            dsimp only
            rw [← ht1]
            exact ⟨m0, htl, hloop, m1, m2, by omega, x2, by omega, hsrc, hD1⟩
          · obtain ⟨bs, hx, hdec2⟩ := emitCopy_some d1 dEnd _ _ d2 (by omega) (by omega) hcv
            have hcopy : Dec bs (S.take s) (S.take st.1) := by
              have := hdec2 (S.take s) (by rw [List.length_take]; omega)
              rw [show st.1 - st.2 = s - t1 by omega,
                copyBack_take S (s - t1) (by omega) (st.1 - s) s (by omega) (by omega) hmatch,
                show s + (st.1 - s) = st.1 by omega] at this
              exact this
            refine ih _ st.1 st.1 d2 (Nat.le_refl _) x2 (htbl1 st.1 (by omega)) ?_ m h
            rw [hx]
            exact Dec_append hD1 hcopy
    · rw [if_neg hloop] at hm
      simp at hm

/-- C18 (back-references are valid and windowed). The matches recorded by
`encodeLoopT` are those of `encode` (its first component is `encode`). For every
source shorter than `2^31` bytes, whatever the room, every candidate `t` that
passes the match test at scan position `s0` is an earlier position of the
source (`0 ≤ t < s0`), the 4-byte loads at `s0` and `t` lie inside the source
and are equal, `s0 - t ≤ 2^15`, the extension ends at `s1 ≤ len(S)` with a match
of at least 4 bytes, every byte of the match is read inside the source and
equals the byte it is matched with; and the copy passed to `emitCopy` has
`offset = s1 - t1 = s0 - t` with `1 ≤ offset ≤ 2^15` and `offset ≤ s0`, where
`s0` is the number of source bytes the tags written before that copy decode
to. -/
theorem C18_back_references (S : List Byte) (dEnd : Nat) (m : Match) (hS : S.length < 2 ^ 31)
    (hm : m ∈ encodeMatches dEnd S) :
    (encodeLoopT S dEnd (S.length + 1) (fun _ => -1) 0 0 []).1 = encode dEnd S ∧
      0 ≤ m.t ∧ m.t < (m.s0 : Int) ∧ m.s0 + 3 < S.length ∧ m.t.toNat + 3 < S.length ∧
      (m.s0 : Int) - m.t ≤ 2 ^ 15 ∧ L32 S m.s0 = L32 S m.t.toNat ∧
      4 ≤ m.s1 - m.s0 ∧ m.s1 ≤ S.length ∧ m.t1 < m.s1 ∧
      (∀ i, i < m.s1 - m.s0 → m.s0 + i < S.length ∧ m.t.toNat + i < m.s0 + i ∧
        srcAt S (m.s0 + i) = srcAt S (m.t.toNat + i)) ∧
      m.s1 - m.t1 = m.s0 - m.t.toNat ∧ 1 ≤ m.s1 - m.t1 ∧ m.s1 - m.t1 ≤ 2 ^ 15 ∧
      m.s1 - m.t1 ≤ m.s0 ∧
      Dec m.d [] (S.take m.s0) ∧ (S.take m.s0).length = m.s0 := by
  obtain ⟨a1, a2, a3, a4, a5, a6, a7, a8, a9, a10⟩ :=
    encodeLoopT_matches S hS dEnd (S.length + 1) (fun _ => -1) 0 0 []
      (Nat.le_refl _) (Nat.zero_le _) (fun _ => by simp)
      (by rw [List.take_zero]; exact Dec_nil []) m hm
  have ht : (m.t.toNat : Int) = m.t := Int.toNat_of_nonneg a1
  refine ⟨encodeLoopT_fst S dEnd _ _ _ _ _, a1, a2, a3, by omega, by norm_num; omega, a5,
    by omega, a7, by omega, fun i hi => ⟨by omega, by omega, a9 i hi⟩, by omega, by omega,
    by norm_num; omega, by omega, a10, ?_⟩
  rw [List.length_take]
  omega

theorem C18_back_references_witness :
    (encodeLoopT ([97, 97, 97, 97, 97, 97, 97, 97] : List Byte) 100
        (([97, 97, 97, 97, 97, 97, 97, 97] : List Byte).length + 1) (fun _ => -1) 0 0 []).1
        = encode 100 [97, 97, 97, 97, 97, 97, 97, 97] ∧
      0 ≤ (0 : Int) ∧ (0 : Int) < ((1 : Nat) : Int) ∧
      1 + 3 < ([97, 97, 97, 97, 97, 97, 97, 97] : List Byte).length ∧
      (0 : Int).toNat + 3 < ([97, 97, 97, 97, 97, 97, 97, 97] : List Byte).length ∧
      ((1 : Nat) : Int) - 0 ≤ 2 ^ 15 ∧
      L32 [97, 97, 97, 97, 97, 97, 97, 97] 1 = L32 [97, 97, 97, 97, 97, 97, 97, 97] (0 : Int).toNat ∧
      4 ≤ 8 - 1 ∧ 8 ≤ ([97, 97, 97, 97, 97, 97, 97, 97] : List Byte).length ∧ 7 < 8 ∧
      (∀ i, i < 8 - 1 → 1 + i < ([97, 97, 97, 97, 97, 97, 97, 97] : List Byte).length ∧
        (0 : Int).toNat + i < 1 + i ∧
        srcAt [97, 97, 97, 97, 97, 97, 97, 97] (1 + i)
          = srcAt [97, 97, 97, 97, 97, 97, 97, 97] ((0 : Int).toNat + i)) ∧
      8 - 7 = 1 - (0 : Int).toNat ∧ 1 ≤ 8 - 7 ∧ 8 - 7 ≤ 2 ^ 15 ∧ 8 - 7 ≤ 1 ∧
      Dec [0, 97] [] (([97, 97, 97, 97, 97, 97, 97, 97] : List Byte).take 1) ∧
      (([97, 97, 97, 97, 97, 97, 97, 97] : List Byte).take 1).length = 1 :=
  C18_back_references [97, 97, 97, 97, 97, 97, 97, 97] 100
    { s0 := 1, t := 0, s1 := 8, t1 := 7, d := [0, 97] } (by decide) (by decide)

/-! ## The loop of `encode`, step by step -/

theorem encodeLoop_hit (S : List Byte) (dEnd fuel : Nat) (tbl : Nat → Int) (s lit : Nat)
    (d : List Byte) (h : s + 3 < S.length)
    (hm : ¬ (tbl (hashSlot (L32 S s)) < 0
      ∨ (s : Int) - tbl (hashSlot (L32 S s)) > (MAXOFFSET : Int)
      ∨ L32 S s ≠ L32 S (tbl (hashSlot (L32 S s))).toNat)) :
    encodeLoop S dEnd (fuel + 1) tbl s lit d
      = match (if lit ≠ s then emitLiteral d dEnd (slice S lit s) else some d) with
        | none => none
        | some d1 =>
          match emitCopy d1 dEnd
              (toInt32 (((extendMatch S (S.length - (s + 4)) (s + 4)
                ((tbl (hashSlot (L32 S s))).toNat + 4)).1 : Int)
                - ((extendMatch S (S.length - (s + 4)) (s + 4)
                  ((tbl (hashSlot (L32 S s))).toNat + 4)).2 : Int))).toNat
              (toInt32 (((extendMatch S (S.length - (s + 4)) (s + 4)
                ((tbl (hashSlot (L32 S s))).toNat + 4)).1 : Int) - (s : Int))).toNat with
          | none => none
          | some d2 =>
            encodeLoop S dEnd fuel (fun i => if i = hashSlot (L32 S s) then (s : Int) else tbl i)
              (extendMatch S (S.length - (s + 4)) (s + 4)
                ((tbl (hashSlot (L32 S s))).toNat + 4)).1
              (extendMatch S (S.length - (s + 4)) (s + 4)
                ((tbl (hashSlot (L32 S s))).toNat + 4)).1 d2 := by
  rw [encodeLoop, if_pos h]
  dsimp only
  rw [if_neg hm]

/-- The fuel `encode` passes is enough: with `len(S) + 1 - s` units the loop
never stops for lack of fuel, so more fuel gives the same result, for every
source, table and destination. -/
theorem encodeLoop_fuel (S : List Byte) (dEnd : Nat) :
    ∀ (fuel : Nat) (tbl : Nat → Int) (s lit : Nat) (d : List Byte) (extra : Nat),
      s ≤ S.length → S.length + 1 ≤ fuel + s →
      encodeLoop S dEnd (fuel + extra) tbl s lit d = encodeLoop S dEnd fuel tbl s lit d := by
  intro fuel
  induction fuel with
  | zero => intro tbl s lit d extra hs hf; omega
  | succ fuel ih =>
    intro tbl s lit d extra hs hf
    rw [show fuel + 1 + extra = (fuel + extra) + 1 by omega]
    by_cases h : s + 3 < S.length
    · by_cases hm : tbl (hashSlot (L32 S s)) < 0
          ∨ (s : Int) - tbl (hashSlot (L32 S s)) > (MAXOFFSET : Int)
          ∨ L32 S s ≠ L32 S (tbl (hashSlot (L32 S s))).toNat
      · rw [encodeLoop_miss S dEnd _ tbl s lit d h hm, encodeLoop_miss S dEnd _ tbl s lit d h hm]
        exact ih _ _ _ _ _ (by omega) (by omega)
      · rw [encodeLoop_hit S dEnd _ tbl s lit d h hm, encodeLoop_hit S dEnd _ tbl s lit d h hm]
        obtain ⟨x1, x2, _, _⟩ := extendMatch_spec S (S.length - (s + 4)) (s + 4)
          ((tbl (hashSlot (L32 S s))).toNat + 4) (by omega)
        generalize (if lit ≠ s then emitLiteral d dEnd (slice S lit s) else some d) = o
        cases o with
        | none => rfl
        | some d1 =>
          dsimp only
          generalize emitCopy d1 dEnd _ _ = o2
          cases o2 with
          | none => rfl
          | some d2 =>
            dsimp only
            exact ih _ _ _ _ _ x2 (by omega)
    · rw [encodeLoop_tail S dEnd _ tbl s lit d h, encodeLoop_tail S dEnd _ tbl s lit d h]

/-! ## The size of the output, for every source -/

theorem toInt32_toNat_le (x : Nat) : (toInt32 (x : Int)).toNat ≤ x := by
  unfold toInt32
  omega

theorem toInt32_sub_le (a b : Nat) (hb : b ≤ a) :
    (toInt32 ((a : Int) - (b : Int))).toNat ≤ a - b := by
  rw [← Int.ofNat_sub hb]
  exact toInt32_toNat_le _

/-- Whatever the length of the literal and the room, a call of `emitLiteral`
that returns has written at most the header and the literal. -/
theorem emitLiteral_length (d : List Byte) (dEnd : Nat) (L x : List Byte)
    (h : emitLiteral d dEnd L = some x) : 6 * x.length ≤ 6 * d.length + 7 * L.length + 6 := by
  unfold emitLiteral at h
  dsimp only at h
  split_ifs at h
  have h1 := (literalHeader_length (toInt32 (L.length : Int)).toNat).1
  have h2 := toInt32_toNat_le L.length
  rw [← Option.some.inj h]
  simp only [List.length_append, List.length_take]
  omega

theorem emitCopy_length (d : List Byte) (dEnd offset len : Nat) (x : List Byte)
    (ho0 : 0 < offset) (ho1 : offset ≤ 32768) (h : emitCopy d dEnd offset len = some x) :
    x.length + 1 ≤ d.length + max len 4 := by
  obtain ⟨bs, e1, _, e3, _⟩ := emitCopyLoop_spec offset ho0 ho1 len d len (Nat.le_refl _)
  have h1 := emitCopyLoop_mono offset len dEnd (dEnd + (d.length + max len 3)) d len x
    (by omega) h
  rw [e1 _ (Or.inr (by omega))] at h1
  rw [← Option.some.inj h1, List.length_append]
  omega

/-- The output of the loop of `encode` is at most 7/6 of the source plus one
byte, for every source, whatever the conversions to `int` do to the lengths. -/
theorem encodeLoop_size (S : List Byte) (dEnd : Nat) :
    ∀ (fuel : Nat) (tbl : Nat → Int) (s lit : Nat) (d out : List Byte),
      lit ≤ s → s ≤ S.length → (∀ i, tbl i < (s : Int)) → 6 * d.length ≤ 7 * lit →
      encodeLoop S dEnd fuel tbl s lit d = some out → 6 * out.length ≤ 7 * S.length + 6 := by
  intro fuel
  induction fuel with
  | zero =>
    intro tbl s lit d out _ _ _ _ h
    rw [encodeLoop] at h
    cases h
  | succ fuel ih =>
    intro tbl s lit d out hlit hs htbl hsz h
    by_cases hloop : s + 3 < S.length
    · have htbl1 : ∀ s1 : Nat, s < s1 → ∀ i,
          (fun i => if i = hashSlot (L32 S s) then (s : Int) else tbl i) i < (s1 : Int) := by
        intro s1 hs1 i
        dsimp only
        split_ifs
        · omega
        · have := htbl i; omega
      by_cases hm : tbl (hashSlot (L32 S s)) < 0
          ∨ (s : Int) - tbl (hashSlot (L32 S s)) > (MAXOFFSET : Int)
          ∨ L32 S s ≠ L32 S (tbl (hashSlot (L32 S s))).toNat
      · rw [encodeLoop_miss S dEnd _ tbl s lit d hloop hm] at h
        exact ih _ (s + 1) lit d out (by omega) (by omega) (htbl1 (s + 1) (by omega)) hsz h
      · rw [encodeLoop_hit S dEnd _ tbl s lit d hloop hm] at h
        obtain ⟨t, ht⟩ : ∃ t, t = tbl (hashSlot (L32 S s)) := ⟨_, rfl⟩
        have htl : t < (s : Int) := by rw [ht]; exact htbl _
        rw [← ht] at hm h
        have hm3 : 0 ≤ t ∧ (s : Int) - t ≤ 32768 := by
          rw [MAXOFFSET_eq] at hm
          push_neg at hm
          exact ⟨hm.1, by have := hm.2.1; push_cast at this; omega⟩
        obtain ⟨m0, m1⟩ := hm3
        obtain ⟨st, hst⟩ :
            ∃ st, st = extendMatch S (S.length - (s + 4)) (s + 4) (t.toNat + 4) := ⟨_, rfl⟩
        obtain ⟨x1, x2, x3, _⟩ := extendMatch_spec S (S.length - (s + 4)) (s + 4) (t.toNat + 4)
          (by omega)
        rw [← hst] at x1 x2 x3 h
        have hoff := toInt32_sub st.1 st.2 (by omega) (by omega)
        have hlc := toInt32_sub_le st.1 s (by omega)
        rw [hoff] at h
        generalize (toInt32 ((st.1 : Int) - (s : Int))).toNat = lenc at h hlc
        generalize hlv : (if lit ≠ s then emitLiteral d dEnd (slice S lit s) else some d) = o
          at h
        cases o with
        | none => cases h
        | some d1 =>
          dsimp only at h
          have hd1 : 6 * d1.length ≤ 7 * s + 6 := by
            by_cases hl : lit = s
            · rw [if_neg (by simpa using hl)] at hlv
              rw [← Option.some.inj hlv]
              omega
            · rw [if_pos hl] at hlv
              have hlen := slice_length S lit s (by omega) (by omega)
              have := emitLiteral_length d dEnd (slice S lit s) d1 hlv
              omega
          generalize hcv : emitCopy d1 dEnd (st.1 - st.2) lenc = o2 at h
          cases o2 with
          | none => cases h
          | some d2 =>
            dsimp only at h
            have := emitCopy_length d1 dEnd (st.1 - st.2) lenc d2 (by omega) (by omega) hcv
            exact ih _ st.1 st.1 d2 out (Nat.le_refl _) x2 (htbl1 st.1 (by omega)) (by omega) h
    · rw [encodeLoop_tail S dEnd _ tbl s lit d hloop] at h
      by_cases hl : lit = S.length
      · rw [if_neg (by simpa using hl)] at h
        rw [← Option.some.inj h]
        omega
      · rw [if_pos hl] at h
        have hlen := slice_length S lit S.length (by omega) (Nat.le_refl _)
        have := emitLiteral_length d dEnd (slice S lit S.length) out h
        omega

/-- Whatever the source and the destination, a slice that `Encode` returns is
no longer than `MaxEncodedLen`. -/
theorem Encode_bound (dst S c : List Byte) (h : Encode dst S = some c) :
    c.length ≤ MaxEncodedLen S.length := by
  have hv := PutUvarint_length S.length
  rw [Encode_eq] at h
  dsimp only at h
  unfold MaxEncodedLen
  by_cases h0 : S.length = 0
  · rw [if_pos h0] at h
    rw [← Option.some.inj h]
    omega
  · rw [if_neg h0] at h
    cases he : encode ((if dst.length < MaxEncodedLen S.length then MaxEncodedLen S.length
        else dst.length) - (PutUvarint S.length).length) S with
    | none => rw [he] at h; cases h
    | some out =>
      rw [he] at h
      dsimp only at h
      split_ifs at h
      have hsz := encodeLoop_size S _ _ _ 0 0 [] out (Nat.le_refl _) (Nat.zero_le _)
        (fun _ => by simp) (by simp) he
      rw [← Option.some.inj h, List.length_take, List.length_append]
      omega

/-- C2 (size bound). For every byte sequence `S` and every destination `dst`, of
any length: `Encode(dst, S)` returns a slice of length at most
`MaxEncodedLen(len(S)) = 32 + len(S) + len(S)/6`, or it returns no slice at
all, which happens only for a source so long that its worst-case output
`len(S) + len(S)/6 + 5` does not fit a C `int`. Every slice `Encode` returns is
within the bound, and for every source below that size it returns one. -/
theorem C2_size_bound (dst S : List Byte) :
    MaxEncodedLen S.length = 32 + S.length + S.length / 6 ∧
      ((Encode dst S = none ∧ 2 ^ 31 ≤ S.length + S.length / 6 + 5) ∨
        ∃ c, Encode dst S = some c ∧ c.length ≤ MaxEncodedLen S.length) := by
  refine ⟨rfl, ?_⟩
  by_cases hbig : S.length + S.length / 6 + 5 < 2 ^ 31
  · obtain ⟨c, h1, _, _, h4⟩ := Encode_spec S hbig
    exact Or.inr ⟨c, h1 dst, h4⟩
  · cases hE : Encode dst S with
    | none => exact Or.inl ⟨rfl, by omega⟩
    | some c => exact Or.inr ⟨c, rfl, Encode_bound dst S c hE⟩

/-! ## A run of more than `2^31` equal bytes -/

theorem srcAt_zeros (N p : Nat) : srcAt (List.replicate N (0 : Byte)) p = 0 := by
  unfold srcAt
  rw [List.getD_eq_getElem?_getD, List.getElem?_replicate]
  split_ifs <;> rfl

theorem L32_zeros (N p : Nat) : L32 (List.replicate N (0 : Byte)) p = 0 := by
  unfold L32
  rw [srcAt_zeros, srcAt_zeros, srcAt_zeros, srcAt_zeros]
  rfl

theorem extendMatch_zeros (N : Nat) : ∀ (fuel s t : Nat), s + fuel ≤ N →
    extendMatch (List.replicate N (0 : Byte)) fuel s t = (s + fuel, t + fuel) := by
  intro fuel
  induction fuel with
  | zero => intro s t _; rfl
  | succ fuel ih =>
    intro s t h
    rw [extendMatch, if_pos ⟨by rw [List.length_replicate]; omega,
      by rw [srcAt_zeros, srcAt_zeros]⟩, ih (s + 1) (t + 1) (by omega)]
    exact Prod.ext (by simp only; omega) (by simp only; omega)

/-- The bytes `encode` writes for a source of `N` zero bytes, `2^31 + 2 ≤ N ≤ 2^32`:
the literal `00 00` for the first byte and nothing else, because the match
length `N - 1` of the copy that follows is negative as an `int`. -/
theorem encode_zeros (N dEnd : Nat) (h1 : 2 ^ 31 + 2 ≤ N) (h2 : N ≤ 2 ^ 32) (hr : 7 ≤ dEnd) :
    encode dEnd (List.replicate N (0 : Byte)) = some [0, 0] := by
  have h1' : 2147483650 ≤ N := h1
  have h2' : N ≤ 4294967296 := h2
  obtain ⟨k, hk⟩ : ∃ k, N = k + 2 := ⟨N - 2, by omega⟩
  have hlen : (List.replicate N (0 : Byte)).length = k + 1 + 1 := by
    rw [List.length_replicate, hk]
  have hslice : slice (List.replicate N (0 : Byte)) 0 1 = [0] := by
    unfold slice
    rw [List.drop_zero, hk]
    rfl
  unfold encode
  rw [hlen]
  -- position 0: the table is empty
  rw [encodeLoop_miss _ dEnd (k + 1 + 1) (fun _ => -1) 0 0 [] (by rw [hlen]; omega)
    (Or.inl (show (-1 : Int) < 0 by decide))]
  -- position 1: the candidate is position 0
  have ht : (if hashSlot (L32 (List.replicate N (0 : Byte)) (0 + 1))
      = hashSlot (L32 (List.replicate N (0 : Byte)) 0) then ((0 : Nat) : Int) else -1) = 0 := by
    rw [L32_zeros, L32_zeros, if_pos rfl]
    rfl
  rw [encodeLoop_hit _ dEnd (k + 1) _ (0 + 1) 0 [] (by rw [hlen]; omega) (by
    rw [ht, MAXOFFSET_eq]
    intro h
    rcases h with h | h | h
    · exact absurd h (by decide)
    · exact absurd h (by decide)
    · exact h (by rw [L32_zeros, L32_zeros])), ht]
  have hst : extendMatch (List.replicate N (0 : Byte))
      ((List.replicate N (0 : Byte)).length - (0 + 1 + 4)) (0 + 1 + 4) ((0 : Int).toNat + 4)
      = (N, N - 1) := by
    rw [extendMatch_zeros N _ _ _ (by rw [hlen]; omega), hlen]
    exact Prod.ext (by simp only; omega) (by
      simp only
      rw [show (0 : Int).toNat = 0 from rfl]
      omega)
  rw [hst, if_pos (by decide), hslice, emitLiteral_eq [] dEnd [0] (by decide),
    if_neg (by simp only [List.length_nil, List.length_cons]; omega)]
  dsimp only
  have hoff : (toInt32 ((N : Int) - ((N - 1 : Nat) : Int))).toNat = 1 := by
    unfold toInt32
    omega
  have hl : (toInt32 ((N : Int) - ((0 + 1 : Nat) : Int))).toNat = 0 := by
    unfold toInt32
    omega
  rw [hoff, hl, emitCopy, emitCopyLoop_zero]
  dsimp only
  rw [encodeLoop_tail _ dEnd k _ N N _ (by rw [List.length_replicate]; omega),
    if_neg (by rw [List.length_replicate]; exact fun h => h rfl)]
  rfl

/-- The block `Encode` returns for a source of `N` zero bytes, `2^31 + 2 ≤ N ≤ 2^32`:
the varint of `N` and the two bytes of a one-byte literal. -/
theorem Encode_zeros (N : Nat) (h1 : 2 ^ 31 + 2 ≤ N) (h2 : N ≤ 2 ^ 32) (dst : List Byte) :
    Encode dst (List.replicate N (0 : Byte)) = some (PutUvarint N ++ [0, 0]) := by
  have h1' : 2147483650 ≤ N := h1
  have hv := PutUvarint_length N
  rw [Encode_eq]
  dsimp only
  rw [List.length_replicate, if_neg (by omega), encode_zeros N _ h1 h2 (by
    unfold MaxEncodedLen
    split_ifs <;> omega)]
  dsimp only
  rw [show toInt32 ((([0, 0] : List Byte).length : Nat) : Int) = 2 from by decide,
    if_neg (by decide), show (2 : Int).toNat = 2 from rfl,
    List.take_of_length_le (by simp)]

/-- C1 (block round trip), the code at a failing input. For the source of
`2^31 + 10` zero bytes `Encode(nil, S)` returns the 7 bytes
`8a 80 80 80 08 00 00`: the varint of `2^31 + 10` and a literal of one byte.
The match of the other `2^31 + 9` bytes is lost, its length being negative as
an `int` (`-2147483639`), for which `emitCopy` writes nothing. The block
declares `2^31 + 10` bytes and the decoder of spec §4.2 fails on it. -/
theorem C1_round_trip_fails :
    Encode [] (List.replicate 2147483658 (0 : Byte)) = some [138, 128, 128, 128, 8, 0, 0] ∧
      toInt32 (2147483658 - 1) = -2147483639 ∧
      DecodedLen [138, 128, 128, 128, 8, 0, 0] = some 2147483658 ∧
      Decode [138, 128, 128, 128, 8, 0, 0] = none := by
  have hv : PutUvarint 2147483658 = [138, 128, 128, 128, 8] := by decide
  have h := Encode_zeros 2147483658 (by norm_num) (by norm_num) []
  rw [hv] at h
  exact ⟨h, by decide, by decide, by decide⟩

/-! ## A source without a match -/

theorem recordByte_zero_iff (p : Nat) : (recordByte p).val = 0 ↔ p % 3 = 0 := by
  unfold recordByte
  split_ifs with h0 h1
  · exact ⟨fun _ => h0, fun _ => rfl⟩
  · rw [byte_val]
    constructor
    · intro h; omega
    · intro h; exact absurd h h0
  · rw [byte_val]
    constructor
    · intro h; omega
    · intro h; exact absurd h h0

theorem recordByte_one (p : Nat) (h : p % 3 = 1) :
    (recordByte p).val = 1 + (p / 3) % 65025 / 255 := by
  unfold recordByte
  rw [if_neg (by omega), if_pos h, byte_val]
  omega

theorem recordByte_two (p : Nat) (h : p % 3 = 2) :
    (recordByte p).val = 1 + (p / 3) % 65025 % 255 := by
  unfold recordByte
  rw [if_neg (by omega), if_neg (by omega), byte_val]
  omega

/-- Two windows of four bytes of the record sequence that start at most
`32768` positions apart differ. -/
theorem record_window (i j : Nat) (hij : i < j) (hd : j - i ≤ 32768)
    (h : ∀ m, m < 4 → (recordByte (i + m)).val = (recordByte (j + m)).val) : False := by
  have hr : i % 3 = 0 ∨ i % 3 = 1 ∨ i % 3 = 2 := by omega
  -- the two digits give the record number
  have key : ∀ m, m + 1 < 4 → (i + m) % 3 = 1 → (j + m) % 3 = 1 → False := by
    intro m hm hi1 hj1
    have e1 := h m (by omega)
    rw [recordByte_one _ hi1, recordByte_one _ hj1] at e1
    have e2 := h (m + 1) (by omega)
    rw [← Nat.add_assoc, ← Nat.add_assoc, recordByte_two _ (by omega),
      recordByte_two _ (by omega)] at e2
    have d1 : (i + m + 1) / 3 = (i + m) / 3 := by omega
    have d2 : (j + m + 1) / 3 = (j + m) / 3 := by omega
    rw [d1, d2] at e2
    have hq : (j + m) / 3 = (i + m) / 3 + (j - i) / 3 ∧ 1 ≤ (j - i) / 3
        ∧ (j - i) / 3 ≤ 10922 := by omega
    obtain ⟨q1, q2, q3⟩ := hq
    generalize (j - i) / 3 = q at q1 q2 q3
    generalize (i + m) / 3 = A at e1 e2 q1
    generalize (j + m) / 3 = B at e1 e2 q1
    have hu : A % 65025 = B % 65025 := by
      generalize A % 65025 = u at e1 e2
      generalize B % 65025 = v at e1 e2
      omega
    omega
  -- the position of the zero byte gives the alignment
  have zero : ∀ m, m < 4 → (i + m) % 3 = 0 → (j + m) % 3 = 0 := by
    intro m hm hi0
    have z : (recordByte (i + m)).val = 0 := (recordByte_zero_iff _).mpr hi0
    rw [h m hm] at z
    exact (recordByte_zero_iff _).mp z
  rcases hr with r | r | r
  · have := zero 0 (by omega) (by omega)
    exact key 1 (by omega) (by omega) (by omega)
  · have := zero 2 (by omega) (by omega)
    exact key 0 (by omega) (by omega) (by omega)
  · have := zero 1 (by omega) (by omega)
    exact key 2 (by omega) (by omega) (by omega)

theorem srcAt_recordInput (n p : Nat) (h : p < n) :
    srcAt (recordInput n) p = (recordByte p).val := by
  unfold srcAt recordInput
  rw [List.getD_eq_getElem?_getD, List.getElem?_map, List.getElem?_range h]
  rfl

theorem recordInput_length (n : Nat) : (recordInput n).length = n := by
  unfold recordInput
  rw [List.length_map, List.length_range]

/-- In the record sequence no four bytes occur again within `32768` positions. -/
theorem recordInput_no_repeat (n i j : Nat) (hij : i < j) (hj : j + 3 < n)
    (hd : j - i ≤ 32768) : L32 (recordInput n) i ≠ L32 (recordInput n) j := by
  intro h
  refine record_window i j hij hd (fun m hm => ?_)
  have := L32_inj (recordInput n) i j h m hm
  rw [srcAt_recordInput n _ (by omega), srcAt_recordInput n _ (by omega)] at this
  exact this

/-- On a source in which no four bytes occur again within `2^15` positions every
match test fails, and the loop of `encode` ends with the whole source as one
pending literal. -/
theorem encodeLoop_nomatch (S : List Byte) (dEnd : Nat)
    (hnr : ∀ i j, i < j → j + 3 < S.length → j - i ≤ 32768 → L32 S i ≠ L32 S j) :
    ∀ (fuel : Nat) (tbl : Nat → Int) (s : Nat), s ≤ S.length → S.length + 1 ≤ fuel + s →
      (∀ i, tbl i < (s : Int)) →
      encodeLoop S dEnd fuel tbl s 0 []
        = if 0 ≠ S.length then emitLiteral [] dEnd (slice S 0 S.length) else some [] := by
  intro fuel
  induction fuel with
  | zero => intro tbl s hs hf _; omega
  | succ fuel ih =>
    intro tbl s hs hf htbl
    by_cases hloop : s + 3 < S.length
    · have hm : tbl (hashSlot (L32 S s)) < 0
          ∨ (s : Int) - tbl (hashSlot (L32 S s)) > (MAXOFFSET : Int)
          ∨ L32 S s ≠ L32 S (tbl (hashSlot (L32 S s))).toNat := by
        have htl := htbl (hashSlot (L32 S s))
        generalize tbl (hashSlot (L32 S s)) = t at htl
        rw [MAXOFFSET_eq]
        by_cases h0 : t < 0
        · exact Or.inl h0
        · by_cases h1 : (s : Int) - t > ((32768 : Nat) : Int)
          · exact Or.inr (Or.inl h1)
          · refine Or.inr (Or.inr (fun e => ?_))
            exact hnr t.toNat s (by omega) hloop (by omega) e.symm
      rw [encodeLoop_miss S dEnd fuel tbl s 0 [] hloop hm]
      refine ih _ (s + 1) (by omega) (by omega) ?_
      intro i
      dsimp only
      split_ifs
      · omega
      · have := htbl i; omega
    · rw [encodeLoop_tail S dEnd fuel tbl s 0 [] hloop]

theorem literalHeader_big (len : Nat) (h1 : 2 ^ 24 ≤ len) (h2 : len < 2 ^ 32) :
    (literalHeader len).length = 5 := by
  have h1' : 16777216 ≤ len := h1
  have h2' : len < 4294967296 := h2
  have e16 : (1 : Nat) <<< 16 = 65536 := by decide
  have e24 : (1 : Nat) <<< 24 = 16777216 := by decide
  have e32 : (1 : Nat) <<< 32 = 4294967296 := by decide
  unfold literalHeader
  simp only [e16, e24, e32]
  rw [if_neg (by omega), if_neg (by omega), if_neg (by omega), if_neg (by omega),
    if_neg (by omega), if_pos h2']
  rfl

/-- On a source of `2^31 - 5 ≤ n < 2^31` bytes without a match `encode` writes one
literal of `n + 5` bytes and no space check fires; the number of bytes written
is negative as an `int`, and `Encode` panics. -/
theorem Encode_nomatch (S dst : List Byte)
    (hnr : ∀ i j, i < j → j + 3 < S.length → j - i ≤ 32768 → L32 S i ≠ L32 S j)
    (h1 : 2 ^ 31 - 5 ≤ S.length) (h2 : S.length < 2 ^ 31) :
    (∃ out, encode ((if dst.length < MaxEncodedLen S.length then MaxEncodedLen S.length
        else dst.length) - (PutUvarint S.length).length) S = some out ∧
      out.length = S.length + 5 ∧ toInt32 out.length < 0) ∧
    encodeResult ((if dst.length < MaxEncodedLen S.length then MaxEncodedLen S.length
        else dst.length) - (PutUvarint S.length).length) S < 0 ∧
    Encode dst S = none := by
  have h1' : 2147483643 ≤ S.length := h1
  have h2' : S.length < 2147483648 := h2
  have hv := PutUvarint_length S.length
  have hsl : slice S 0 S.length = S := by
    unfold slice
    rw [List.drop_zero, Nat.sub_zero, List.take_length]
  have henc : ∀ dEnd, S.length + 6 ≤ dEnd →
      encode dEnd S = some ([] ++ literalHeader S.length ++ S) := by
    intro dEnd hroom
    unfold encode
    rw [encodeLoop_nomatch S dEnd hnr (S.length + 1) (fun _ => -1) 0 (Nat.zero_le _)
      (by omega) (fun _ => by simp), if_pos (by omega), hsl, emitLiteral_eq [] dEnd S h2,
      if_neg (by simp only [List.length_nil]; omega)]
  have hroom : S.length + 6 ≤ (if dst.length < MaxEncodedLen S.length
      then MaxEncodedLen S.length else dst.length) - (PutUvarint S.length).length := by
    unfold MaxEncodedLen
    split_ifs <;> omega
  have hlen : ([] ++ literalHeader S.length ++ S).length = S.length + 5 := by
    rw [List.length_append, List.length_append, List.length_nil,
      literalHeader_big S.length (by omega) (by omega)]
    omega
  have hneg : toInt32 (([] ++ literalHeader S.length ++ S).length : Int) < 0 := by
    rw [hlen]
    unfold toInt32
    omega
  refine ⟨⟨_, henc _ hroom, hlen, hneg⟩, ?_, ?_⟩
  · unfold encodeResult
    rw [henc _ hroom]
    exact hneg
  rw [Encode_eq]
  dsimp only
  rw [if_neg (by omega), henc _ hroom]
  dsimp only
  rw [if_pos hneg]

/-- C17 (the insufficient-space branch under the presizing contract), the code
at a failing input. The source is the first `2^31 - 1` bytes of the sequence of
three-byte records `00 x y` (shorter than `2^31`, not empty, and without four
bytes that occur again within `2^15` positions). With a destination of
`MaxEncodedLen` bytes or more, `encode` writes its output, `2^31 + 4` bytes,
and neither space check fires; but that number is negative as an `int`, the
result of `encode` is below zero, and `Encode` panics with "destination buffer
too small". -/
theorem C17_presized_encode_panics :
    (recordInput 2147483647).length = 2147483647 ∧
      ∀ dst : List Byte,
        (∃ out, encode ((if dst.length < MaxEncodedLen 2147483647 then MaxEncodedLen 2147483647
            else dst.length) - (PutUvarint 2147483647).length) (recordInput 2147483647)
              = some out ∧
          out.length = 2147483647 + 5 ∧ toInt32 out.length < 0) ∧
        encodeResult ((if dst.length < MaxEncodedLen 2147483647 then MaxEncodedLen 2147483647
            else dst.length) - (PutUvarint 2147483647).length) (recordInput 2147483647) < 0 ∧
        Encode dst (recordInput 2147483647) = none := by
  have hl := recordInput_length 2147483647
  refine ⟨hl, fun dst => ?_⟩
  have h := Encode_nomatch (recordInput 2147483647) dst
    (fun i j hij hj hd => recordInput_no_repeat 2147483647 i j hij (by rw [hl] at hj; exact hj) hd)
    (by rw [hl]; norm_num) (by rw [hl]; norm_num)
  rw [hl] at h
  exact h

end Sz
